import Mathlib

/-!
# One-time passwords (HOTP / TOTP): the code engine and the time window

A shallow embedding of `Server/app/otp/hotp.go`, `totp.go` and `otp.go`.
Bytes are natural numbers below 256, machine integers are `Nat` / `Int` with
explicit wrap-around, Go strings are lists of Unicode code points (`List Char`)
whose `len` is their UTF-8 byte length, and a Go function that returns
`(value, error)` or may fail at run time returns a `Run`, where `none` is a panic.

The library calls the Go code makes (`crypto/hmac`, `crypto/sha1`, `crypto/sha256`,
`crypto/sha512`, `crypto/md5`, `encoding/base32`, `strings`, `fmt`, `math`) are
embedded as executable definitions of the published algorithms.
-/

namespace OTP

/-! ## Machine words and byte strings -/

/-- Rotate the `w`-bit word `x` left by `n` bits. -/
def rotl (w n x : Nat) : Nat := ((x <<< n) ||| (x >>> (w - n))) % 2 ^ w

/-- Rotate the `w`-bit word `x` right by `n` bits. -/
def rotr (w n x : Nat) : Nat := ((x >>> n) ||| (x <<< (w - n))) % 2 ^ w

/-- Bitwise complement of a `w`-bit word. -/
def notw (w x : Nat) : Nat := (2 ^ w - 1) ^^^ (x % 2 ^ w)

/-- The `n` low bytes of `x`, least significant first. -/
def leBytes : Nat → Nat → List Nat
  | 0, _ => []
  | n + 1, x => x % 256 :: leBytes n (x / 256)

/-- The `n` low bytes of `x`, most significant first (`binary.BigEndian.PutUint64` for `n = 8`). -/
def beBytes (n x : Nat) : List Nat := (leBytes n x).reverse

/-- Big-endian value of a byte string. -/
def beWord (bs : List Nat) : Nat := bs.foldl (fun a b => a * 256 + b) 0

/-- Little-endian value of a byte string. -/
def leWord (bs : List Nat) : Nat := bs.foldr (fun b a => a * 256 + b) 0

/-- Cut a list into pieces of `n` elements (the last one may be shorter); `fuel` bounds the
number of pieces. -/
def chunksOf {α : Type} (n : Nat) : Nat → List α → List (List α)
  | 0, _ => []
  | _, [] => []
  | fuel + 1, x :: xs => (x :: xs).take n :: chunksOf n fuel ((x :: xs).drop n)

/-- Merkle-Damgard padding: a `0x80` byte, zero bytes, and the bit length of the message in
`lenBytes` bytes, filling up to a multiple of `block` bytes. -/
def mdPad (block lenBytes : Nat) (bigEndian : Bool) (msg : List Nat) : List Nat :=
  let zeros := (block - (msg.length + 1 + lenBytes) % block) % block
  let bits := msg.length * 8
  msg ++ 0x80 :: List.replicate zeros 0 ++
    (if bigEndian then beBytes lenBytes bits else leBytes lenBytes bits)

/-- The blocks of the padded message, each as a list of words of `wbytes` bytes. -/
def mdBlocks (block lenBytes wbytes : Nat) (bigEndian : Bool) (msg : List Nat) :
    List (List Nat) :=
  let p := mdPad block lenBytes bigEndian msg
  (chunksOf block p.length p).map fun b =>
    (chunksOf wbytes b.length b).map (if bigEndian then beWord else leWord)

/-! ## SHA-1 (FIPS 180-4) -/

def sha1Init : List Nat := [0x67452301, 0xEFCDAB89, 0x98BADCFE, 0x10325476, 0xC3D2E1F0]

/-- Message schedule, newest word first: extend the schedule `w` by `n` words. -/
def sha1Schedule : Nat → List Nat → List Nat
  | 0, w => w
  | n + 1, w =>
    sha1Schedule n
      (rotl 32 1 (w.getD 2 0 ^^^ w.getD 7 0 ^^^ w.getD 13 0 ^^^ w.getD 15 0) :: w)

def sha1F (t b c d : Nat) : Nat :=
  if t < 20 then (b &&& c) ||| (notw 32 b &&& d)
  else if t < 40 then b ^^^ c ^^^ d
  else if t < 60 then (b &&& c) ||| (b &&& d) ||| (c &&& d)
  else b ^^^ c ^^^ d

def sha1K (t : Nat) : Nat :=
  if t < 20 then 0x5A827999 else if t < 40 then 0x6ED9EBA1
  else if t < 60 then 0x8F1BBCDC else 0xCA62C1D6

def sha1Round (s : List Nat) (tw : Nat × Nat) : List Nat :=
  match s with
  | [a, b, c, d, e] =>
    [(rotl 32 5 a + sha1F tw.1 b c d + e + sha1K tw.1 + tw.2) % 2 ^ 32, a, rotl 32 30 b, c, d]
  | _ => s

def addWords (w : Nat) (h s : List Nat) : List Nat :=
  List.zipWith (fun x y => (x + y) % 2 ^ w) h s

def sha1Compress (h : List Nat) (block : List Nat) : List Nat :=
  let w := (sha1Schedule 64 block.reverse).reverse
  addWords 32 h (((List.range 80).zip w).foldl sha1Round h)

def sha1 (msg : List Nat) : List Nat :=
  ((mdBlocks 64 8 4 true msg).foldl sha1Compress sha1Init).flatMap (beBytes 4)

/-! ## SHA-256 and SHA-512 (FIPS 180-4) -/

def sha256K : List Nat :=
 [
  0x428a2f98, 0x71374491, 0xb5c0fbcf, 0xe9b5dba5, 0x3956c25b, 0x59f111f1, 0x923f82a4, 0xab1c5ed5,
  0xd807aa98, 0x12835b01, 0x243185be, 0x550c7dc3, 0x72be5d74, 0x80deb1fe, 0x9bdc06a7, 0xc19bf174,
  0xe49b69c1, 0xefbe4786, 0x0fc19dc6, 0x240ca1cc, 0x2de92c6f, 0x4a7484aa, 0x5cb0a9dc, 0x76f988da,
  0x983e5152, 0xa831c66d, 0xb00327c8, 0xbf597fc7, 0xc6e00bf3, 0xd5a79147, 0x06ca6351, 0x14292967,
  0x27b70a85, 0x2e1b2138, 0x4d2c6dfc, 0x53380d13, 0x650a7354, 0x766a0abb, 0x81c2c92e, 0x92722c85,
  0xa2bfe8a1, 0xa81a664b, 0xc24b8b70, 0xc76c51a3, 0xd192e819, 0xd6990624, 0xf40e3585, 0x106aa070,
  0x19a4c116, 0x1e376c08, 0x2748774c, 0x34b0bcb5, 0x391c0cb3, 0x4ed8aa4a, 0x5b9cca4f, 0x682e6ff3,
  0x748f82ee, 0x78a5636f, 0x84c87814, 0x8cc70208, 0x90befffa, 0xa4506ceb, 0xbef9a3f7, 0xc67178f2
 ]

def sha256Init : List Nat :=
 [
  0x6a09e667, 0xbb67ae85, 0x3c6ef372, 0xa54ff53a, 0x510e527f, 0x9b05688c, 0x1f83d9ab, 0x5be0cd19
 ]

def sha512K : List Nat :=
 [
  0x428a2f98d728ae22, 0x7137449123ef65cd, 0xb5c0fbcfec4d3b2f, 0xe9b5dba58189dbbc,
  0x3956c25bf348b538, 0x59f111f1b605d019, 0x923f82a4af194f9b, 0xab1c5ed5da6d8118,
  0xd807aa98a3030242, 0x12835b0145706fbe, 0x243185be4ee4b28c, 0x550c7dc3d5ffb4e2,
  0x72be5d74f27b896f, 0x80deb1fe3b1696b1, 0x9bdc06a725c71235, 0xc19bf174cf692694,
  0xe49b69c19ef14ad2, 0xefbe4786384f25e3, 0x0fc19dc68b8cd5b5, 0x240ca1cc77ac9c65,
  0x2de92c6f592b0275, 0x4a7484aa6ea6e483, 0x5cb0a9dcbd41fbd4, 0x76f988da831153b5,
  0x983e5152ee66dfab, 0xa831c66d2db43210, 0xb00327c898fb213f, 0xbf597fc7beef0ee4,
  0xc6e00bf33da88fc2, 0xd5a79147930aa725, 0x06ca6351e003826f, 0x142929670a0e6e70,
  0x27b70a8546d22ffc, 0x2e1b21385c26c926, 0x4d2c6dfc5ac42aed, 0x53380d139d95b3df,
  0x650a73548baf63de, 0x766a0abb3c77b2a8, 0x81c2c92e47edaee6, 0x92722c851482353b,
  0xa2bfe8a14cf10364, 0xa81a664bbc423001, 0xc24b8b70d0f89791, 0xc76c51a30654be30,
  0xd192e819d6ef5218, 0xd69906245565a910, 0xf40e35855771202a, 0x106aa07032bbd1b8,
  0x19a4c116b8d2d0c8, 0x1e376c085141ab53, 0x2748774cdf8eeb99, 0x34b0bcb5e19b48a8,
  0x391c0cb3c5c95a63, 0x4ed8aa4ae3418acb, 0x5b9cca4f7763e373, 0x682e6ff3d6b2b8a3,
  0x748f82ee5defb2fc, 0x78a5636f43172f60, 0x84c87814a1f0ab72, 0x8cc702081a6439ec,
  0x90befffa23631e28, 0xa4506cebde82bde9, 0xbef9a3f7b2c67915, 0xc67178f2e372532b,
  0xca273eceea26619c, 0xd186b8c721c0c207, 0xeada7dd6cde0eb1e, 0xf57d4f7fee6ed178,
  0x06f067aa72176fba, 0x0a637dc5a2c898a6, 0x113f9804bef90dae, 0x1b710b35131c471b,
  0x28db77f523047d84, 0x32caab7b40c72493, 0x3c9ebe0a15c9bebc, 0x431d67c49c100d4c,
  0x4cc5d4becb3e42b6, 0x597f299cfc657e2a, 0x5fcb6fab3ad6faec, 0x6c44198c4a475817
 ]

def sha512Init : List Nat :=
 [
  0x6a09e667f3bcc908, 0xbb67ae8584caa73b, 0x3c6ef372fe94f82b, 0xa54ff53a5f1d36f1,
  0x510e527fade682d1, 0x9b05688c2b3e6c1f, 0x1f83d9abfb41bd6b, 0x5be0cd19137e2179
 ]

/-- Rotation and shift amounts of a SHA-2 variant: word size, the three amounts of the two
big sigmas and the two rotations and one shift of the two small sigmas. -/
structure Sha2Params where
  w : Nat
  S0 : Nat × Nat × Nat
  S1 : Nat × Nat × Nat
  s0 : Nat × Nat × Nat
  s1 : Nat × Nat × Nat
  rounds : Nat
  k : List Nat

def sha256Params : Sha2Params :=
  ⟨32, (2, 13, 22), (6, 11, 25), (7, 18, 3), (17, 19, 10), 64, sha256K⟩

def sha512Params : Sha2Params :=
  ⟨64, (28, 34, 39), (14, 18, 41), (1, 8, 7), (19, 61, 6), 80, sha512K⟩

def bigSigma (w : Nat) (r : Nat × Nat × Nat) (x : Nat) : Nat :=
  rotr w r.1 x ^^^ rotr w r.2.1 x ^^^ rotr w r.2.2 x

def smallSigma (w : Nat) (r : Nat × Nat × Nat) (x : Nat) : Nat :=
  rotr w r.1 x ^^^ rotr w r.2.1 x ^^^ (x >>> r.2.2)

/-- Message schedule, newest word first. -/
def sha2Schedule (p : Sha2Params) : Nat → List Nat → List Nat
  | 0, w => w
  | n + 1, w =>
    sha2Schedule p n
      ((smallSigma p.w p.s1 (w.getD 1 0) + w.getD 6 0 + smallSigma p.w p.s0 (w.getD 14 0)
        + w.getD 15 0) % 2 ^ p.w :: w)

def sha2Round (p : Sha2Params) (s : List Nat) (kw : Nat × Nat) : List Nat :=
  match s with
  | [a, b, c, d, e, f, g, h] =>
    let t1 := h + bigSigma p.w p.S1 e + ((e &&& f) ^^^ (notw p.w e &&& g)) + kw.1 + kw.2
    let t2 := bigSigma p.w p.S0 a + ((a &&& b) ^^^ (a &&& c) ^^^ (b &&& c))
    [(t1 + t2) % 2 ^ p.w, a, b, c, (d + t1) % 2 ^ p.w, e, f, g]
  | _ => s

def sha2Compress (p : Sha2Params) (h : List Nat) (block : List Nat) : List Nat :=
  let w := (sha2Schedule p (p.rounds - 16) block.reverse).reverse
  addWords p.w h ((p.k.zip w).foldl (sha2Round p) h)

def sha256 (msg : List Nat) : List Nat :=
  ((mdBlocks 64 8 4 true msg).foldl (sha2Compress sha256Params) sha256Init).flatMap (beBytes 4)

def sha512 (msg : List Nat) : List Nat :=
  ((mdBlocks 128 16 8 true msg).foldl (sha2Compress sha512Params) sha512Init).flatMap (beBytes 8)

/-! ## MD5 (RFC 1321) -/

def md5T : List Nat :=
 [
  0xd76aa478, 0xe8c7b756, 0x242070db, 0xc1bdceee, 0xf57c0faf, 0x4787c62a, 0xa8304613, 0xfd469501,
  0x698098d8, 0x8b44f7af, 0xffff5bb1, 0x895cd7be, 0x6b901122, 0xfd987193, 0xa679438e, 0x49b40821,
  0xf61e2562, 0xc040b340, 0x265e5a51, 0xe9b6c7aa, 0xd62f105d, 0x02441453, 0xd8a1e681, 0xe7d3fbc8,
  0x21e1cde6, 0xc33707d6, 0xf4d50d87, 0x455a14ed, 0xa9e3e905, 0xfcefa3f8, 0x676f02d9, 0x8d2a4c8a,
  0xfffa3942, 0x8771f681, 0x6d9d6122, 0xfde5380c, 0xa4beea44, 0x4bdecfa9, 0xf6bb4b60, 0xbebfbc70,
  0x289b7ec6, 0xeaa127fa, 0xd4ef3085, 0x04881d05, 0xd9d4d039, 0xe6db99e5, 0x1fa27cf8, 0xc4ac5665,
  0xf4292244, 0x432aff97, 0xab9423a7, 0xfc93a039, 0x655b59c3, 0x8f0ccc92, 0xffeff47d, 0x85845dd1,
  0x6fa87e4f, 0xfe2ce6e0, 0xa3014314, 0x4e0811a1, 0xf7537e82, 0xbd3af235, 0x2ad7d2bb, 0xeb86d391
 ]

def md5Shift : List Nat :=
  [7, 12, 17, 22, 7, 12, 17, 22, 7, 12, 17, 22, 7, 12, 17, 22,
   5, 9, 14, 20, 5, 9, 14, 20, 5, 9, 14, 20, 5, 9, 14, 20,
   4, 11, 16, 23, 4, 11, 16, 23, 4, 11, 16, 23, 4, 11, 16, 23,
   6, 10, 15, 21, 6, 10, 15, 21, 6, 10, 15, 21, 6, 10, 15, 21]

def md5Init : List Nat := [0x67452301, 0xefcdab89, 0x98badcfe, 0x10325476]

def md5Round (m : List Nat) (s : List Nat) (i : Nat) : List Nat :=
  match s with
  | [a, b, c, d] =>
    let f :=
      if i < 16 then (b &&& c) ||| (notw 32 b &&& d)
      else if i < 32 then (d &&& b) ||| (notw 32 d &&& c)
      else if i < 48 then b ^^^ c ^^^ d
      else c ^^^ (b ||| notw 32 d)
    let g :=
      if i < 16 then i
      else if i < 32 then (5 * i + 1) % 16
      else if i < 48 then (3 * i + 5) % 16
      else (7 * i) % 16
    let x := (a + f + md5T.getD i 0 + m.getD g 0) % 2 ^ 32
    [d, (b + rotl 32 (md5Shift.getD i 0) x) % 2 ^ 32, b, c]
  | _ => s

def md5Compress (h : List Nat) (block : List Nat) : List Nat :=
  addWords 32 h ((List.range 64).foldl (md5Round block) h)

def md5 (msg : List Nat) : List Nat :=
  ((mdBlocks 64 8 4 false msg).foldl md5Compress md5Init).flatMap (leBytes 4)

/-! ## HMAC (RFC 2104), as computed by `crypto/hmac` -/

/-- The hash functions `Algorithm.Hash` can construct. -/
inductive HashKind
  | sha1 | sha256 | sha512 | md5
  deriving DecidableEq, Repr

/-- Digest of a message (`hash.Hash.Sum` after one `Write`). -/
def HashKind.sum : HashKind → List Nat → List Nat
  | .sha1 => OTP.sha1
  | .sha256 => OTP.sha256
  | .sha512 => OTP.sha512
  | .md5 => OTP.md5

/-- Block size in bytes (`hash.Hash.BlockSize`). -/
def HashKind.blockSize : HashKind → Nat
  | .sha1 => 64
  | .sha256 => 64
  | .sha512 => 128
  | .md5 => 64

/-- Digest size in bytes (`hash.Hash.Size`). -/
def HashKind.size : HashKind → Nat
  | .sha1 => 20
  | .sha256 => 32
  | .sha512 => 64
  | .md5 => 16

/-- The MAC of `msg` under `key`: `hmac.New(h, key)`, one `Write(msg)`, then `Sum(nil)`. -/
def hmacSum (h : HashKind) (key msg : List Nat) : List Nat :=
  let k := if h.blockSize < key.length then h.sum key else key
  let k := k ++ List.replicate (h.blockSize - k.length) 0
  h.sum (k.map (· ^^^ 0x5c) ++ h.sum (k.map (· ^^^ 0x36) ++ msg))

/-! ## Go strings -/

/-- A Go string holding UTF-8 text, as its sequence of code points. -/
abbrev GoString := List Char

/-- UTF-8 encoding of one code point. -/
def utf8Char (c : Char) : List Nat :=
  let n := c.toNat
  if n < 0x80 then [n]
  else if n < 0x800 then [0xC0 + n / 64, 0x80 + n % 64]
  else if n < 0x10000 then [0xE0 + n / 4096, 0x80 + n / 64 % 64, 0x80 + n % 64]
  else [0xF0 + n / 262144, 0x80 + n / 4096 % 64, 0x80 + n / 64 % 64, 0x80 + n % 64]

/-- The bytes of a string: `[]byte(s)`. -/
def GoString.bytes (s : GoString) : List Nat := s.flatMap utf8Char

/-- Length in bytes: Go's `len(s)`. -/
def GoString.len (s : GoString) : Nat := s.bytes.length

/-- White space as `unicode.IsSpace` defines it. -/
def isSpace (c : Char) : Bool :=
  let n := c.toNat
  n == 0x09 || n == 0x0A || n == 0x0B || n == 0x0C || n == 0x0D || n == 0x20 ||
  n == 0x85 || n == 0xA0 || n == 0x1680 || (0x2000 ≤ n && n ≤ 0x200A) ||
  n == 0x2028 || n == 0x2029 || n == 0x202F || n == 0x205F || n == 0x3000

/-- Go's `strings.TrimSpace`: drop leading and trailing white space. -/
def TrimSpace (s : GoString) : GoString :=
  ((s.dropWhile isSpace).reverse.dropWhile isSpace).reverse

/-- Upper case of one code point, `unicode.ToUpper`: ASCII letters exactly; outside ASCII
the two code points whose upper case is an ASCII letter (dotless i, U+0131, and long s,
U+017F) are mapped to it, and the remaining entries of the Unicode case tables are not
embedded: such a code point is kept as it is, where `strings.ToUpper` writes its capital,
which can have another length in bytes (U+0250 becomes U+2C6F, U+2C65 becomes U+023A). On a
secret that holds such a code point the embedding of `GenerateCodeCustom` can therefore
differ from the code; it is exact on every secret whose code points with a capital are
ASCII, U+0131 or U+017F, which includes all Base32 text. The theorems that depend on the
case of a non-ASCII code point are stated for ASCII strings. -/
def unicodeToUpper (c : Char) : Char :=
  if 'a' ≤ c ∧ c ≤ 'z' then Char.ofNat (c.toNat - 32)
  else if c = Char.ofNat 0x131 then 'I'
  else if c = Char.ofNat 0x17F then 'S'
  else c

/-- Go's `strings.ToUpper`. -/
def ToUpper (s : GoString) : GoString := s.map unicodeToUpper

/-- Go's `strings.Repeat("=", n)`. -/
def repeatEq (n : Nat) : GoString := List.replicate n '='

/-! ## Base32 (`encoding/base32`) -/

/-- An encoding: `StdEncoding` has `padded = true`; `WithPadding(NoPadding)` has
`padded = false`. -/
structure Encoding where
  padded : Bool
  deriving DecidableEq, Repr

def StdEncoding : Encoding := ⟨true⟩

def b32NoPadding : Encoding := ⟨false⟩

/-- The byte the decoder compares against: `byte(enc.padChar)`, with `NoPadding = -1`. -/
def Encoding.padByte (enc : Encoding) : Nat := if enc.padded then 61 else 255

/-- The RFC 4648 alphabet `ABCDEFGHIJKLMNOPQRSTUVWXYZ234567`, by 5-bit value. -/
def encodeChar (v : Nat) : Char :=
  if v < 26 then Char.ofNat (65 + v) else Char.ofNat (24 + v)

/-- Inverse table of the alphabet; `0xFF` marks a byte outside it. -/
def decodeMap (b : Nat) : Nat :=
  if 65 ≤ b ∧ b ≤ 90 then b - 65 else if 50 ≤ b ∧ b ≤ 55 then b - 24 else 0xFF

/-- Remove `\r` and `\n`, as `DecodeString` does before decoding. -/
def stripNewlines (src : List Nat) : List Nat := src.filter fun b => b != 13 && b != 10

/-- Result of reading one quantum of at most 8 characters. -/
structure Quantum where
  dbuf : List Nat
  dlen : Nat
  isEnd : Bool
  rest : List Nat
  deriving DecidableEq, Repr

/-- The inner loop of `decode`, `for j := 0; j < 8;`, started at `j` with `fuel = 8 - j`;
`dbuf` holds the values read so far. `none` is a `CorruptInputError`. -/
def readQuantum (enc : Encoding) : Nat → Nat → List Nat → List Nat → Option Quantum
  | 0, _, dbuf, src => some ⟨dbuf, 8, false, src⟩
  | fuel + 1, j, dbuf, src =>
    match src with
    | [] => if enc.padded then none else some ⟨dbuf, j, true, []⟩
    | c :: src =>
      if c = enc.padByte ∧ 2 ≤ j ∧ src.length < 8 then
        if src.length + j < 8 - 1 then none
        else if (List.range (8 - 1 - j)).any fun k => k < src.length && src.getD k 0 != enc.padByte
        then none
        else if j = 1 ∨ j = 3 ∨ j = 6 then none
        else some ⟨dbuf, j, true, src⟩
      else if decodeMap c = 0xFF then none
      else readQuantum enc fuel (j + 1) (dbuf ++ [decodeMap c]) src

/-- The `switch dlen` of `decode`: pack up to eight 5-bit values into up to five bytes. -/
def packQuantum (dbuf : List Nat) (dlen : Nat) : List Nat :=
  let d (i : Nat) : Nat := dbuf.getD i 0
  let n := if dlen = 8 then 5 else if dlen = 7 then 4 else if dlen = 5 then 3
    else if dlen = 4 then 2 else if dlen = 2 then 1 else 0
  [(d 0 <<< 3 ||| d 1 >>> 2) % 256,
   (d 1 <<< 6 ||| d 2 <<< 1 ||| d 3 >>> 4) % 256,
   (d 3 <<< 4 ||| d 4 >>> 1) % 256,
   (d 4 <<< 7 ||| d 5 <<< 2 ||| d 6 >>> 3) % 256,
   (d 6 <<< 5 ||| d 7) % 256].take n

/-- The outer loop of `decode`, `for len(src) > 0 && !end`; `fuel` bounds the number of
quanta. -/
def decodeLoop (enc : Encoding) : Nat → List Nat → Option (List Nat)
  | 0, _ => some []
  | _ + 1, [] => some []
  | fuel + 1, c :: src =>
    match readQuantum enc 8 0 [] (c :: src) with
    | none => none
    | some q =>
      if q.isEnd then some (packQuantum q.dbuf q.dlen)
      else (decodeLoop enc fuel q.rest).map (packQuantum q.dbuf q.dlen ++ ·)

/-- Go's `Encoding.DecodeString`; `none` is a `CorruptInputError`. -/
def Encoding.DecodeString (enc : Encoding) (s : GoString) : Option (List Nat) :=
  let src := stripNewlines s.bytes
  decodeLoop enc src.length src

/-- The 5-bit values of one group of at most five bytes: 2, 4, 5, 7 or 8 of them for 1, 2,
3, 4 or 5 bytes. -/
def groupDigits (g : List Nat) : List Nat :=
  let v := beWord (g ++ List.replicate (5 - g.length) 0)
  let n := if g.length = 1 then 2 else if g.length = 2 then 4 else if g.length = 3 then 5
    else if g.length = 4 then 7 else 8
  ((List.range 8).map fun i => v / 32 ^ (7 - i) % 32).take n

/-- The characters of one group of at most five bytes, without padding. -/
def encodeGroup (g : List Nat) : GoString := (groupDigits g).map encodeChar

/-- Go's `Encoding.EncodeToString`. -/
def Encoding.EncodeToString (enc : Encoding) (src : List Nat) : GoString :=
  (chunksOf 5 src.length src).flatMap fun g =>
    let cs := encodeGroup g
    if enc.padded then cs ++ List.replicate (8 - cs.length) '=' else cs

/-! ## `otp.go`: errors, algorithms, digits -/

/-- The error values declared in `otp.go`. -/
inductive OtpError
  | ErrValidateSecretInvalidBase32
  | ErrValidateInputInvalidLength
  | ErrGenerateMissingIssuer
  | ErrGenerateMissingAccountName
  deriving DecidableEq, Repr

open OtpError

/-- Embedding of `type Algorithm int`. -/
abbrev Algorithm := Int

def AlgorithmSHA1 : Algorithm := 0

def AlgorithmSHA256 : Algorithm := 1

def AlgorithmSHA512 : Algorithm := 2

def AlgorithmMD5 : Algorithm := 3

/-- Embedding of `Algorithm.Hash`; `none` is `panic("unreached")`. -/
def Algorithm.Hash (a : Algorithm) : Option HashKind :=
  if a = AlgorithmSHA1 then some .sha1
  else if a = AlgorithmSHA256 then some .sha256
  else if a = AlgorithmSHA512 then some .sha512
  else if a = AlgorithmMD5 then some .md5
  else none

/-- Embedding of `type Digits int`. -/
abbrev Digits := Int

def DigitsSix : Digits := 6

def DigitsEight : Digits := 8

/-- Embedding of `Digits.Length`. -/
def Digits.Length (d : Digits) : Int := d

/-- Decimal digits of a natural number (`%d` of a non-negative value). -/
def decimal (n : Nat) : GoString := Nat.toDigits 10 n

/-- Embedding of `Digits.Format`: `fmt.Sprintf(fmt.Sprintf("%%0%dd", d), in)`. For `d >= 0`
the inner format is `%0<d>d`: the sign, if any, then the decimal digits of `in` padded on
the left with `0` to a total width of `d`. For `d < 0` the format reads `%0-<|d|>d`, where
the minus flag cancels the zero flag: the number, then spaces up to width `|d|`. (A width
above `10^6` is refused by `fmt`; that range is not modelled.) -/
def Digits.Format (d : Digits) (v : Int) : GoString :=
  let ds := decimal v.natAbs
  if 0 ≤ d then
    if v < 0 then '-' :: (List.replicate (d.toNat - 1 - ds.length) '0' ++ ds)
    else List.replicate (d.toNat - ds.length) '0' ++ ds
  else
    let body := if v < 0 then '-' :: ds else ds
    body ++ List.replicate ((-d).toNat - body.length) ' '

/-- Conversion to `int32`: wrap into `[-2^31, 2^31)`. -/
def toInt32 (x : Int) : Int := (x + 2 ^ 31) % 2 ^ 32 - 2 ^ 31

/-- Conversion to `int64`: wrap into `[-2^63, 2^63)`. -/
def toInt64 (x : Int) : Int := (x + 2 ^ 63) % 2 ^ 64 - 2 ^ 63

/-- Conversion to `uint64`. -/
def toUint64 (x : Int) : Nat := (x % 2 ^ 64).toNat

/-- Embedding of `int64(math.Pow10(l))`: `10^l` for `0 <= l`; for `l < 0` the float is below
1 and converts to `0`. (`10^l` is exact in `float64` up to `l = 22`; from `l = 19` on the
value exceeds `int64` and converts to the minimum or maximum `int64`, whose remainder on a
value below `2^31` is the same as that of `10^l`.) -/
def pow10Int64 (l : Int) : Int := if 0 ≤ l then 10 ^ l.toNat else 0

/-! ## `hotp.go` -/

/-- Embedding of `ValidateOtps`. -/
structure ValidateOtps where
  Digits : Digits
  Algorithm : Algorithm
  deriving DecidableEq, Repr

/-- A run of a Go function: `none` is a run-time panic, `some r` its return values. -/
abbrev Run (α : Type) := Option α

/-- Dynamic truncation, lines 69-73 of `hotp.go`; `none` is an index out of range. -/
def truncate (sum : List Nat) : Run Nat := do
  let last ← sum[sum.length - 1]?
  let offset := last &&& 0xf
  let b0 ← sum[offset]?
  let b1 ← sum[offset + 1]?
  let b2 ← sum[offset + 2]?
  let b3 ← sum[offset + 3]?
  pure ((((b0 &&& 0x7f) <<< 24) ||| ((b1 &&& 0xff) <<< 16) ||| ((b2 &&& 0xff) <<< 8) |||
    (b3 &&& 0xff)))

/-- Lines 46-48 of `hotp.go`: `if n := len(secret) % 8; n != 0` append `8-n` times `=`. -/
def padSecret (secret : GoString) : GoString :=
  let n := secret.len % 8
  if n ≠ 0 then secret ++ repeatEq (8 - n) else secret

/-- Lines 45-50 of `hotp.go`: trim, pad with `=` to a multiple of 8 bytes, upper-case. -/
def normalizeSecret (secret : GoString) : GoString :=
  let secret := TrimSpace secret
  let secret := padSecret secret
  ToUpper secret

/-- Embedding of `GenerateCodeCustom`: the passcode and the error it returns. -/
def GenerateCodeCustom (secret : GoString) (counter : Nat) (opts : ValidateOtps) :
    Run (GoString × Option OtpError) :=
  match StdEncoding.DecodeString (normalizeSecret secret) with
  | none => some ([], some ErrValidateSecretInvalidBase32)
  | some secretBytes =>
    match opts.Algorithm.Hash with
    | none => none
    | some h =>
      let buf := beBytes 8 counter
      let sum := hmacSum h secretBytes buf
      match truncate sum with
      | none => none
      | some v =>
        let l := opts.Digits.Length
        if pow10Int64 l = 0 then none
        else
          let m := toInt32 (Int.emod (v : Int) (pow10Int64 l))
          some (opts.Digits.Format m, none)

/-- Embedding of `subtle.ConstantTimeCompare`: 1 if the two byte strings are equal, else 0;
the bytes are all combined before the single final test. -/
def ConstantTimeCompare (x y : List Nat) : Nat :=
  if x.length ≠ y.length then 0
  else if (List.zipWith (· ^^^ ·) x y).foldl (· ||| ·) 0 = 0 then 1 else 0

/-- Embedding of `ValidateCustom`. -/
def ValidateCustom (passcode : GoString) (counter : Nat) (secret : GoString)
    (otps : ValidateOtps) : Run (Bool × Option OtpError) :=
  let passcode := TrimSpace passcode
  if (passcode.len : Int) ≠ otps.Digits.Length then
    some (false, some ErrValidateInputInvalidLength)
  else
    match GenerateCodeCustom secret counter otps with
    | none => none
    | some (_, some err) => some (false, some err)
    | some (otp, none) =>
      if ConstantTimeCompare otp.bytes passcode.bytes = 1 then some (true, none)
      else some (false, none)

/-! ## `float64` arithmetic on integers

`totp.go` derives the counter with `math.Floor(float64(t.Unix()) / float64(otp.Period))`.
A non-negative `float64` value is kept as a fraction `num / den` of natural numbers;
conversion and division round to the nearest value with a 53-bit significand, ties to even
(IEEE 754 binary64; the values that occur are far from the subnormal and overflow ranges). -/

/-- Position of the highest set bit of `n`, by halving at most `fuel` times. -/
def log2Fuel : Nat → Nat → Nat
  | 0, _ => 0
  | fuel + 1, n => if n < 2 then 0 else log2Fuel fuel (n / 2) + 1

/-- The integer `floor(log2 n)` for `n > 0` (the binary exponent of `n`), and 0 for 0. -/
def ilog2 (n : Nat) : Nat := log2Fuel n n

/-- Nearest integer to `n / d`, ties to even. -/
def roundHalfEven (n d : Nat) : Nat :=
  let q := n / d
  let r := n % d
  if 2 * r < d then q else if d < 2 * r then q + 1 else if q % 2 = 0 then q else q + 1

/-- The value of `float64(n)` for a natural number `n`. -/
def f64OfNat (n : Nat) : Nat :=
  if n < 2 ^ 53 then n
  else roundHalfEven n (2 ^ (ilog2 n - 52)) * 2 ^ (ilog2 n - 52)

/-- The `float64` quotient of two positive `float64` integers `a / b`, as `(num, den)`. -/
def f64Div (a b : Nat) : Nat × Nat :=
  if a = 0 then (0, 1)
  else
    let lo := ilog2 b + (if a * 2 ^ ilog2 b < b * 2 ^ ilog2 a then 1 else 0) + 52
    let hi := ilog2 a
    if lo ≤ hi then (roundHalfEven a (b * 2 ^ (hi - lo)) * 2 ^ (hi - lo), 1)
    else (roundHalfEven (a * 2 ^ (lo - hi)) b, 2 ^ (lo - hi))

/-- The integer `math.Floor(float64(t) / float64(p))` for an `int64` `t` and a `uint` `p`. -/
def floorDivF64 (t : Int) (p : Nat) : Int :=
  let q := f64Div (f64OfNat t.natAbs) (f64OfNat p)
  if 0 ≤ t then ((q.1 / q.2 : Nat) : Int) else -(((q.1 + q.2 - 1) / q.2 : Nat) : Int)

/-! ## `totp.go` -/

/-- Embedding of `ValidateOtp`; `Period` and `Skew` are `uint` (64 bits). -/
structure ValidateOtp where
  Period : Nat
  Skew : Nat
  Digits : Digits
  Algorithm : Algorithm
  deriving DecidableEq, Repr

/-- The period in use: 30 when `otp.Period == 0`. -/
def effectivePeriod (otp : ValidateOtp) : Nat := if otp.Period = 0 then 30 else otp.Period

/-- Embedding of `GenerateCodeCustoms`, for a time whose `Unix()` seconds are `t`. The counter
is `uint64(math.Floor(...))`; for a negative float the conversion is taken as on amd64,
where it agrees with the conversion through `int64`. -/
def GenerateCodeCustoms (secret : GoString) (t : Int) (otp : ValidateOtp) :
    Run (GoString × Option OtpError) :=
  let period := effectivePeriod otp
  let counter := toUint64 (floorDivF64 t period)
  match GenerateCodeCustom secret counter ⟨otp.Digits, otp.Algorithm⟩ with
  | none => none
  | some (_, some err) => some ([], some err)
  | some (passcode, none) => some (passcode, none)

/-- The counters `ValidateCustoms` collects around `counter` for `i = 1 .. n`. -/
def skewCounters (counter : Int) : Nat → Nat → List Nat
  | _, 0 => []
  | i, n + 1 =>
    toUint64 (toInt64 (counter + i)) :: toUint64 (toInt64 (counter - i)) ::
      skewCounters counter (i + 1) n

/-- The loop `for _, counter := range counters` of `ValidateCustoms`. -/
def validateCounters (passcode secret : GoString) (o : ValidateOtps) :
    List Nat → Run (Bool × Option OtpError)
  | [] => some (false, none)
  | c :: cs =>
    match ValidateCustom passcode c secret o with
    | none => none
    | some (_, some err) => some (false, some err)
    | some (true, none) => some (true, none)
    | some (false, none) => validateCounters passcode secret o cs

/-- The `int64` counter `ValidateCustoms` starts from. -/
def currentCounter (t : Int) (otp : ValidateOtp) : Int :=
  toInt64 (floorDivF64 t (effectivePeriod otp))

/-- Embedding of `ValidateCustoms`, for a time whose `Unix()` seconds are `t`. The bound of
the loop `for i := 1; i <= int(otp.Skew); i++` is the `int` conversion of the unsigned
skew. The code appends all the `2 * int(otp.Skew) + 1` counters to the slice `counters`
before it validates the first one: `maxLen` is the length to which a `[]uint64` can grow
in the memory the machine has, and the runtime refuses a slice of more than `2^48` bytes
(`maxAlloc` on a 64-bit platform), that is of more than `2^45` counters. A run that needs
more ends without a result (out of memory, or the panic `growslice: len out of range`),
which is `none` here; so does the run with the largest `int` as bound, whose loop variable
wraps around. -/
def ValidateCustoms (maxLen : Nat) (passcode secret : GoString) (t : Int)
    (otp : ValidateOtp) : Run (Bool × Option OtpError) :=
  let counter := currentCounter t otp
  let n := toInt64 otp.Skew
  if min maxLen (2 ^ 45) < 2 * n.toNat + 1 then none
  else
    let counters := toUint64 counter :: skewCounters counter 1 n.toNat
    validateCounters passcode secret ⟨otp.Digits, otp.Algorithm⟩ counters

/-! ## Auxiliary definitions for the proofs -/

/-- The padding `EncodeToString` appends to the characters of one group. -/
def groupPadding (enc : Encoding) (g : List Nat) : GoString :=
  if enc.padded then List.replicate (8 - (encodeGroup g).length) '=' else []

/-- The characters `EncodeToString` produces: alphabet characters and `=`. -/
def isEncoded (c : Char) : Prop := (∃ x, x < 32 ∧ c = encodeChar x) ∨ c = '='

/-! ## Definitions that follow the words of the specification -/

/-- Specification, section 4.3 step 4: `offset = mac[last byte] & 0x0F`. -/
def specOffset (mac : List Nat) : Nat := mac.getLastD 0 &&& 0x0F

/-- Specification, section 4.3 step 4: the big-endian integer of the four bytes
`mac[offset..offset+3]` with the top bit of the first byte cleared. -/
def specValue (mac : List Nat) : Nat :=
  let o := specOffset mac
  beWord [mac.getD o 0 % 128, mac.getD (o + 1) 0, mac.getD (o + 2) 0, mac.getD (o + 3) 0]

/-- Specification, section 4.3: the secret "after trimming whitespace, uppercasing, and
right-padding with `=` to a multiple of 8 characters". -/
def specNormalize (secret : GoString) : GoString :=
  let u := ToUpper (TrimSpace secret)
  u ++ repeatEq ((8 - u.length % 8) % 8)

/-- RFC 4648, section 6: the Base32 alphabet `A`-`Z`, `2`-`7`. -/
def isBase32Char (c : Char) : Bool :=
  (decide ('A' ≤ c) && decide (c ≤ 'Z')) || (decide ('2' ≤ c) && decide (c ≤ '7'))

/-- RFC 4648, section 6: the final quantum of 8 characters is 8 alphabet characters, or 2,
4, 5 or 7 alphabet characters followed by 6, 4, 3 or 1 `=`. -/
def isBase32Final (q : GoString) : Bool :=
  let k := (q.takeWhile isBase32Char).length
  q.length == 8 && (k == 2 || k == 4 || k == 5 || k == 7 || k == 8) &&
    (q.drop k).all (· == '=')

/-- RFC 4648, section 6: encoded text is a sequence of quanta of 8 alphabet characters, the
last of which may be padded; `fuel` bounds the number of quanta. -/
def isBase32 : Nat → GoString → Bool
  | _, [] => true
  | 0, _ :: _ => false
  | fuel + 1, c :: cs =>
    if (c :: cs).length ≤ 8 then isBase32Final (c :: cs)
    else ((c :: cs).take 8).all isBase32Char && isBase32 fuel ((c :: cs).drop 8)

/-- Valid RFC 4648 Base32 text. -/
def validBase32 (s : GoString) : Bool := isBase32 s.length s

/-- Specification, section 4.2: the decimal representation of `n` written with exactly `d`
characters, zeros on the left: the character at place `i` is the digit of `10^(d-1-i)`. -/
def specZeroPadded (d n : Nat) : GoString :=
  (List.range d).map fun i => Nat.digitChar (n / 10 ^ (d - 1 - i) % 10)

/-! ## More of Go's `strings`, `unicode/utf8` and `strconv`

The functions of `net/url` work on the bytes of a string, and a string they return need not
be UTF-8 text; from here on a Go string is held as its list of bytes wherever the code does
not read it as text. -/

/-- The bytes of a string literal. -/
def str (s : String) : List Nat := GoString.bytes s.toList

/-- Lower case of one code point, `unicode.ToLower`: ASCII letters exactly; outside ASCII
the two code points whose lower case is an ASCII letter (the Kelvin sign U+212A and the
dotted capital I, U+0130) are mapped to it, and the remaining entries of the Unicode case
tables are not embedded: such a code point is kept as it is. -/
def unicodeToLower (c : Char) : Char :=
  if 'A' ≤ c ∧ c ≤ 'Z' then Char.ofNat (c.toNat + 32)
  else if c = Char.ofNat 0x212A then 'k'
  else if c = Char.ofNat 0x130 then 'i'
  else c

/-- Go's `utf8.DecodeRune` on a non-empty byte string: the code point and its width; an
invalid or truncated sequence gives `utf8.RuneError` (U+FFFD) and width 1. -/
def decodeRune (bs : List Nat) : Nat × Nat :=
  let cont (b : Nat) : Bool := 0x80 ≤ b && b ≤ 0xBF
  match bs with
  | [] => (0xFFFD, 1)
  | b0 :: rest =>
    if b0 < 0x80 then (b0, 1)
    else if 0xC2 ≤ b0 ∧ b0 ≤ 0xDF then
      match rest with
      | b1 :: _ => if cont b1 then ((b0 - 0xC0) * 64 + (b1 - 0x80), 2) else (0xFFFD, 1)
      | _ => (0xFFFD, 1)
    else if 0xE0 ≤ b0 ∧ b0 ≤ 0xEF then
      match rest with
      | b1 :: b2 :: _ =>
        if cont b1 && cont b2 && (b0 != 0xE0 || 0xA0 ≤ b1) && (b0 != 0xED || b1 ≤ 0x9F) then
          ((b0 - 0xE0) * 4096 + (b1 - 0x80) * 64 + (b2 - 0x80), 3)
        else (0xFFFD, 1)
      | _ => (0xFFFD, 1)
    else if 0xF0 ≤ b0 ∧ b0 ≤ 0xF4 then
      match rest with
      | b1 :: b2 :: b3 :: _ =>
        if cont b1 && cont b2 && cont b3 && (b0 != 0xF0 || 0x90 ≤ b1) &&
            (b0 != 0xF4 || b1 ≤ 0x8F) then
          ((b0 - 0xF0) * 262144 + (b1 - 0x80) * 4096 + (b2 - 0x80) * 64 + (b3 - 0x80), 4)
        else (0xFFFD, 1)
      | _ => (0xFFFD, 1)
    else (0xFFFD, 1)

/-- The code points of a byte string, as a `for range` loop over the string reads them;
`fuel` bounds their number. -/
def utf8DecodeFuel : Nat → List Nat → GoString
  | 0, _ => []
  | _, [] => []
  | fuel + 1, b :: bs =>
    let r := decodeRune (b :: bs)
    Char.ofNat r.1 :: utf8DecodeFuel fuel ((b :: bs).drop r.2)

/-- The text of a byte string: its code points, with U+FFFD for each byte that is not part
of a UTF-8 sequence, which is how `strings.Map` and `strings.TrimSpace` read a string. -/
def utf8Decode (bs : List Nat) : GoString := utf8DecodeFuel bs.length bs

/-- Go's `strings.ToLower`, which is `strings.Map(unicode.ToLower, s)`: the result is
UTF-8 text, with U+FFFD in the place of each invalid byte of `s`. -/
def ToLower (s : List Nat) : GoString := (utf8Decode s).map unicodeToLower

/-- Go's `strings.HasPrefix`. -/
def HasPrefix (s pre : List Nat) : Bool := pre.isPrefixOf s

/-- Go's `strings.HasSuffix`. -/
def HasSuffix (s suf : List Nat) : Bool := suf.reverse.isPrefixOf s.reverse

/-- Go's `strings.TrimPrefix`. -/
def TrimPrefix (s pre : List Nat) : List Nat :=
  if HasPrefix s pre then s.drop pre.length else s

/-- The search of `strings.Index` from offset `i` on. -/
def indexFrom (sep : List Nat) : Nat → List Nat → Int
  | i, [] => if sep = [] then (i : Int) else -1
  | i, c :: cs => if sep.isPrefixOf (c :: cs) then (i : Int) else indexFrom sep (i + 1) cs

/-- Go's `strings.Index(s, sep)`: the offset of the first occurrence of `sep` in `s`, or
`-1`. -/
def Index (s sep : List Nat) : Int := indexFrom sep 0 s

/-- Go's `strings.LastIndex(s, sep)` for a separator of one byte. -/
def LastIndex (s : List Nat) (sep : Nat) : Int :=
  match Index s.reverse [sep] with
  | Int.ofNat i => (s.length : Int) - 1 - i
  | _ => -1

/-- Go's `strings.Contains`. -/
def Contains (s sep : List Nat) : Bool := decide (0 ≤ Index s sep)

/-- Go's `strings.Count(s, sep)` for a separator of one byte. -/
def Count (s : List Nat) (sep : Nat) : Nat := s.count sep

/-- Go's `strings.Cut`. -/
def Cut (s sep : List Nat) : List Nat × List Nat × Bool :=
  match Index s sep with
  | Int.ofNat i => (s.take i, s.drop (i + sep.length), true)
  | _ => (s, [], false)

/-- The loop of `strconv.ParseUint(s, 10, 64)` from the value `n` on; `none` is a syntax or
range error. -/
def parseUintLoop : Nat → List Nat → Option Nat
  | n, [] => some n
  | n, c :: cs =>
    if 48 ≤ c ∧ c ≤ 57 then
      if n ≥ (2 ^ 64 - 1) / 10 + 1 then none
      else if n * 10 + (c - 48) > 2 ^ 64 - 1 then none
      else parseUintLoop (n * 10 + (c - 48)) cs
    else none

/-- Go's `strconv.ParseUint(s, 10, 64)`; `none` is a non-nil error. -/
def ParseUint (s : List Nat) : Option Nat :=
  if s = [] then none else parseUintLoop 0 s

/-! ## `net/url`: escaping

The package `net/url` of the Go standard library (as of Go 1.21), on byte strings. -/

/-- The type `encoding` of `net/url`: the part of a URL a text is escaped for. -/
inductive EscapeMode
  | encodePath
  | encodePathSegment
  | encodeHost
  | encodeZone
  | encodeUserPassword
  | encodeQueryComponent
  | encodeFragment
  deriving DecidableEq, Repr

open EscapeMode

/-- ASCII letters and digits. -/
def isAlnum (c : Nat) : Bool :=
  (97 ≤ c && c ≤ 122) || (65 ≤ c && c ≤ 90) || (48 ≤ c && c ≤ 57)

/-- The function `shouldEscape` of `net/url`: whether byte `c` is written `%XX` in `mode`. -/
def shouldEscape (c : Nat) (mode : EscapeMode) : Bool :=
  if isAlnum c then false
  -- ! $ & ' ( ) * + , ; = : [ ] < > "
  else if (mode = encodeHost ∨ mode = encodeZone) ∧
      c ∈ [33, 36, 38, 39, 40, 41, 42, 43, 44, 59, 61, 58, 91, 93, 60, 62, 34] then false
  -- - _ . ~
  else if c ∈ [45, 95, 46, 126] then false
  -- $ & + , / : ; = ? @
  else if c ∈ [36, 38, 43, 44, 47, 58, 59, 61, 63, 64] then
    match mode with
    | encodePath => c == 63
    | encodePathSegment => c == 47 || c == 59 || c == 44 || c == 63
    | encodeUserPassword => c == 64 || c == 47 || c == 63 || c == 58
    | encodeQueryComponent => true
    | encodeFragment => false
    | _ => true
  -- ! ( ) *
  else if mode = encodeFragment ∧ c ∈ [33, 40, 41, 42] then false
  else true

/-- The digit `n` of `"0123456789ABCDEF"`. -/
def upperhex (n : Nat) : Nat := if n < 10 then 48 + n else 55 + n

/-- The function `ishex` of `net/url`. -/
def ishex (c : Nat) : Bool :=
  (48 ≤ c && c ≤ 57) || (97 ≤ c && c ≤ 102) || (65 ≤ c && c ≤ 70)

/-- The function `unhex` of `net/url`. -/
def unhex (c : Nat) : Nat :=
  if 48 ≤ c ∧ c ≤ 57 then c - 48
  else if 97 ≤ c ∧ c ≤ 102 then c - 97 + 10
  else if 65 ≤ c ∧ c ≤ 70 then c - 65 + 10
  else 0

/-- What `escape` writes for one byte. -/
def escapeByte (mode : EscapeMode) (c : Nat) : List Nat :=
  if c = 32 ∧ mode = encodeQueryComponent then [43]
  else if shouldEscape c mode then [37, upperhex (c / 16), upperhex (c % 16)]
  else [c]

/-- The function `escape` of `net/url`. -/
def escape (s : List Nat) (mode : EscapeMode) : List Nat := s.flatMap (escapeByte mode)

/-- The function `unescape` of `net/url`; `none` is an `EscapeError` or an
`InvalidHostError`. The source checks the whole text first and decodes it in a second pass;
here both are done byte by byte, with the same result. -/
def unescape : List Nat → EscapeMode → Option (List Nat)
  | [], _ => some []
  | c :: rest, mode =>
    if c = 37 then
      match rest with
      | h1 :: h2 :: rest2 =>
        if ishex h1 && ishex h2 then
          let v := unhex h1 * 16 + unhex h2
          if mode = encodeHost ∧ unhex h1 < 8 ∧ ¬ (h1 = 50 ∧ h2 = 53) then none
          else if mode = encodeZone ∧ ¬ (h1 = 50 ∧ h2 = 53) ∧ v ≠ 32 ∧
              shouldEscape v encodeHost then none
          else (unescape rest2 mode).map (v :: ·)
        else none
      | _ => none
    else if c = 43 then
      (unescape rest mode).map ((if mode = encodeQueryComponent then 32 else 43) :: ·)
    else if (mode = encodeHost ∨ mode = encodeZone) ∧ c < 128 ∧ shouldEscape c encodeHost then
      none
    else (unescape rest mode).map (c :: ·)

/-- Go's `url.QueryEscape`. -/
def QueryEscape (s : List Nat) : List Nat := escape s encodeQueryComponent

/-- Go's `url.QueryUnescape`. -/
def QueryUnescape (s : List Nat) : Option (List Nat) := unescape s encodeQueryComponent

/-- The function `validEncoded` of `net/url`. -/
def validEncoded (s : List Nat) (mode : EscapeMode) : Bool :=
  s.all fun c =>
    -- ! $ & ' ( ) * + , ; = : @ [ ] %
    c ∈ [33, 36, 38, 39, 40, 41, 42, 43, 44, 59, 61, 58, 64, 91, 93, 37] ||
      !shouldEscape c mode

/-- The function `stringContainsCTLByte` of `net/url`. -/
def stringContainsCTLByte (s : List Nat) : Bool := s.any fun b => b < 32 || b == 127

/-! ## `net/url`: parsing and printing a URL -/

/-- The type `url.Userinfo`. -/
structure Userinfo where
  username : List Nat
  password : List Nat
  passwordSet : Bool
  deriving DecidableEq, Repr

/-- The type `url.URL`; `User` is `none` for a nil pointer. -/
structure URL where
  Scheme : List Nat := []
  Opaque : List Nat := []
  User : Option Userinfo := none
  Host : List Nat := []
  Path : List Nat := []
  RawPath : List Nat := []
  OmitHost : Bool := false
  ForceQuery : Bool := false
  RawQuery : List Nat := []
  Fragment : List Nat := []
  RawFragment : List Nat := []
  deriving DecidableEq, Repr

/-- The loop of `getScheme` at offset `i`, with `cs` the text from there on. -/
def getSchemeLoop (rawURL : List Nat) : Nat → List Nat → Option (List Nat × List Nat)
  | _, [] => some ([], rawURL)
  | i, c :: cs =>
    if (97 ≤ c ∧ c ≤ 122) ∨ (65 ≤ c ∧ c ≤ 90) then getSchemeLoop rawURL (i + 1) cs
    else if (48 ≤ c ∧ c ≤ 57) ∨ c = 43 ∨ c = 45 ∨ c = 46 then
      if i = 0 then some ([], rawURL) else getSchemeLoop rawURL (i + 1) cs
    else if c = 58 then
      if i = 0 then none else some (rawURL.take i, cs)
    else some ([], rawURL)

/-- The function `getScheme` of `net/url`: the scheme and the rest; `none` is the error
"missing protocol scheme". -/
def getScheme (rawURL : List Nat) : Option (List Nat × List Nat) := getSchemeLoop rawURL 0 rawURL

/-- The function `validUserinfo` of `net/url`. -/
def validUserinfo (s : List Nat) : Bool :=
  (utf8Decode s).all fun r =>
    isAlnum r.toNat ||
      -- - . _ : ~ ! $ & ' ( ) * + , ; = % @
      r.toNat ∈ [45, 46, 95, 58, 126, 33, 36, 38, 39, 40, 41, 42, 43, 44, 59, 61, 37, 64]

/-- The function `validOptionalPort` of `net/url`. -/
def validOptionalPort (port : List Nat) : Bool :=
  match port with
  | [] => true
  | c :: rest => c == 58 && rest.all fun b => 48 ≤ b && b ≤ 57

/-- The function `parseHost` of `net/url`. -/
def parseHost (host : List Nat) : Option (List Nat) :=
  if HasPrefix host [91] then
    match LastIndex host 93 with
    | Int.ofNat i =>
      if !validOptionalPort (host.drop (i + 1)) then none
      else
        match Index (host.take i) (str "%25") with
        | Int.ofNat zone => do
          let host1 ← unescape (host.take zone) encodeHost
          let host2 ← unescape ((host.take i).drop zone) encodeZone
          let host3 ← unescape (host.drop i) encodeHost
          pure (host1 ++ host2 ++ host3)
        | _ => unescape host encodeHost
    | _ => none
  else
    match LastIndex host 58 with
    | Int.ofNat i =>
      if !validOptionalPort (host.drop i) then none else unescape host encodeHost
    | _ => unescape host encodeHost

/-- The function `parseAuthority` of `net/url`. -/
def parseAuthority (authority : List Nat) : Option (Option Userinfo × List Nat) :=
  match LastIndex authority 64 with
  | Int.ofNat i => do
    let host ← parseHost (authority.drop (i + 1))
    let userinfo := authority.take i
    if !validUserinfo userinfo then none
    else if !Contains userinfo [58] then do
      let username ← unescape userinfo encodeUserPassword
      pure (some ⟨username, [], false⟩, host)
    else do
      let username ← unescape (Cut userinfo [58]).1 encodeUserPassword
      let password ← unescape (Cut userinfo [58]).2.1 encodeUserPassword
      pure (some ⟨username, password, true⟩, host)
  | _ => do
    let host ← parseHost authority
    pure (none, host)

/-- The method `setPath` of `url.URL`. -/
def URL.setPath (u : URL) (p : List Nat) : Option URL := do
  let path ← unescape p encodePath
  pure { u with Path := path, RawPath := if p = escape path encodePath then [] else p }

/-- The method `setFragment` of `url.URL`. -/
def URL.setFragment (u : URL) (f : List Nat) : Option URL := do
  let frag ← unescape f encodeFragment
  pure { u with
    Fragment := frag, RawFragment := if f = escape frag encodeFragment then [] else f }

/-- The function `parse` of `net/url` with `viaRequest` false; `none` is an error. -/
def parse (rawURL : List Nat) : Option URL :=
  if stringContainsCTLByte rawURL then none
  else if rawURL = [42] then some { Path := [42] }
  else do
    let (scheme, rest0) ← getScheme rawURL
    let scheme := GoString.bytes (ToLower scheme)
    let forceQuery := HasSuffix rest0 [63] && Count rest0 63 == 1
    let rest := if forceQuery then rest0.take (rest0.length - 1) else (Cut rest0 [63]).1
    let rawQuery := if forceQuery then [] else (Cut rest0 [63]).2.1
    let url : URL := { Scheme := scheme, ForceQuery := forceQuery, RawQuery := rawQuery }
    if !HasPrefix rest [47] ∧ scheme ≠ [] then
      pure { url with Opaque := rest }
    else if !HasPrefix rest [47] ∧ Contains (Cut rest [47]).1 [58] then none
    else if (scheme ≠ [] ∨ !HasPrefix rest [47, 47, 47]) ∧ HasPrefix rest [47, 47] then do
      let authority := rest.drop 2
      let (user, host) ← parseAuthority
        (match Index authority [47] with
          | Int.ofNat i => authority.take i
          | _ => authority)
      URL.setPath { url with User := user, Host := host }
        (match Index authority [47] with
          | Int.ofNat i => authority.drop i
          | _ => [])
    else if scheme ≠ [] ∧ HasPrefix rest [47] then
      URL.setPath { url with OmitHost := true } rest
    else URL.setPath url rest

/-- Go's `url.Parse`; `none` is an error. -/
def Parse (rawURL : List Nat) : Option URL := do
  let url ← parse (Cut rawURL [35]).1
  if (Cut rawURL [35]).2.1 = [] then pure url else url.setFragment (Cut rawURL [35]).2.1

/-- The method `String` of `url.Userinfo`. -/
def Userinfo.String (u : Userinfo) : List Nat :=
  escape u.username encodeUserPassword ++
    (if u.passwordSet then 58 :: escape u.password encodeUserPassword else [])

/-- The method `EscapedPath` of `url.URL`. -/
def URL.EscapedPath (u : URL) : List Nat :=
  if u.RawPath ≠ [] ∧ validEncoded u.RawPath encodePath ∧
      unescape u.RawPath encodePath = some u.Path then u.RawPath
  else if u.Path = [42] then [42]
  else escape u.Path encodePath

/-- The method `EscapedFragment` of `url.URL`. -/
def URL.EscapedFragment (u : URL) : List Nat :=
  if u.RawFragment ≠ [] ∧ validEncoded u.RawFragment encodeFragment ∧
      unescape u.RawFragment encodeFragment = some u.Fragment then u.RawFragment
  else escape u.Fragment encodeFragment

/-- The method `String` of `url.URL`. -/
def URL.String (u : URL) : List Nat :=
  let buf0 := if u.Scheme ≠ [] then u.Scheme ++ [58] else []
  let buf1 :=
    if u.Opaque ≠ [] then buf0 ++ u.Opaque
    else
      let buf :=
        if u.Scheme ≠ [] ∨ u.Host ≠ [] ∨ u.User ≠ none then
          if u.OmitHost ∧ u.Host = [] ∧ u.User = none then buf0
          else
            buf0 ++ (if u.Host ≠ [] ∨ u.Path ≠ [] ∨ u.User ≠ none then [47, 47] else []) ++
              (match u.User with
                | some ui => ui.String ++ [64]
                | none => []) ++
              (if u.Host ≠ [] then escape u.Host encodeHost else [])
        else buf0
      let path := u.EscapedPath
      let buf := if path ≠ [] ∧ path.head? ≠ some 47 ∧ u.Host ≠ [] then buf ++ [47] else buf
      let buf := if buf = [] ∧ Contains (Cut path [47]).1 [58] then [46, 47] else buf
      buf ++ path
  let buf2 := if u.ForceQuery ∨ u.RawQuery ≠ [] then buf1 ++ [63] ++ u.RawQuery else buf1
  if u.Fragment ≠ [] then buf2 ++ [35] ++ u.EscapedFragment else buf2

/-! ## `net/url`: query values -/

/-- The type `url.Values`, a map from keys to lists of values, held as an association list
in which no key occurs twice. -/
abbrev Values := List (List Nat × List (List Nat))

/-- The value list `v[key]` of a map: empty if the key is absent. -/
def Values.lookup (v : Values) (key : List Nat) : List (List Nat) :=
  match v with
  | [] => []
  | (k, vs) :: rest => if k = key then vs else Values.lookup rest key

/-- The assignment `v[key] = vs` of a map. -/
def Values.store (v : Values) (key : List Nat) (vs : List (List Nat)) : Values :=
  match v with
  | [] => [(key, vs)]
  | (k, ws) :: rest => if k = key then (k, vs) :: rest else (k, ws) :: Values.store rest key vs

/-- The method `Get` of `url.Values`: the first value of the key, or the empty string. -/
def Values.Get (v : Values) (key : List Nat) : List Nat := (v.lookup key).headD []

/-- The method `Set` of `url.Values`. -/
def Values.Set (v : Values) (key value : List Nat) : Values := v.store key [value]

/-- The method `Add` of `url.Values`, also the statement `m[key] = append(m[key], value)`
of `parseQuery`. -/
def Values.Add (v : Values) (key value : List Nat) : Values :=
  v.store key (v.lookup key ++ [value])

/-- Order of Go strings: byte by byte. -/
def bytesLt : List Nat → List Nat → Bool
  | [], [] => false
  | [], _ :: _ => true
  | _ :: _, [] => false
  | a :: as, b :: bs => a < b || (a == b && bytesLt as bs)

/-- Insertion of an entry into a list of entries sorted by key. -/
def insertKey (p : List Nat × List (List Nat)) : Values → Values
  | [] => [p]
  | q :: qs => if bytesLt q.1 p.1 then q :: insertKey p qs else p :: q :: qs

/-- The entries of a map in the order of their keys (`slices.Sort(keys)`). -/
def sortKeys (v : Values) : Values := v.foldr insertKey []

/-- The method `Encode` of `url.Values`. -/
def Values.Encode (v : Values) : List Nat :=
  (sortKeys v).foldl
    (fun buf kv =>
      kv.2.foldl
        (fun buf val =>
          (if buf ≠ [] then buf ++ [38] else buf) ++ QueryEscape kv.1 ++ [61] ++ QueryEscape val)
        buf)
    []

/-- The loop of `parseQuery` of `net/url`, which adds the pairs of `query` to `m`; the error
it also returns is not kept, as `URL.Query` drops it. `fuel` bounds the number of pairs. -/
def parseQueryLoop : Nat → Values → List Nat → Values
  | 0, m, _ => m
  | fuel + 1, m, query =>
    if query = [] then m
    else
      let key := (Cut query [38]).1
      let query := (Cut query [38]).2.1
      if Contains key [59] then parseQueryLoop fuel m query
      else if key = [] then parseQueryLoop fuel m query
      else
        match QueryUnescape (Cut key [61]).1, QueryUnescape (Cut key [61]).2.1 with
        | some k, some value => parseQueryLoop fuel (m.Add k value) query
        | _, _ => parseQueryLoop fuel m query

/-- The method `Query` of `url.URL`: the parsed `RawQuery`. -/
def URL.Query (u : URL) : Values := parseQueryLoop (u.RawQuery.length + 1) [] u.RawQuery

/-! ## `otp.go`: keys -/

/-- The values of type `error` that the factories return: an error value of the package,
the error of the random source (told apart by a number), or the `*url.Error` of
`url.Parse`. -/
inductive GoError
  | Otp (e : OtpError)
  | Reader (code : Nat)
  | Url
  deriving DecidableEq, Repr

/-- Embedding of `type Key struct`. -/
structure Key where
  orig : GoString
  url : URL
  deriving DecidableEq, Repr

/-- Embedding of `NewKeyFromURL`. -/
def NewKeyFromURL (orig : GoString) : Option Key × Option GoError :=
  let s := TrimSpace orig
  match Parse (GoString.bytes s) with
  | none => (none, some GoError.Url)
  | some u => (some ⟨s, u⟩, none)

/-- Embedding of `Key.String`. -/
def Key.String (k : Key) : GoString := k.orig

/-- Embedding of `Key.Type`. -/
def Key.Type (k : Key) : List Nat := k.url.Host

/-- Embedding of `Key.Issuer`. -/
def Key.Issuer (k : Key) : List Nat :=
  let q := k.url.Query.Get (str "issuer")
  if q ≠ [] then q
  else
    let p := TrimPrefix k.url.Path (str "/")
    let i := Index p (str ":")
    if i = -1 then [] else p.take i.toNat

/-- Embedding of `Key.AccountName`. -/
def Key.AccountName (k : Key) : List Nat :=
  let p := TrimPrefix k.url.Path (str "/")
  let i := Index p (str ":")
  if i = -1 then p else p.drop (i + 1).toNat

/-- Embedding of `Key.Secret`. -/
def Key.Secret (k : Key) : List Nat := k.url.Query.Get (str "secret")

/-- Embedding of `Key.Period`. -/
def Key.Period (k : Key) : Nat :=
  match ParseUint (k.url.Query.Get (str "period")) with
  | some n => n
  | none => 30

/-- Embedding of `Key.Digits`. -/
def Key.Digits (k : Key) : Digits :=
  match ParseUint (k.url.Query.Get (str "digits")) with
  | some m => if m = 8 then DigitsEight else DigitsSix
  | none => DigitsSix

/-- Embedding of `Key.Algorithm`. -/
def Key.Algorithm (k : Key) : Algorithm :=
  let c := ToLower (k.url.Query.Get (str "algorithm"))
  if c = "md5".toList then AlgorithmMD5
  else if c = "sha256".toList then AlgorithmSHA256
  else if c = "sha512".toList then AlgorithmSHA512
  else AlgorithmSHA1

/-- Embedding of `Key.URL`. -/
def Key.URL (k : Key) : List Nat := k.url.String

/-- Embedding of `Algorithm.String`; `none` is `panic("unreached")`. -/
def Algorithm.String (a : Algorithm) : Run GoString :=
  if a = AlgorithmSHA1 then some "SHA1".toList
  else if a = AlgorithmSHA256 then some "SHA256".toList
  else if a = AlgorithmSHA512 then some "SHA512".toList
  else if a = AlgorithmMD5 then some "MD5".toList
  else none

/-- Embedding of `Digits.String`: `fmt.Sprintf("%d", d)`. -/
def Digits.String (d : Digits) : GoString :=
  if d < 0 then '-' :: decimal d.natAbs else decimal d.natAbs

/-! ## `hotp.go` and `totp.go`: the factories -/

/-- An `io.Reader`: for a buffer of `n` bytes, `Read n` is the bytes that a call of `Read`
delivers and the error it returns. -/
structure Reader where
  Read : Nat → List Nat × Option GoError

/-- The buffer `make([]byte, size)` after `r.Read` was called on it: the bytes delivered,
then the zeros that were not overwritten. (The limits of `make` on `size` are not
modelled.) -/
def readBuffer (r : Reader) (size : Nat) : List Nat :=
  (r.Read size).1.take size ++ List.replicate (size - (r.Read size).1.length) 0

/-- Embedding of `type GenerateOtp struct`; `Rand` is `none` for a nil reader. -/
structure GenerateOtp where
  Issuer : GoString
  AccountName : GoString
  SecretSize : Nat
  Secret : List Nat
  Digits : Digits
  Algorithm : Algorithm
  Rand : Option Reader

/-- Embedding of `type GeneratesOtp struct`; `Rand` is `none` for a nil reader. -/
structure GeneratesOtp where
  Issuer : GoString
  AccountName : GoString
  Period : Nat
  SecretSize : Nat
  Secret : List Nat
  Digits : Digits
  Algorithm : Algorithm
  Rand : Option Reader

/-- The secret of a new key and the error of the random source: the secret of the caller
if it is not empty, otherwise `size` bytes read from `rand`. -/
def newSecret (secret : List Nat) (size : Nat) (rand : Reader) : List Nat × Option GoError :=
  if secret.length ≠ 0 then (secret, none) else (readBuffer rand size, (rand.Read size).2)

/-- Embedding of `Generate`; `randReader` is `crypto/rand.Reader`, and `none` is a panic. -/
def Generate (randReader : Reader) (otp : GenerateOtp) : Run (Option Key × Option GoError) :=
  if otp.Issuer = [] then pure (none, some (GoError.Otp ErrGenerateMissingIssuer))
  else if otp.AccountName = [] then pure (none, some (GoError.Otp ErrGenerateMissingAccountName))
  else
    let secretSize := if otp.SecretSize = 0 then 10 else otp.SecretSize
    let digits := if otp.Digits = 0 then DigitsSix else otp.Digits
    let rand := otp.Rand.getD randReader
    let v : Values := []
    match newSecret otp.Secret secretSize rand with
    | (_, some err) => pure (none, some err)
    | (secret, none) => do
      let v := v.Set (str "secret") (GoString.bytes (b32NoPadding.EncodeToString secret))
      let v := v.Set (str "issuer") (GoString.bytes otp.Issuer)
      let algorithm ← Algorithm.String otp.Algorithm
      let v := v.Set (str "algorithm") (GoString.bytes algorithm)
      let v := v.Set (str "digits") (GoString.bytes (Digits.String digits))
      let u : URL :=
        { Scheme := str "otpauth"
          Host := str "hotp"
          Path := str "/" ++ GoString.bytes otp.Issuer ++ str ":" ++
            GoString.bytes otp.AccountName
          RawQuery := v.Encode }
      pure (NewKeyFromURL (utf8Decode u.String))

/-- Embedding of `Generates`; `randReader` is `crypto/rand.Reader`, and `none` is a
panic. -/
def Generates (randReader : Reader) (otp : GeneratesOtp) :
    Run (Option Key × Option GoError) :=
  if otp.Issuer = [] then pure (none, some (GoError.Otp ErrGenerateMissingIssuer))
  else if otp.AccountName = [] then pure (none, some (GoError.Otp ErrGenerateMissingAccountName))
  else
    let period := if otp.Period = 0 then 30 else otp.Period
    let secretSize := if otp.SecretSize = 0 then 20 else otp.SecretSize
    let digits := if otp.Digits = 0 then DigitsSix else otp.Digits
    let rand := otp.Rand.getD randReader
    let params : Values := []
    match newSecret otp.Secret secretSize rand with
    | (_, some err) => pure (none, some err)
    | (secret, none) => do
      let params :=
        params.Set (str "secret") (GoString.bytes (b32NoPadding.EncodeToString secret))
      let params := params.Set (str "issuer") (GoString.bytes otp.Issuer)
      let params := params.Set (str "period") (GoString.bytes (decimal period))
      let algorithm ← Algorithm.String otp.Algorithm
      let params := params.Set (str "algorithm") (GoString.bytes algorithm)
      let params := params.Set (str "digits") (GoString.bytes (Digits.String digits))
      let u : URL :=
        { Scheme := str "otpauth"
          Host := str "totp"
          Path := str "/" ++ GoString.bytes otp.Issuer ++ str ":" ++
            GoString.bytes otp.AccountName
          RawQuery := params.Encode }
      pure (NewKeyFromURL (utf8Decode u.String))

/-- Specification, label of a key: the path of the URI with one leading `/` removed. -/
def specLabel (path : List Nat) : List Nat :=
  match path with
  | [] => []
  | c :: rest => if c = 47 then rest else c :: rest

/-- Specification: the part of a label before its first `:` (byte 58). -/
def beforeFirstColon (l : List Nat) : List Nat := l.takeWhile (· != 58)

/-- Specification: the part of a label after its first `:` (byte 58). -/
def afterFirstColon (l : List Nat) : List Nat := (l.dropWhile (· != 58)).drop 1

/-- An ASCII letter in lower case, any other byte as it is. -/
def asciiFold (b : Nat) : Nat := if 65 ≤ b ∧ b ≤ 90 then b + 32 else b

/-- Specification: `v` is the text `name` written in some mix of upper and lower case. -/
def caseMix (name v : List Nat) : Prop := v.map asciiFold = name.map asciiFold

/-- A digit, or a lower-case ASCII letter other than `i` and `k`: a character that is the
lower case of no code point other than itself and its ASCII capital. -/
def safeLower (t : Char) : Prop :=
  (48 ≤ t.toNat ∧ t.toNat ≤ 57) ∨ (97 ≤ t.toNat ∧ t.toNat ≤ 122 ∧ t.toNat ≠ 105 ∧ t.toNat ≠ 107)

instance (t : Char) : Decidable (safeLower t) := by
  unfold safeLower
  infer_instance

instance (name v : List Nat) : Decidable (caseMix name v) := by
  unfold caseMix
  infer_instance

/-- A printable ASCII byte other than `#` and `?`: the bytes of an escaped path. -/
def pathByte (b : Nat) : Bool := 33 ≤ b && b < 127 && b != 35 && b != 63

/-- A byte of an escaped query component: as `pathByte`, and not `&`, `;` or `=`. -/
def queryByte (b : Nat) : Bool := pathByte b && b != 38 && b != 59 && b != 61

/-- The text `k1=v1&k2=v2&...` of a list of pairs, each key and value escaped: what
`Values.Encode` writes for a map with one value per key, its keys in order. -/
def encodePairs : List (List Nat × List Nat) → List Nat
  | [] => []
  | [p] => QueryEscape p.1 ++ 61 :: QueryEscape p.2
  | p :: p2 :: rest =>
    QueryEscape p.1 ++ 61 :: (QueryEscape p.2 ++ 38 :: encodePairs (p2 :: rest))

/-- The URL that the factories build: scheme `otpauth`, the host, the path
`/issuer:account` and the query. -/
def factoryURL (host : List Nat) (issuer account : GoString) (query : List Nat) : URL :=
  { Scheme := str "otpauth"
    Host := host
    Path := str "/" ++ GoString.bytes issuer ++ str ":" ++ GoString.bytes account
    RawQuery := query }

/-- The pairs of the query of a HOTP key, in the order of their keys. -/
def hotpPairs (algorithm digits issuer secret : List Nat) : List (List Nat × List Nat) :=
  [(str "algorithm", algorithm), (str "digits", digits), (str "issuer", issuer),
    (str "secret", secret)]

/-- The pairs of the query of a TOTP key, in the order of their keys. -/
def totpPairs (algorithm digits issuer period secret : List Nat) :
    List (List Nat × List Nat) :=
  [(str "algorithm", algorithm), (str "digits", digits), (str "issuer", issuer),
    (str "period", period), (str "secret", secret)]

/-- The secret bytes of the key that `Generate` builds: the secret of the caller, or the
buffer read from the random source. -/
def GenerateOtp.secretBytes (randReader : Reader) (otp : GenerateOtp) : List Nat :=
  (newSecret otp.Secret (if otp.SecretSize = 0 then 10 else otp.SecretSize)
    (otp.Rand.getD randReader)).1

/-- The secret bytes of the key that `Generates` builds. -/
def GeneratesOtp.secretBytes (randReader : Reader) (otp : GeneratesOtp) : List Nat :=
  (newSecret otp.Secret (if otp.SecretSize = 0 then 20 else otp.SecretSize)
    (otp.Rand.getD randReader)).1

/-- The URL that `Generate` builds for the algorithm name `name`. -/
def hotpURL (randReader : Reader) (otp : GenerateOtp) (name : GoString) : URL :=
  factoryURL (str "hotp") otp.Issuer otp.AccountName
    (encodePairs (hotpPairs (GoString.bytes name)
      (GoString.bytes (Digits.String (if otp.Digits = 0 then DigitsSix else otp.Digits)))
      (GoString.bytes otp.Issuer)
      (GoString.bytes (b32NoPadding.EncodeToString (otp.secretBytes randReader)))))

/-- The URL that `Generates` builds for the algorithm name `name`. -/
def totpURL (randReader : Reader) (otp : GeneratesOtp) (name : GoString) : URL :=
  factoryURL (str "totp") otp.Issuer otp.AccountName
    (encodePairs (totpPairs (GoString.bytes name)
      (GoString.bytes (Digits.String (if otp.Digits = 0 then DigitsSix else otp.Digits)))
      (GoString.bytes otp.Issuer)
      (GoString.bytes (decimal (if otp.Period = 0 then 30 else otp.Period)))
      (GoString.bytes (b32NoPadding.EncodeToString (otp.secretBytes randReader)))))

/-- A random source for the examples: it fills a buffer with the bytes 0, 7, 14, ... -/
def exampleReader : Reader := ⟨fun n => ((List.range n).map fun i => i * 7 % 256, none)⟩

/-- Options for `Generate`, for the examples. -/
def exampleOtp : GenerateOtp :=
  ⟨"ACME Co".toList, "john@x.com".toList, 0, [], 0, AlgorithmSHA1, none⟩

/-- Options for `Generates`, for the examples. -/
def exampleOtps : GeneratesOtp :=
  ⟨"ACME Co".toList, "john@x.com".toList, 0, 0, [], 0, AlgorithmSHA1, none⟩

/-- The key of `exampleOtp`. -/
def exampleKey : Key :=
  ⟨"otpauth://hotp/ACME%20Co:john@x.com?algorithm=SHA1&digits=6&issuer=ACME+Co&secret=AADQ4FI4EMVDCOB7".toList,
    hotpURL exampleReader exampleOtp "SHA1".toList⟩

/-- The key of `exampleOtps`. -/
def exampleKeys : Key :=
  ⟨"otpauth://totp/ACME%20Co:john@x.com?algorithm=SHA1&digits=6&issuer=ACME+Co&period=30&secret=AADQ4FI4EMVDCOB7IZGVIW3CNFYHO7UF".toList,
    totpURL exampleReader exampleOtps "SHA1".toList⟩

/-! ## The loop of `subtle.ConstantTimeCompare` -/

/-- State of the loop of `subtle.ConstantTimeCompare`: the index `i`, the byte `v`, and the
indices of the bytes that were read, in the order of the reads. -/
structure CompareState where
  i : Nat
  v : Nat
  reads : List Nat
  deriving DecidableEq, Repr

/-- One turn of the loop `for i := 0; i < len(x); i++ { v |= x[i] ^ y[i] }`: `none` when the
loop condition `i < len(x)` fails, which is the only way out of the loop. The function
enters the loop with `len(x) = len(y)`, so both indices are in range. -/
def compareStep (x y : List Nat) (s : CompareState) : Option CompareState :=
  if s.i < x.length then
    some ⟨s.i + 1, s.v ||| (x.getD s.i 0 ^^^ y.getD s.i 0), s.reads ++ [s.i]⟩
  else none

/-- The loop, run from state `s` for at most `fuel + 1` tests of its condition: the state in
which it ends, or `none` if it has not ended by then. -/
def compareLoop (x y : List Nat) : Nat → CompareState → Option CompareState
  | 0, s =>
    match compareStep x y s with
    | none => some s
    | some _ => none
  | fuel + 1, s =>
    match compareStep x y s with
    | none => some s
    | some s2 => compareLoop x y fuel s2

/-- Go's `subtle.ConstantTimeByteEq`: `int((uint32(x^y) - 1) >> 31)`. -/
def ConstantTimeByteEq (x y : Nat) : Nat := (((x ^^^ y) + (2 ^ 32 - 1)) % 2 ^ 32) >>> 31

/-- Go's `subtle.ConstantTimeCompare` run as the source runs it: the value it returns and
the indices of the bytes it has read; `none` if the loop does not end. -/
def constantTimeCompareRun (x y : List Nat) : Option (Nat × List Nat) :=
  if x.length ≠ y.length then some (0, [])
  else (compareLoop x y x.length ⟨0, 0, []⟩).map fun s => (ConstantTimeByteEq s.v 0, s.reads)

/-! ## Facts about the library functions -/

theorem leBytes_length (n x : Nat) : (leBytes n x).length = n := by
  induction n generalizing x with
  | zero => rfl
  | succ n ih => simp [leBytes, ih]

theorem beBytes_length (n x : Nat) : (beBytes n x).length = n := by
  simp [beBytes, leBytes_length]

theorem leBytes_lt (n x : Nat) : ∀ b ∈ leBytes n x, b < 256 := by
  induction n generalizing x with
  | zero => simp [leBytes]
  | succ n ih =>
    intro b hb
    simp only [leBytes, List.mem_cons] at hb
    rcases hb with rfl | hb
    · exact Nat.mod_lt _ (by decide)
    · exact ih _ b hb

theorem beBytes_lt (n x : Nat) : ∀ b ∈ beBytes n x, b < 256 := by
  intro b hb
  exact leBytes_lt n x b (by simpa [beBytes] using hb)

theorem foldl_length_inv {α β : Type} (n : Nat) (f : List α → β → List α)
    (hf : ∀ s x, s.length = n → (f s x).length = n) (l : List β) (s : List α)
    (hs : s.length = n) : (l.foldl f s).length = n := by
  induction l generalizing s with
  | nil => simpa using hs
  | cons x xs ih => exact ih _ (hf s x hs)

theorem flatMap_length_const {α β : Type} (k : Nat) (f : α → List β)
    (hf : ∀ x, (f x).length = k) (l : List α) : (l.flatMap f).length = k * l.length := by
  induction l with
  | nil => simp
  | cons x xs ih => simp [List.flatMap_cons, hf, ih, Nat.mul_succ, Nat.add_comm]

theorem flatMap_forall {α β : Type} (P : β → Prop) (f : α → List β)
    (hf : ∀ x, ∀ b ∈ f x, P b) (l : List α) : ∀ b ∈ l.flatMap f, P b := by
  intro b hb
  rcases List.mem_flatMap.1 hb with ⟨x, _, hx⟩
  exact hf x b hx

theorem addWords_length (w : Nat) (h s : List Nat) (hs : s.length = h.length) :
    (addWords w h s).length = h.length := by
  simp [addWords, hs]

theorem sha1Round_length (s : List Nat) (tw : Nat × Nat) (hs : s.length = 5) :
    (sha1Round s tw).length = 5 := by
  match s, hs with
  | [_, _, _, _, _], _ => simp [sha1Round]

theorem sha1Compress_length (h block : List Nat) (hh : h.length = 5) :
    (sha1Compress h block).length = 5 := by
  unfold sha1Compress
  rw [addWords_length, hh]
  rw [hh]
  exact foldl_length_inv 5 _ (fun s x hs => sha1Round_length s x hs) _ _ hh

theorem sha1_length (msg : List Nat) : (sha1 msg).length = 20 := by
  unfold sha1
  rw [flatMap_length_const 4 _ (beBytes_length 4),
    foldl_length_inv 5 sha1Compress sha1Compress_length _ sha1Init rfl]

theorem sha2Round_length (p : Sha2Params) (s : List Nat) (kw : Nat × Nat) (hs : s.length = 8) :
    (sha2Round p s kw).length = 8 := by
  match s, hs with
  | [_, _, _, _, _, _, _, _], _ => simp [sha2Round]

theorem sha2Compress_length (p : Sha2Params) (h block : List Nat) (hh : h.length = 8) :
    (sha2Compress p h block).length = 8 := by
  unfold sha2Compress
  rw [addWords_length, hh]
  rw [hh]
  exact foldl_length_inv 8 _ (fun s x hs => sha2Round_length p s x hs) _ _ hh

theorem sha256_length (msg : List Nat) : (sha256 msg).length = 32 := by
  unfold sha256
  rw [flatMap_length_const 4 _ (beBytes_length 4),
    foldl_length_inv 8 _ (sha2Compress_length sha256Params) _ sha256Init rfl]

theorem sha512_length (msg : List Nat) : (sha512 msg).length = 64 := by
  unfold sha512
  rw [flatMap_length_const 8 _ (beBytes_length 8),
    foldl_length_inv 8 _ (sha2Compress_length sha512Params) _ sha512Init rfl]

theorem md5Round_length (m s : List Nat) (i : Nat) (hs : s.length = 4) :
    (md5Round m s i).length = 4 := by
  match s, hs with
  | [_, _, _, _], _ => simp [md5Round]

theorem md5Compress_length (h block : List Nat) (hh : h.length = 4) :
    (md5Compress h block).length = 4 := by
  unfold md5Compress
  rw [addWords_length, hh]
  rw [hh]
  exact foldl_length_inv 4 _ (fun s x hs => md5Round_length block s x hs) _ _ hh

theorem md5_length (msg : List Nat) : (md5 msg).length = 16 := by
  unfold md5
  rw [flatMap_length_const 4 _ (leBytes_length 4),
    foldl_length_inv 4 md5Compress md5Compress_length _ md5Init rfl]

theorem HashKind.sum_length (h : HashKind) (msg : List Nat) : (h.sum msg).length = h.size := by
  cases h
  · exact sha1_length msg
  · exact sha256_length msg
  · exact sha512_length msg
  · exact md5_length msg

theorem HashKind.sum_lt (h : HashKind) (msg : List Nat) : ∀ b ∈ h.sum msg, b < 256 := by
  cases h
  · exact flatMap_forall _ _ (beBytes_lt 4) _
  · exact flatMap_forall _ _ (beBytes_lt 4) _
  · exact flatMap_forall _ _ (beBytes_lt 8) _
  · exact flatMap_forall _ _ (leBytes_lt 4) _

theorem hmacSum_length (h : HashKind) (key msg : List Nat) :
    (hmacSum h key msg).length = h.size := by
  unfold hmacSum
  exact HashKind.sum_length h _

theorem hmacSum_lt (h : HashKind) (key msg : List Nat) : ∀ b ∈ hmacSum h key msg, b < 256 := by
  unfold hmacSum
  exact HashKind.sum_lt h _

/-! ## Decimal formatting -/

theorem digitChar_isDigit (k : Nat) (hk : k < 10) :
    '0' ≤ Nat.digitChar k ∧ Nat.digitChar k ≤ '9' := by
  interval_cases k <;> decide

theorem toDigitsCore_isDigit (f n : Nat) (ds : List Char)
    (hds : ∀ c ∈ ds, '0' ≤ c ∧ c ≤ '9') :
    ∀ c ∈ Nat.toDigitsCore 10 f n ds, '0' ≤ c ∧ c ≤ '9' := by
  induction f generalizing n ds with
  | zero => simpa [Nat.toDigitsCore] using hds
  | succ f ih =>
    have hcons : ∀ c ∈ Nat.digitChar (n % 10) :: ds, '0' ≤ c ∧ c ≤ '9' := by
      intro c hc
      rcases List.mem_cons.1 hc with rfl | hc
      · exact digitChar_isDigit _ (Nat.mod_lt _ (by decide))
      · exact hds c hc
    simp only [Nat.toDigitsCore]
    split
    · exact hcons
    · exact ih _ _ hcons

theorem decimal_isDigit (n : Nat) : ∀ c ∈ decimal n, '0' ≤ c ∧ c ≤ '9' :=
  toDigitsCore_isDigit _ _ [] (by simp)

theorem decimal_length_le (n e : Nat) (hn : n < 10 ^ e) (he : 0 < e) :
    (decimal n).length ≤ e :=
  Nat.toDigitsCore_length 10 (by decide) (n + 1) n e hn he

theorem format_of_nonneg (d : Int) (m : Nat) (hd : 0 < d) (hm : m < 10 ^ d.toNat) :
    (Digits.Format d (m : Int)).length = d.toNat ∧
      ∀ c ∈ Digits.Format d (m : Int), '0' ≤ c ∧ c ≤ '9' := by
  have hlen := decimal_length_le m d.toNat hm (by omega)
  have h0 : ¬ ((m : Int) < 0) := by omega
  have hd0 : (0 : Int) ≤ d := by omega
  have e : Digits.Format d (m : Int)
      = List.replicate (d.toNat - (decimal m).length) '0' ++ decimal m := by
    simp only [Digits.Format, Int.natAbs_ofNat]
    rw [if_pos hd0, if_neg h0]
  rw [e]
  constructor
  · simp only [List.length_append, List.length_replicate]
    omega
  · intro c hc
    rcases List.mem_append.1 hc with hc | hc
    · rw [(List.mem_replicate.1 hc).2]
      decide
    · exact decimal_isDigit m c hc

/-! ## Strings of ASCII characters -/

theorem utf8Char_of_ascii (c : Char) (hc : c.toNat < 128) : utf8Char c = [c.toNat] := by
  simp [utf8Char, hc]

theorem utf8Char_length_pos (c : Char) : 0 < (utf8Char c).length := by
  unfold utf8Char
  simp only []
  split
  · simp
  · split
    · simp
    · split <;> simp

theorem bytes_of_ascii (s : GoString) (hs : ∀ c ∈ s, c.toNat < 128) :
    s.bytes = s.map Char.toNat := by
  induction s with
  | nil => rfl
  | cons c cs ih =>
    have h1 := utf8Char_of_ascii c (hs c (List.mem_cons_self _ _))
    have h2 := ih (fun x hx => hs x (List.mem_cons_of_mem _ hx))
    simp only [GoString.bytes] at h2 ⊢
    simp [List.flatMap_cons, h1, h2]

theorem len_of_ascii (s : GoString) (hs : ∀ c ∈ s, c.toNat < 128) : s.len = s.length := by
  simp [GoString.len, bytes_of_ascii s hs]

theorem isDigit_ascii (c : Char) (hc : '0' ≤ c ∧ c ≤ '9') : c.toNat < 128 := by
  have h : c.val ≤ ('9' : Char).val := hc.2
  have h9 : ('9' : Char).val.toNat = 57 := by decide
  have : c.val.toNat ≤ 57 := by
    rw [← h9]
    exact UInt32.le_def.1 h
  show c.val.toNat < 128
  omega

/-! ## The HOTP core -/

theorem truncate_bits (b0 b1 b2 b3 : Nat) (h1 : b1 < 256) (h2 : b2 < 256) (h3 : b3 < 256) :
    ((b0 &&& 0x7f) <<< 24) ||| ((b1 &&& 0xff) <<< 16) ||| ((b2 &&& 0xff) <<< 8) ||| (b3 &&& 0xff)
      = beWord [b0 % 128, b1, b2, b3] := by
  have e0 : b0 &&& 0x7f = b0 % 128 := Nat.and_pow_two_sub_one_eq_mod b0 7
  have e1 : b1 &&& 0xff = b1 := by
    have := Nat.and_pow_two_sub_one_eq_mod b1 8
    simpa [Nat.mod_eq_of_lt h1] using this
  have e2 : b2 &&& 0xff = b2 := by
    have := Nat.and_pow_two_sub_one_eq_mod b2 8
    simpa [Nat.mod_eq_of_lt h2] using this
  have e3 : b3 &&& 0xff = b3 := by
    have := Nat.and_pow_two_sub_one_eq_mod b3 8
    simpa [Nat.mod_eq_of_lt h3] using this
  rw [e0, e1, e2, e3]
  simp only [Nat.shiftLeft_eq, beWord, List.foldl]
  have s1 : b0 % 128 * 2 ^ 24 ||| b1 * 2 ^ 16 = 2 ^ 24 * (b0 % 128) + b1 * 2 ^ 16 := by
    rw [Nat.mul_comm (b0 % 128)]
    exact (Nat.mul_add_lt_is_or (by omega) _).symm
  have s2 : 2 ^ 24 * (b0 % 128) + b1 * 2 ^ 16 ||| b2 * 2 ^ 8
      = 2 ^ 16 * (2 ^ 8 * (b0 % 128) + b1) + b2 * 2 ^ 8 := by
    have : 2 ^ 24 * (b0 % 128) + b1 * 2 ^ 16 = 2 ^ 16 * (2 ^ 8 * (b0 % 128) + b1) := by omega
    rw [this]
    exact (Nat.mul_add_lt_is_or (by omega) _).symm
  have s3 : 2 ^ 16 * (2 ^ 8 * (b0 % 128) + b1) + b2 * 2 ^ 8 ||| b3
      = 2 ^ 8 * (2 ^ 8 * (2 ^ 8 * (b0 % 128) + b1) + b2) + b3 := by
    have : 2 ^ 16 * (2 ^ 8 * (b0 % 128) + b1) + b2 * 2 ^ 8
        = 2 ^ 8 * (2 ^ 8 * (2 ^ 8 * (b0 % 128) + b1) + b2) := by omega
    rw [this]
    exact (Nat.mul_add_lt_is_or (by omega) _).symm
  rw [s1, s2, s3]
  omega

theorem specOffset_lt (mac : List Nat) : specOffset mac < 16 := by
  unfold specOffset
  have := Nat.and_pow_two_sub_one_eq_mod (mac.getLastD 0) 4
  have h : mac.getLastD 0 &&& 0x0F = mac.getLastD 0 % 16 := this
  rw [h]
  exact Nat.mod_lt _ (by decide)

theorem specValue_lt (mac : List Nat) (hb : ∀ b ∈ mac, b < 256) (hlen : 19 ≤ mac.length) :
    specValue mac < 2 ^ 31 := by
  have ho := specOffset_lt mac
  have g : ∀ i, i < mac.length → mac.getD i 0 < 256 := by
    intro i hi
    rw [List.getD_eq_getElem _ _ hi]
    exact hb _ (List.getElem_mem hi)
  have g1 := g (specOffset mac + 1) (by omega)
  have g2 := g (specOffset mac + 2) (by omega)
  have g3 := g (specOffset mac + 3) (by omega)
  simp only [specValue, beWord, List.foldl]
  omega

theorem truncate_eq_specValue (mac : List Nat) (hb : ∀ b ∈ mac, b < 256)
    (hlen : 19 ≤ mac.length) : truncate mac = some (specValue mac) := by
  have ho := specOffset_lt mac
  have g : ∀ i, i < mac.length → mac.getD i 0 < 256 := by
    intro i hi
    rw [List.getD_eq_getElem _ _ hi]
    exact hb _ (List.getElem_mem hi)
  have hlast : mac[mac.length - 1]? = some (mac.getLastD 0) := by
    cases mac with
    | nil => simp at hlen
    | cons x xs =>
      rw [List.getLastD_cons, ← List.getLast?_eq_getElem?]; simp [List.getLast?_cons]
  have e : ∀ i, i < mac.length → mac[i]? = some (mac.getD i 0) := by
    intro i hi
    rw [List.getElem?_eq_getElem hi, List.getD_eq_getElem _ _ hi]
  have hoff : mac.getLastD 0 &&& 0xf = specOffset mac := rfl
  simp only [truncate, hlast, Option.bind_eq_bind, Option.some_bind, hoff,
    e (specOffset mac) (by omega), e (specOffset mac + 1) (by omega),
    e (specOffset mac + 2) (by omega), e (specOffset mac + 3) (by omega), Option.pure_def]
  rw [truncate_bits _ _ _ _ (g _ (by omega)) (g _ (by omega)) (g _ (by omega))]
  rfl

theorem leWord_leBytes (n x : Nat) : leWord (leBytes n x) = x % 256 ^ n := by
  induction n generalizing x with
  | zero => simp [leBytes, leWord, Nat.mod_one]
  | succ n ih =>
    have h := ih (x / 256)
    simp only [leWord] at h
    simp only [leBytes, leWord, List.foldr_cons, h, Nat.pow_succ']
    rw [Nat.mod_mul, Nat.add_comm, Nat.mul_comm]

theorem beWord_reverse (l : List Nat) : beWord l.reverse = leWord l := by
  simp [beWord, leWord, List.foldl_reverse]

theorem beWord_beBytes (n x : Nat) (hx : x < 256 ^ n) : beWord (beBytes n x) = x := by
  rw [beBytes, beWord_reverse, leWord_leBytes, Nat.mod_eq_of_lt hx]

theorem hash_of_algorithm (a : Algorithm)
    (ha : a = AlgorithmSHA1 ∨ a = AlgorithmSHA256 ∨ a = AlgorithmSHA512) :
    ∃ h, a.Hash = some h ∧ 19 ≤ h.size := by
  rcases ha with rfl | rfl | rfl
  · exact ⟨.sha1, by decide, by decide⟩
  · exact ⟨.sha256, by decide, by decide⟩
  · exact ⟨.sha512, by decide, by decide⟩

theorem generateCodeCustom_of_key (secret : GoString) (key : List Nat) (counter : Nat)
    (opts : ValidateOtps) (h : HashKind)
    (hkey : StdEncoding.DecodeString (normalizeSecret secret) = some key)
    (hh : opts.Algorithm.Hash = some h) (hsz : 19 ≤ h.size) (hd : 0 ≤ opts.Digits) :
    GenerateCodeCustom secret counter opts =
      some (opts.Digits.Format (toInt32 (Int.emod
        (specValue (hmacSum h key (beBytes 8 counter)) : Int) (10 ^ opts.Digits.toNat))), none) := by
  have ht := truncate_eq_specValue (hmacSum h key (beBytes 8 counter)) (hmacSum_lt h _ _)
    (by rw [hmacSum_length]; exact hsz)
  have hp : pow10Int64 opts.Digits.Length = 10 ^ opts.Digits.toNat := by
    simp [pow10Int64, Digits.Length, hd]
  have hp0 : pow10Int64 opts.Digits.Length ≠ 0 := by
    rw [hp]; positivity
  simp only [GenerateCodeCustom, hkey, hh, ht, hp0, if_false]
  rw [hp]

theorem toInt32_of_small (x : Int) (h0 : 0 ≤ x) (h1 : x < 2 ^ 31) : toInt32 x = x := by
  unfold toInt32
  omega

theorem generateCodeCustom_value (secret : GoString) (key : List Nat) (counter : Nat)
    (opts : ValidateOtps)
    (hkey : StdEncoding.DecodeString (normalizeSecret secret) = some key)
    (halg : opts.Algorithm = AlgorithmSHA1 ∨ opts.Algorithm = AlgorithmSHA256 ∨
      opts.Algorithm = AlgorithmSHA512)
    (hdig : opts.Digits = DigitsSix ∨ opts.Digits = DigitsEight) :
    ∃ h, opts.Algorithm.Hash = some h ∧
      specValue (hmacSum h key (beBytes 8 counter)) < 2 ^ 31 ∧
      GenerateCodeCustom secret counter opts =
        some (opts.Digits.Format
          ((specValue (hmacSum h key (beBytes 8 counter)) % 10 ^ opts.Digits.toNat : Nat) : Int),
          none) := by
  obtain ⟨h, hh, hsz⟩ := hash_of_algorithm _ halg
  have hlt := specValue_lt (hmacSum h key (beBytes 8 counter)) (hmacSum_lt h _ _)
    (by rw [hmacSum_length]; exact hsz)
  refine ⟨h, hh, hlt, ?_⟩
  have hd : 0 ≤ opts.Digits := by
    rcases hdig with e | e <;> rw [e] <;> decide
  rw [generateCodeCustom_of_key secret key counter opts h hkey hh hsz hd]
  have hm : Int.emod (specValue (hmacSum h key (beBytes 8 counter)) : Int)
      (10 ^ opts.Digits.toNat) =
      ((specValue (hmacSum h key (beBytes 8 counter)) % 10 ^ opts.Digits.toNat : Nat) : Int) := by
    push_cast
    rfl
  rw [hm, toInt32_of_small]
  · exact Int.ofNat_nonneg _
  · have : specValue (hmacSum h key (beBytes 8 counter)) % 10 ^ opts.Digits.toNat
        ≤ specValue (hmacSum h key (beBytes 8 counter)) := Nat.mod_le _ _
    have h2 : specValue (hmacSum h key (beBytes 8 counter)) % 10 ^ opts.Digits.toNat < 2 ^ 31 :=
      Nat.lt_of_le_of_lt this hlt
    exact_mod_cast h2

/-- The code `GenerateCodeCustom` returns for a decodable secret: `digits` decimal digits. -/
theorem generateCodeCustom_code (secret : GoString) (key : List Nat) (counter : Nat)
    (opts : ValidateOtps)
    (hkey : StdEncoding.DecodeString (normalizeSecret secret) = some key)
    (halg : opts.Algorithm = AlgorithmSHA1 ∨ opts.Algorithm = AlgorithmSHA256 ∨
      opts.Algorithm = AlgorithmSHA512)
    (hdig : opts.Digits = DigitsSix ∨ opts.Digits = DigitsEight) :
    ∃ code, GenerateCodeCustom secret counter opts = some (code, none) ∧
      code.length = opts.Digits.toNat ∧ (∀ c ∈ code, '0' ≤ c ∧ c ≤ '9') := by
  obtain ⟨h, _, _, hgen⟩ := generateCodeCustom_value secret key counter opts hkey halg hdig
  have hd : 0 < opts.Digits := by
    rcases hdig with e | e <;> rw [e] <;> decide
  have hf := format_of_nonneg opts.Digits
    (specValue (hmacSum h key (beBytes 8 counter)) % 10 ^ opts.Digits.toNat) hd
    (Nat.mod_lt _ (by positivity))
  exact ⟨_, hgen, hf.1, hf.2⟩

/-- C1: for a secret whose normalised form decodes to `key`, a 64-bit counter, an algorithm
among SHA1, SHA256, SHA512 and 6 or 8 digits, `GenerateCodeCustom` returns, with a nil error,
`Format(value mod 10^digits)`, where `value` is read from
`mac = HMAC(algorithm, key, counter as 8 big-endian bytes)` as the specification words it
(`specValue`): offset = last byte `& 0x0F`, four bytes big-endian, top bit cleared; and
`value < 2^31`. -/
theorem generateCodeCustom_truncation (secret : GoString) (key : List Nat) (counter : Nat)
    (opts : ValidateOtps)
    (hkey : StdEncoding.DecodeString (normalizeSecret secret) = some key)
    (hcounter : counter < 2 ^ 64)
    (halg : opts.Algorithm = AlgorithmSHA1 ∨ opts.Algorithm = AlgorithmSHA256 ∨
      opts.Algorithm = AlgorithmSHA512)
    (hdig : opts.Digits = DigitsSix ∨ opts.Digits = DigitsEight) :
    ∃ h, opts.Algorithm.Hash = some h ∧
      (beBytes 8 counter).length = 8 ∧ beWord (beBytes 8 counter) = counter ∧
      specValue (hmacSum h key (beBytes 8 counter)) < 2 ^ 31 ∧
      GenerateCodeCustom secret counter opts =
        some (opts.Digits.Format
          ((specValue (hmacSum h key (beBytes 8 counter)) % 10 ^ opts.Digits.toNat : Nat) : Int),
          none) := by
  obtain ⟨h, hh, hlt, hgen⟩ := generateCodeCustom_value secret key counter opts hkey halg hdig
  exact ⟨h, hh, beBytes_length 8 counter, beWord_beBytes 8 counter (by simpa using hcounter),
    hlt, hgen⟩

/-- Witness for C1: the secret of `TestValidatePadding`, counter 0, SHA1, six digits. -/
theorem generateCodeCustom_truncation_witness :
    ∃ h, (⟨DigitsSix, AlgorithmSHA1⟩ : ValidateOtps).Algorithm.Hash = some h ∧
      (beBytes 8 0).length = 8 ∧ beWord (beBytes 8 0) = 0 ∧
      specValue (hmacSum h [72, 101, 108, 108, 111, 33, 222, 173, 190] (beBytes 8 0)) < 2 ^ 31 ∧
      GenerateCodeCustom "JBSWY3DPEHPK3PX".toList 0 ⟨DigitsSix, AlgorithmSHA1⟩ =
        some (DigitsSix.Format
          ((specValue (hmacSum h [72, 101, 108, 108, 111, 33, 222, 173, 190] (beBytes 8 0))
            % 10 ^ DigitsSix.toNat : Nat) : Int), none) :=
  generateCodeCustom_truncation "JBSWY3DPEHPK3PX".toList [72, 101, 108, 108, 111, 33, 222, 173, 190]
    0 ⟨DigitsSix, AlgorithmSHA1⟩ (by decide) (by decide) (Or.inl rfl) (Or.inl rfl)

/-- C2: for a secret whose normalised form decodes, every counter, an algorithm among SHA1,
SHA256, SHA512 and 6 or 8 digits, the code `GenerateCodeCustom` returns has exactly
`digits.Length()` characters (counted as characters and as bytes), each a decimal digit. -/
theorem generateCodeCustom_length_digits (secret : GoString) (key : List Nat) (counter : Nat)
    (opts : ValidateOtps)
    (hkey : StdEncoding.DecodeString (normalizeSecret secret) = some key)
    (halg : opts.Algorithm = AlgorithmSHA1 ∨ opts.Algorithm = AlgorithmSHA256 ∨
      opts.Algorithm = AlgorithmSHA512)
    (hdig : opts.Digits = DigitsSix ∨ opts.Digits = DigitsEight) :
    ∃ code, GenerateCodeCustom secret counter opts = some (code, none) ∧
      (code.length : Int) = opts.Digits.Length ∧ (code.len : Int) = opts.Digits.Length ∧
      ∀ c ∈ code, '0' ≤ c ∧ c ≤ '9' := by
  obtain ⟨code, hgen, hlen, hdigs⟩ :=
    generateCodeCustom_code secret key counter opts hkey halg hdig
  have hd : (opts.Digits.toNat : Int) = opts.Digits.Length := by
    rcases hdig with e | e <;> rw [e] <;> decide
  refine ⟨code, hgen, ?_, ?_, hdigs⟩
  · rw [hlen, hd]
  · rw [len_of_ascii code (fun c hc => isDigit_ascii c (hdigs c hc)), hlen, hd]

/-- Witness for C2: the RFC 6238 SHA1 secret, counter 1, eight digits. -/
theorem generateCodeCustom_length_digits_witness :
    ∃ code, GenerateCodeCustom "GEZDGNBVGY3TQOJQGEZDGNBVGY3TQOJQ".toList 1
        ⟨DigitsEight, AlgorithmSHA1⟩ = some (code, none) ∧
      (code.length : Int) = DigitsEight.Length ∧ (code.len : Int) = DigitsEight.Length ∧
      ∀ c ∈ code, '0' ≤ c ∧ c ≤ '9' :=
  generateCodeCustom_length_digits "GEZDGNBVGY3TQOJQGEZDGNBVGY3TQOJQ".toList
    (GoString.bytes "12345678901234567890".toList) 1 ⟨DigitsEight, AlgorithmSHA1⟩
    (by decide) (Or.inl rfl) (Or.inr rfl)

/-! ## Validation of one counter -/

theorem or_eq_zero_iff (a b : Nat) : a ||| b = 0 ↔ a = 0 ∧ b = 0 := by
  constructor
  · intro h
    have ht : ∀ i, a.testBit i = false ∧ b.testBit i = false := by
      intro i
      have := congrArg (fun n => Nat.testBit n i) h
      simpa [Nat.testBit_or] using this
    constructor
    · exact Nat.eq_of_testBit_eq (fun i => by simp [(ht i).1])
    · exact Nat.eq_of_testBit_eq (fun i => by simp [(ht i).2])
  · rintro ⟨rfl, rfl⟩
    rfl

theorem foldl_or_eq_zero (l : List Nat) (acc : Nat) :
    l.foldl (· ||| ·) acc = 0 ↔ acc = 0 ∧ ∀ x ∈ l, x = 0 := by
  induction l generalizing acc with
  | nil => simp
  | cons x xs ih =>
    simp only [List.foldl_cons, ih, or_eq_zero_iff, List.mem_cons, forall_eq_or_imp]
    tauto

theorem zipWith_xor_zero (x y : List Nat) (hlen : x.length = y.length) :
    (∀ v ∈ List.zipWith (· ^^^ ·) x y, v = 0) ↔ x = y := by
  induction x generalizing y with
  | nil =>
    cases y with
    | nil => simp
    | cons b bs => simp at hlen
  | cons a as ih =>
    cases y with
    | nil => simp at hlen
    | cons b bs =>
      have hl : as.length = bs.length := by simpa using hlen
      simp only [List.zipWith_cons_cons, List.mem_cons, forall_eq_or_imp, Nat.xor_eq_zero,
        ih bs hl, List.cons.injEq]

/-- The function `ConstantTimeCompare` returns 1 exactly on equal byte strings. -/
theorem constantTimeCompare_eq_one (x y : List Nat) : ConstantTimeCompare x y = 1 ↔ x = y := by
  unfold ConstantTimeCompare
  by_cases hlen : x.length = y.length
  · simp only [hlen, ne_eq, not_true_eq_false, if_false]
    have hz := foldl_or_eq_zero (List.zipWith (· ^^^ ·) x y) 0
    simp only [true_and, zipWith_xor_zero x y hlen] at hz
    by_cases hxy : x = y
    · rw [if_pos (hz.2 hxy)]
      simp [hxy]
    · have : ¬ (List.zipWith (· ^^^ ·) x y).foldl (· ||| ·) 0 = 0 := fun h => hxy (hz.1 h)
      simp [this, hxy]
  · simp only [ne_eq, hlen, not_false_eq_true, if_true]
    constructor
    · intro h
      simp at h
    · intro h
      exact absurd (congrArg List.length h) hlen

theorem bytes_nil : GoString.bytes [] = [] := rfl

theorem bytes_cons (c : Char) (cs : GoString) :
    GoString.bytes (c :: cs) = utf8Char c ++ GoString.bytes cs := by
  simp [GoString.bytes, List.flatMap_cons]

theorem utf8Char_head_ge (c : Char) (hc : ¬ c.toNat < 128) :
    ∃ b bs, utf8Char c = b :: bs ∧ 128 ≤ b := by
  unfold utf8Char
  simp only [hc, if_false]
  split
  · exact ⟨_, _, rfl, by omega⟩
  · split
    · exact ⟨_, _, rfl, by omega⟩
    · exact ⟨_, _, rfl, by omega⟩

/-- A string with the same bytes as an ASCII string is that string. -/
theorem eq_of_bytes_eq_ascii (x o : GoString) (ho : ∀ c ∈ o, c.toNat < 128)
    (h : x.bytes = o.bytes) : x = o := by
  induction x generalizing o with
  | nil =>
    cases o with
    | nil => rfl
    | cons c cs =>
      rw [bytes_nil, bytes_cons] at h
      have := utf8Char_length_pos c
      have h' := congrArg List.length h
      simp only [List.length_append, List.length_nil] at h'
      omega
  | cons a as ih =>
    cases o with
    | nil =>
      rw [bytes_nil, bytes_cons] at h
      have := utf8Char_length_pos a
      have h' := congrArg List.length h
      simp only [List.length_append, List.length_nil] at h'
      omega
    | cons c cs =>
      have hc := ho c (List.mem_cons_self _ _)
      rw [bytes_cons, bytes_cons, utf8Char_of_ascii c hc] at h
      by_cases ha : a.toNat < 128
      · rw [utf8Char_of_ascii a ha] at h
        simp only [List.singleton_append, List.cons.injEq] at h
        have hac : a = c := Char.ext (UInt32.ext h.1)
        rw [hac, ih cs (fun x hx => ho x (List.mem_cons_of_mem _ hx)) h.2]
      · obtain ⟨b, bs, hb, hge⟩ := utf8Char_head_ge a ha
        rw [hb] at h
        simp only [List.cons_append, List.singleton_append, List.cons.injEq] at h
        omega

theorem trimSpace_length_le (s : GoString) : (TrimSpace s).length ≤ s.length := by
  unfold TrimSpace
  rw [List.length_reverse]
  have h1 := (List.dropWhile_suffix (l := (s.dropWhile isSpace).reverse) isSpace).length_le
  have h2 := (List.dropWhile_suffix (l := s) isSpace).length_le
  rw [List.length_reverse] at h1
  omega

theorem trimSpace_eq_of_length (s : GoString) (h : (TrimSpace s).length = s.length) :
    TrimSpace s = s := by
  unfold TrimSpace at h ⊢
  rw [List.length_reverse] at h
  have h1 := (List.dropWhile_suffix (l := (s.dropWhile isSpace).reverse) isSpace)
  have h2 := (List.dropWhile_suffix (l := s) isSpace)
  have l1 := h1.length_le
  have l2 := h2.length_le
  rw [List.length_reverse] at l1
  have e2 : s.dropWhile isSpace = s := h2.eq_of_length (by omega)
  have e1 := h1.eq_of_length (by rw [List.length_reverse]; omega)
  rw [e1, List.reverse_reverse, e2]

theorem isDigit_not_space (c : Char) (hc : '0' ≤ c ∧ c ≤ '9') : isSpace c = false := by
  have h : ('0' : Char).val ≤ c.val := hc.1
  have h2 : c.val ≤ ('9' : Char).val := hc.2
  have e0 : ('0' : Char).val.toNat = 48 := by decide
  have e9 : ('9' : Char).val.toNat = 57 := by decide
  have g0 : 48 ≤ c.toNat := by
    rw [← e0]; exact UInt32.le_def.1 h
  have g9 : c.toNat ≤ 57 := by
    rw [← e9]; exact UInt32.le_def.1 h2
  simp only [isSpace, Bool.or_eq_false_iff, beq_eq_false_iff_ne, ne_eq, Bool.and_eq_false_iff,
    decide_eq_false_iff_not]
  omega

theorem trimSpace_of_digits (s : GoString) (hs : ∀ c ∈ s, '0' ≤ c ∧ c ≤ '9') :
    TrimSpace s = s := by
  have hd : ∀ l : GoString, (∀ c ∈ l, '0' ≤ c ∧ c ≤ '9') → l.dropWhile isSpace = l := by
    intro l hl
    cases l with
    | nil => rfl
    | cons c cs => simp [List.dropWhile, isDigit_not_space c (hl c (List.mem_cons_self _ _))]
  unfold TrimSpace
  rw [hd s hs, hd s.reverse (fun c hc => hs c (List.mem_reverse.1 hc)), List.reverse_reverse]

/-- What `ValidateCustom` returns once `GenerateCodeCustom` is known to return a code. -/
theorem validateCustom_of_code (passcode secret code : GoString) (counter : Nat)
    (opts : ValidateOtps) (hgen : GenerateCodeCustom secret counter opts = some (code, none)) :
    ValidateCustom passcode counter secret opts =
      if ((TrimSpace passcode).len : Int) ≠ opts.Digits.Length then
        some (false, some ErrValidateInputInvalidLength)
      else some (decide (code.bytes = (TrimSpace passcode).bytes), none) := by
  unfold ValidateCustom
  simp only [hgen]
  split
  · rfl
  · by_cases h : code.bytes = (TrimSpace passcode).bytes
    · rw [if_pos ((constantTimeCompare_eq_one _ _).2 h)]
      simp [h]
    · have : ¬ ConstantTimeCompare code.bytes (TrimSpace passcode).bytes = 1 :=
        fun e => h ((constantTimeCompare_eq_one _ _).1 e)
      simp [this, h]

/-- C3: for a secret whose normalised form decodes, a counter, an algorithm among SHA1,
SHA256, SHA512 and 6 or 8 digits, `ValidateCustom` accepts the code `GenerateCodeCustom`
returns for the same arguments with `(true, nil)`, and returns `false` for every candidate
obtained from that code by replacing one character with a different one. -/
theorem validateCustom_generated (secret : GoString) (key : List Nat) (counter : Nat)
    (opts : ValidateOtps)
    (hkey : StdEncoding.DecodeString (normalizeSecret secret) = some key)
    (halg : opts.Algorithm = AlgorithmSHA1 ∨ opts.Algorithm = AlgorithmSHA256 ∨
      opts.Algorithm = AlgorithmSHA512)
    (hdig : opts.Digits = DigitsSix ∨ opts.Digits = DigitsEight) :
    ∃ code, GenerateCodeCustom secret counter opts = some (code, none) ∧
      ValidateCustom code counter secret opts = some (true, none) ∧
      ∀ (i : Nat) (c : Char), i < code.length → code[i]? ≠ some c →
        ∃ e, ValidateCustom (code.set i c) counter secret opts = some (false, e) := by
  obtain ⟨code, hgen, hlen, hdigs⟩ :=
    generateCodeCustom_code secret key counter opts hkey halg hdig
  have hd : (opts.Digits.toNat : Int) = opts.Digits.Length := by
    rcases hdig with e | e <;> rw [e] <;> decide
  have hascii : ∀ c ∈ code, c.toNat < 128 := fun c hc => isDigit_ascii c (hdigs c hc)
  have hcl : (code.len : Int) = opts.Digits.Length := by
    rw [len_of_ascii code hascii, hlen, hd]
  refine ⟨code, hgen, ?_, ?_⟩
  · rw [validateCustom_of_code code secret code counter opts hgen, trimSpace_of_digits code hdigs]
    simp [hcl]
  · intro i c hi hne
    rw [validateCustom_of_code (code.set i c) secret code counter opts hgen]
    split
    · exact ⟨_, rfl⟩
    · refine ⟨none, ?_⟩
      have hbytes : ¬ code.bytes = (TrimSpace (code.set i c)).bytes := by
        intro hb
        have e1 : TrimSpace (code.set i c) = code :=
          eq_of_bytes_eq_ascii _ code hascii hb.symm
        have e2 : TrimSpace (code.set i c) = code.set i c :=
          trimSpace_eq_of_length _ (by rw [e1, List.length_set])
        have e3 : code.set i c = code := e2.symm.trans e1
        have e4 : (code.set i c)[i]? = some c := by
          rw [List.getElem?_set_self hi]
        rw [e3] at e4
        exact hne e4
      simp [hbytes]

/-- Witness for C3: the secret of `TestValidatePadding`, counter 0, SHA1, six digits. -/
theorem validateCustom_generated_witness :
    ∃ code, GenerateCodeCustom "JBSWY3DPEHPK3PX".toList 0 ⟨DigitsSix, AlgorithmSHA1⟩
        = some (code, none) ∧
      ValidateCustom code 0 "JBSWY3DPEHPK3PX".toList ⟨DigitsSix, AlgorithmSHA1⟩
        = some (true, none) ∧
      ∀ (i : Nat) (c : Char), i < code.length → code[i]? ≠ some c →
        ∃ e, ValidateCustom (code.set i c) 0 "JBSWY3DPEHPK3PX".toList
          ⟨DigitsSix, AlgorithmSHA1⟩ = some (false, e) :=
  validateCustom_generated "JBSWY3DPEHPK3PX".toList [72, 101, 108, 108, 111, 33, 222, 173, 190]
    0 ⟨DigitsSix, AlgorithmSHA1⟩ (by decide) (Or.inl rfl) (Or.inl rfl)

/-- C4, as stated, fails: the candidate `" 831097"` has 7 bytes, not 6, yet `ValidateCustom`
trims it first and accepts it with `(true, nil)`. -/
theorem validateCustom_length_counterexample :
    (GoString.len " 831097".toList : Int) ≠ DigitsSix.Length ∧
      ValidateCustom " 831097".toList 0 "JBSWY3DPEHPK3PX".toList ⟨DigitsSix, AlgorithmSHA1⟩
        = some (true, none) := by
  decide!

/-- The length test of `ValidateCustom` comes first: a trimmed candidate of the wrong
length gives the length error, whatever the other arguments are. -/
theorem validateCustom_length_error (passcode secret : GoString) (counter : Nat)
    (opts : ValidateOtps) (h : ((TrimSpace passcode).len : Int) ≠ opts.Digits.Length) :
    ValidateCustom passcode counter secret opts =
      some (false, some ErrValidateInputInvalidLength) := by
  unfold ValidateCustom
  simp only [h, ne_eq, not_false_eq_true, if_true]

/-- C4, amended: for every candidate whose length after trimming surrounding white space
differs from `digits.Length()`, `ValidateCustom` returns
`(false, ErrValidateInputInvalidLength)`, whatever the secret (valid Base32 or not), the
counter and the algorithm are. -/
theorem validateCustom_invalid_length (passcode secret : GoString) (counter : Nat)
    (opts : ValidateOtps) (h : ((TrimSpace passcode).len : Int) ≠ opts.Digits.Length) :
    ValidateCustom passcode counter secret opts =
      some (false, some ErrValidateInputInvalidLength) :=
  validateCustom_length_error passcode secret counter opts h

/-- Witness for C4: a five-character candidate against a secret that is not Base32. -/
theorem validateCustom_invalid_length_witness :
    ((TrimSpace "12345".toList).len : Int) ≠ DigitsSix.Length ∧
      StdEncoding.DecodeString (normalizeSecret "!!".toList) = none ∧
      ValidateCustom "12345".toList 0 "!!".toList ⟨DigitsSix, AlgorithmSHA1⟩ =
        some (false, some ErrValidateInputInvalidLength) :=
  ⟨by decide, by decide,
    validateCustom_invalid_length "12345".toList "!!".toList 0 ⟨DigitsSix, AlgorithmSHA1⟩
      (by decide)⟩

/-! ## Letter case of the secret -/

theorem ascii_cases (P : Char → Prop) (h : ∀ n, n < 128 → P (Char.ofNat n)) (c : Char)
    (hc : c.toNat < 128) : P c := by
  have := h c.toNat hc
  rwa [Char.ofNat_toNat] at this

theorem upper_ascii_table : ∀ n, n < 128 →
    ((unicodeToUpper (Char.ofNat n)).toNat < 128 ∧
      unicodeToUpper (unicodeToUpper (Char.ofNat n)) = unicodeToUpper (Char.ofNat n) ∧
      isSpace (unicodeToUpper (Char.ofNat n)) = isSpace (Char.ofNat n)) := by
  decide

theorem upper_ascii (c : Char) (hc : c.toNat < 128) :
    (unicodeToUpper c).toNat < 128 ∧ unicodeToUpper (unicodeToUpper c) = unicodeToUpper c ∧
      isSpace (unicodeToUpper c) = isSpace c :=
  ascii_cases (fun c => (unicodeToUpper c).toNat < 128 ∧
    unicodeToUpper (unicodeToUpper c) = unicodeToUpper c ∧
      isSpace (unicodeToUpper c) = isSpace c) upper_ascii_table c hc

theorem dropWhile_toUpper (l : GoString) (hl : ∀ c ∈ l, c.toNat < 128) :
    (ToUpper l).dropWhile isSpace = ToUpper (l.dropWhile isSpace) := by
  induction l with
  | nil => rfl
  | cons c cs ih =>
    have hc := (upper_ascii c (hl c (List.mem_cons_self _ _))).2.2
    have ih' := ih (fun x hx => hl x (List.mem_cons_of_mem _ hx))
    simp only [ToUpper, List.map_cons, List.dropWhile_cons, hc] at ih' ⊢
    split
    · exact ih'
    · rfl

theorem trimSpace_ascii (s : GoString) (hs : ∀ c ∈ s, c.toNat < 128) :
    ∀ c ∈ TrimSpace s, c.toNat < 128 := by
  intro c hc
  unfold TrimSpace at hc
  rw [List.mem_reverse] at hc
  have h1 := (List.dropWhile_suffix (l := (s.dropWhile isSpace).reverse) isSpace).subset hc
  rw [List.mem_reverse] at h1
  exact hs c ((List.dropWhile_suffix (l := s) isSpace).subset h1)

theorem trimSpace_toUpper (s : GoString) (hs : ∀ c ∈ s, c.toNat < 128) :
    TrimSpace (ToUpper s) = ToUpper (TrimSpace s) := by
  have h1 : ∀ c ∈ (s.dropWhile isSpace).reverse, c.toNat < 128 := by
    intro c hc
    rw [List.mem_reverse] at hc
    exact hs c ((List.dropWhile_suffix (l := s) isSpace).subset hc)
  unfold TrimSpace
  rw [dropWhile_toUpper s hs]
  have e : (ToUpper (s.dropWhile isSpace)).reverse = ToUpper (s.dropWhile isSpace).reverse := by
    simp [ToUpper, List.map_reverse]
  rw [e, dropWhile_toUpper _ h1]
  simp [ToUpper, List.map_reverse]

theorem toUpper_ascii (s : GoString) (hs : ∀ c ∈ s, c.toNat < 128) :
    (∀ c ∈ ToUpper s, c.toNat < 128) ∧ ToUpper (ToUpper s) = ToUpper s ∧
      (ToUpper s).len = s.len := by
  refine ⟨?_, ?_, ?_⟩
  · intro c hc
    obtain ⟨a, ha, rfl⟩ := List.mem_map.1 hc
    exact (upper_ascii a (hs a ha)).1
  · simp only [ToUpper, List.map_map]
    exact List.map_congr_left (fun a ha => (upper_ascii a (hs a ha)).2.1)
  · have h1 : ∀ c ∈ ToUpper s, c.toNat < 128 := by
      intro c hc
      obtain ⟨a, ha, rfl⟩ := List.mem_map.1 hc
      exact (upper_ascii a (hs a ha)).1
    rw [len_of_ascii _ h1, len_of_ascii _ hs]
    simp [ToUpper]

theorem toUpper_repeatEq (n : Nat) : ToUpper (repeatEq n) = repeatEq n := by
  simp only [ToUpper, repeatEq, List.map_replicate]
  rfl

/-- For an ASCII secret, upper-casing it first does not change the normalised secret. -/
theorem normalizeSecret_toUpper (s : GoString) (hs : ∀ c ∈ s, c.toNat < 128) :
    normalizeSecret (ToUpper s) = normalizeSecret s := by
  have ht := trimSpace_ascii s hs
  obtain ⟨_, hidem, hlen⟩ := toUpper_ascii (TrimSpace s) ht
  unfold normalizeSecret padSecret
  simp only [trimSpace_toUpper s hs, hlen]
  split
  · simp only [ToUpper, List.map_append] at hidem ⊢
    rw [hidem]
  · exact hidem

/-- C6, as stated, fails: the secret that starts with a dotless i (U+0131, two bytes) and
seven `A` is padded on its 9 bytes and then upper-cased to 15 bytes, which do not decode,
while its upper-case form `IAAAAAAA` is a valid secret. -/
theorem generateCodeCustom_case_counterexample :
    GenerateCodeCustom (Char.ofNat 0x131 :: "AAAAAAA".toList) 0 ⟨DigitsSix, AlgorithmSHA1⟩
        = some ([], some ErrValidateSecretInvalidBase32) ∧
      ToUpper (Char.ofNat 0x131 :: "AAAAAAA".toList) = "IAAAAAAA".toList ∧
      GenerateCodeCustom (ToUpper (Char.ofNat 0x131 :: "AAAAAAA".toList)) 0
        ⟨DigitsSix, AlgorithmSHA1⟩ = some ("928482".toList, none) := by
  decide!

/-- C6, amended: for every secret made of ASCII characters, every counter, options and
candidate, `GenerateCodeCustom` and `ValidateCustom` return for the secret exactly what
they return for its upper-case form. -/
theorem secret_case_insensitive (s : GoString) (hs : ∀ c ∈ s, c.toNat < 128)
    (passcode : GoString) (counter : Nat) (opts : ValidateOtps) :
    GenerateCodeCustom s counter opts = GenerateCodeCustom (ToUpper s) counter opts ∧
      ValidateCustom passcode counter s opts =
        ValidateCustom passcode counter (ToUpper s) opts := by
  have hgen : GenerateCodeCustom s counter opts = GenerateCodeCustom (ToUpper s) counter opts := by
    simp only [GenerateCodeCustom, normalizeSecret_toUpper s hs]
  exact ⟨hgen, by simp only [ValidateCustom, hgen]⟩

/-- Witness for C6: the lower-case secret of `TestValidateLowerCaseSecret`. -/
theorem secret_case_insensitive_witness :
    (∀ c ∈ "jbswy3dpehpk3px".toList, c.toNat < 128) ∧
      GenerateCodeCustom "jbswy3dpehpk3px".toList 0 ⟨DigitsSix, AlgorithmSHA1⟩ =
        GenerateCodeCustom (ToUpper "jbswy3dpehpk3px".toList) 0 ⟨DigitsSix, AlgorithmSHA1⟩ ∧
      ValidateCustom "831097".toList 0 "jbswy3dpehpk3px".toList ⟨DigitsSix, AlgorithmSHA1⟩ =
        ValidateCustom "831097".toList 0 (ToUpper "jbswy3dpehpk3px".toList)
          ⟨DigitsSix, AlgorithmSHA1⟩ :=
  ⟨by decide,
    secret_case_insensitive "jbswy3dpehpk3px".toList (by decide) "831097".toList 0
      ⟨DigitsSix, AlgorithmSHA1⟩⟩

/-! ## Base32: encoding followed by decoding -/

theorem chunksOf_fuel {α : Type} (n : Nat) (k : Nat) :
    ∀ (l : List α) (f1 f2 : Nat), l.length ≤ k → l.length ≤ f1 → l.length ≤ f2 →
      chunksOf (n + 1) f1 l = chunksOf (n + 1) f2 l := by
  induction k with
  | zero =>
    intro l f1 f2 hk _ _
    have : l = [] := List.length_eq_zero.1 (by omega)
    subst this
    cases f1 <;> cases f2 <;> rfl
  | succ k ih =>
    intro l f1 f2 hk h1 h2
    cases l with
    | nil => cases f1 <;> cases f2 <;> rfl
    | cons x xs =>
      cases f1 with
      | zero => simp at h1
      | succ f1 =>
        cases f2 with
        | zero => simp at h2
        | succ f2 =>
          simp only [chunksOf]
          have hd : ((x :: xs).drop (n + 1)).length ≤ xs.length := by
            simp only [List.drop_succ_cons, List.length_drop]
            omega
          simp only [List.length_cons] at hk h1 h2
          rw [ih _ f1 f2 (by omega) (by omega) (by omega)]

theorem chunksOf_append {α : Type} (n : Nat) (g rest : List α) (hg : g.length = n + 1) :
    chunksOf (n + 1) (g ++ rest).length (g ++ rest) =
      g :: chunksOf (n + 1) rest.length rest := by
  cases g with
  | nil => simp at hg
  | cons x xs =>
    have hl : (x :: xs ++ rest).length = (xs ++ rest).length + 1 := by simp
    rw [hl]
    simp only [List.cons_append, chunksOf, List.append_eq]
    have e1 : (x :: (xs ++ rest)).take (n + 1) = x :: xs := by
      have : (x :: xs ++ rest).take (n + 1) = x :: xs := by
        rw [List.take_append_of_le_length (by omega), List.take_of_length_le (by omega)]
      simpa using this
    have e2 : (x :: (xs ++ rest)).drop (n + 1) = rest := by
      have : (x :: xs ++ rest).drop (n + 1) = rest := by
        rw [← hg]
        exact List.drop_left _ _
      simpa using this
    rw [e1, e2]
    rw [chunksOf_fuel n rest.length rest (xs ++ rest).length rest.length (le_refl _)
      (by simp) (le_refl _)]

theorem chunksOf_short {α : Type} (n : Nat) (g : List α) (h0 : g ≠ []) (hg : g.length ≤ n + 1) :
    chunksOf (n + 1) g.length g = [g] := by
  cases g with
  | nil => exact absurd rfl h0
  | cons x xs =>
    simp only [List.length_cons, chunksOf]
    have e1 : (x :: xs).take (n + 1) = x :: xs := List.take_of_length_le hg
    have e2 : (x :: xs).drop (n + 1) = [] := List.drop_of_length_le hg
    rw [e1, e2]
    cases xs.length <;> rfl

theorem encodeToString_nil (enc : Encoding) : enc.EncodeToString [] = [] := rfl

theorem encodeToString_append (enc : Encoding) (g rest : List Nat) (hg : g.length = 5) :
    enc.EncodeToString (g ++ rest) = encodeGroup g ++ enc.EncodeToString rest := by
  unfold Encoding.EncodeToString
  rw [chunksOf_append 4 g rest hg, List.flatMap_cons]
  have hl : (encodeGroup g).length = 8 := by
    simp [encodeGroup, groupDigits, hg]
  simp only [hl]
  split <;> simp

theorem encodeToString_short (enc : Encoding) (g : List Nat) (h0 : g ≠ [])
    (hg : g.length ≤ 4) : enc.EncodeToString g = encodeGroup g ++ groupPadding enc g := by
  unfold Encoding.EncodeToString groupPadding
  rw [chunksOf_short 4 g h0 (by omega)]
  simp only [List.flatMap_cons, List.flatMap_nil, List.append_nil]
  split <;> simp

theorem or_add (i a b : Nat) (hb : b < 2 ^ i) : a <<< i ||| b = a * 2 ^ i + b := by
  rw [Nat.shiftLeft_eq, Nat.mul_comm]
  exact (Nat.mul_add_lt_is_or hb a).symm

theorem or_add3 (i k a b c : Nat) (hk : k ≤ i) (hb : b * 2 ^ k < 2 ^ i) (hc : c < 2 ^ k) :
    a <<< i ||| b <<< k ||| c = a * 2 ^ i + b * 2 ^ k + c := by
  rw [or_add i a (b <<< k) (by rw [Nat.shiftLeft_eq]; exact hb), Nat.shiftLeft_eq]
  have e : a * 2 ^ i + b * 2 ^ k = (a * 2 ^ (i - k) + b) <<< k := by
    rw [Nat.shiftLeft_eq, Nat.add_mul, Nat.mul_assoc, ← Nat.pow_add, Nat.sub_add_cancel hk]
  rw [e, or_add k _ c hc, Nat.shiftLeft_eq]

/-- The five bytes `packQuantum` builds from 5-bit values, in arithmetic form. -/
theorem packQuantum_eq (d0 d1 d2 d3 d4 d5 d6 d7 : Nat) (h1 : d1 < 32) (h2 : d2 < 32)
    (h3 : d3 < 32) (h4 : d4 < 32) (h5 : d5 < 32) (h6 : d6 < 32) (h7 : d7 < 32) :
    [(d0 <<< 3 ||| d1 >>> 2) % 256, (d1 <<< 6 ||| d2 <<< 1 ||| d3 >>> 4) % 256,
      (d3 <<< 4 ||| d4 >>> 1) % 256, (d4 <<< 7 ||| d5 <<< 2 ||| d6 >>> 3) % 256,
      (d6 <<< 5 ||| d7) % 256] =
    [(d0 * 8 + d1 / 4) % 256, (d1 * 64 + d2 * 2 + d3 / 16) % 256, (d3 * 16 + d4 / 2) % 256,
      (d4 * 128 + d5 * 4 + d6 / 8) % 256, (d6 * 32 + d7) % 256] := by
  rw [or_add 3 _ _ (by rw [Nat.shiftRight_eq_div_pow]; omega),
    or_add3 6 1 _ _ _ (by omega) (by omega) (by rw [Nat.shiftRight_eq_div_pow]; omega),
    or_add 4 _ _ (by rw [Nat.shiftRight_eq_div_pow]; omega),
    or_add3 7 2 _ _ _ (by omega) (by omega) (by rw [Nat.shiftRight_eq_div_pow]; omega),
    or_add 5 _ _ (by omega)]
  simp only [Nat.shiftRight_eq_div_pow]
  rfl

theorem pack_group (g : List Nat) (hg : ∀ b ∈ g, b < 256) (h0 : g ≠ []) (h5 : g.length ≤ 5) :
    packQuantum (groupDigits g) (groupDigits g).length = g := by
  match g, hg, h0, h5 with
  | [], _, h0, _ => exact absurd rfl h0
  | [b0], hg, _, _ =>
    have hb0 := hg b0 (by simp)
    have hv : beWord ([b0] ++ List.replicate (5 - 1) 0) = b0 * 2 ^ 32 := by
      simp [beWord]; omega
    have r : groupDigits [b0] =
        [beWord ([b0] ++ List.replicate (5 - 1) 0) / 32 ^ 7 % 32,
          beWord ([b0] ++ List.replicate (5 - 1) 0) / 32 ^ 6 % 32] := rfl
    rw [r, hv]
    simp only [packQuantum, List.getD_cons_zero, List.getD_cons_succ, List.getD_nil,
      List.length_cons, List.length_nil]
    rw [packQuantum_eq _ _ _ _ _ _ _ _ (by omega) (by omega) (by omega) (by omega) (by omega)
      (by omega) (by omega)]
    simp only [List.take]
    exact List.cons_eq_cons.2 ⟨by omega, rfl⟩
  | [b0, b1], hg, _, _ =>
    have hb0 := hg b0 (by simp)
    have hb1 := hg b1 (by simp)
    have hv : beWord ([b0, b1] ++ List.replicate (5 - 2) 0) = b0 * 2 ^ 32 + b1 * 2 ^ 24 := by
      simp [beWord]; omega
    have r : groupDigits [b0, b1] =
        [beWord ([b0, b1] ++ List.replicate (5 - 2) 0) / 32 ^ 7 % 32,
          beWord ([b0, b1] ++ List.replicate (5 - 2) 0) / 32 ^ 6 % 32,
          beWord ([b0, b1] ++ List.replicate (5 - 2) 0) / 32 ^ 5 % 32,
          beWord ([b0, b1] ++ List.replicate (5 - 2) 0) / 32 ^ 4 % 32] := rfl
    rw [r, hv]
    simp only [packQuantum, List.getD_cons_zero, List.getD_cons_succ, List.getD_nil,
      List.length_cons, List.length_nil]
    rw [packQuantum_eq _ _ _ _ _ _ _ _ (by omega) (by omega) (by omega) (by omega) (by omega)
      (by omega) (by omega)]
    simp only [List.take]
    exact List.cons_eq_cons.2 ⟨by omega, List.cons_eq_cons.2 ⟨by omega, rfl⟩⟩
  | [b0, b1, b2], hg, _, _ =>
    have hb0 := hg b0 (by simp)
    have hb1 := hg b1 (by simp)
    have hb2 := hg b2 (by simp)
    have hv : beWord ([b0, b1, b2] ++ List.replicate (5 - 3) 0) = b0 * 2 ^ 32 + b1 * 2 ^ 24 + b2 * 2 ^ 16 := by
      simp [beWord]; omega
    have r : groupDigits [b0, b1, b2] =
        [beWord ([b0, b1, b2] ++ List.replicate (5 - 3) 0) / 32 ^ 7 % 32,
          beWord ([b0, b1, b2] ++ List.replicate (5 - 3) 0) / 32 ^ 6 % 32,
          beWord ([b0, b1, b2] ++ List.replicate (5 - 3) 0) / 32 ^ 5 % 32,
          beWord ([b0, b1, b2] ++ List.replicate (5 - 3) 0) / 32 ^ 4 % 32,
          beWord ([b0, b1, b2] ++ List.replicate (5 - 3) 0) / 32 ^ 3 % 32] := rfl
    rw [r, hv]
    simp only [packQuantum, List.getD_cons_zero, List.getD_cons_succ, List.getD_nil,
      List.length_cons, List.length_nil]
    rw [packQuantum_eq _ _ _ _ _ _ _ _ (by omega) (by omega) (by omega) (by omega) (by omega)
      (by omega) (by omega)]
    simp only [List.take]
    exact List.cons_eq_cons.2 ⟨by omega, List.cons_eq_cons.2 ⟨by omega, List.cons_eq_cons.2 ⟨by omega, rfl⟩⟩⟩
  | [b0, b1, b2, b3], hg, _, _ =>
    have hb0 := hg b0 (by simp)
    have hb1 := hg b1 (by simp)
    have hb2 := hg b2 (by simp)
    have hb3 := hg b3 (by simp)
    have hv : beWord ([b0, b1, b2, b3] ++ List.replicate (5 - 4) 0) = b0 * 2 ^ 32 + b1 * 2 ^ 24 + b2 * 2 ^ 16 + b3 * 2 ^ 8 := by
      simp [beWord]; omega
    have r : groupDigits [b0, b1, b2, b3] =
        [beWord ([b0, b1, b2, b3] ++ List.replicate (5 - 4) 0) / 32 ^ 7 % 32,
          beWord ([b0, b1, b2, b3] ++ List.replicate (5 - 4) 0) / 32 ^ 6 % 32,
          beWord ([b0, b1, b2, b3] ++ List.replicate (5 - 4) 0) / 32 ^ 5 % 32,
          beWord ([b0, b1, b2, b3] ++ List.replicate (5 - 4) 0) / 32 ^ 4 % 32,
          beWord ([b0, b1, b2, b3] ++ List.replicate (5 - 4) 0) / 32 ^ 3 % 32,
          beWord ([b0, b1, b2, b3] ++ List.replicate (5 - 4) 0) / 32 ^ 2 % 32,
          beWord ([b0, b1, b2, b3] ++ List.replicate (5 - 4) 0) / 32 ^ 1 % 32] := rfl
    rw [r, hv]
    simp only [packQuantum, List.getD_cons_zero, List.getD_cons_succ, List.getD_nil,
      List.length_cons, List.length_nil]
    rw [packQuantum_eq _ _ _ _ _ _ _ _ (by omega) (by omega) (by omega) (by omega) (by omega)
      (by omega) (by omega)]
    simp only [List.take]
    exact List.cons_eq_cons.2 ⟨by omega, List.cons_eq_cons.2 ⟨by omega, List.cons_eq_cons.2 ⟨by omega, List.cons_eq_cons.2 ⟨by omega, rfl⟩⟩⟩⟩
  | [b0, b1, b2, b3, b4], hg, _, _ =>
    have hb0 := hg b0 (by simp)
    have hb1 := hg b1 (by simp)
    have hb2 := hg b2 (by simp)
    have hb3 := hg b3 (by simp)
    have hb4 := hg b4 (by simp)
    have hv : beWord ([b0, b1, b2, b3, b4] ++ List.replicate (5 - 5) 0) = b0 * 2 ^ 32 + b1 * 2 ^ 24 + b2 * 2 ^ 16 + b3 * 2 ^ 8 + b4 * 2 ^ 0 := by
      simp [beWord]; omega
    have r : groupDigits [b0, b1, b2, b3, b4] =
        [beWord ([b0, b1, b2, b3, b4] ++ List.replicate (5 - 5) 0) / 32 ^ 7 % 32,
          beWord ([b0, b1, b2, b3, b4] ++ List.replicate (5 - 5) 0) / 32 ^ 6 % 32,
          beWord ([b0, b1, b2, b3, b4] ++ List.replicate (5 - 5) 0) / 32 ^ 5 % 32,
          beWord ([b0, b1, b2, b3, b4] ++ List.replicate (5 - 5) 0) / 32 ^ 4 % 32,
          beWord ([b0, b1, b2, b3, b4] ++ List.replicate (5 - 5) 0) / 32 ^ 3 % 32,
          beWord ([b0, b1, b2, b3, b4] ++ List.replicate (5 - 5) 0) / 32 ^ 2 % 32,
          beWord ([b0, b1, b2, b3, b4] ++ List.replicate (5 - 5) 0) / 32 ^ 1 % 32,
          beWord ([b0, b1, b2, b3, b4] ++ List.replicate (5 - 5) 0) / 32 ^ 0 % 32] := rfl
    rw [r, hv]
    simp only [packQuantum, List.getD_cons_zero, List.getD_cons_succ, List.getD_nil,
      List.length_cons, List.length_nil]
    rw [packQuantum_eq _ _ _ _ _ _ _ _ (by omega) (by omega) (by omega) (by omega) (by omega)
      (by omega) (by omega)]
    simp only [List.take]
    exact List.cons_eq_cons.2 ⟨by omega, List.cons_eq_cons.2 ⟨by omega, List.cons_eq_cons.2 ⟨by omega, List.cons_eq_cons.2 ⟨by omega, List.cons_eq_cons.2 ⟨by omega, rfl⟩⟩⟩⟩⟩
  | _ :: _ :: _ :: _ :: _ :: _ :: _, _, _, h5 => simp at h5

theorem encodeChar_table : ∀ x, x < 32 →
    ((encodeChar x).toNat < 128 ∧ decodeMap (encodeChar x).toNat = x ∧
      isSpace (encodeChar x) = false ∧ unicodeToUpper (encodeChar x) = encodeChar x ∧
      (encodeChar x).toNat ≠ 10 ∧ (encodeChar x).toNat ≠ 13) := by
  decide

theorem groupDigits_lt (g : List Nat) : ∀ x ∈ groupDigits g, x < 32 := by
  intro x hx
  unfold groupDigits at hx
  obtain ⟨i, _, rfl⟩ := List.mem_map.1 (List.mem_of_mem_take hx)
  exact Nat.mod_lt _ (by decide)

theorem groupDigits_length (g : List Nat) :
    (groupDigits g).length = if g.length = 1 then 2 else if g.length = 2 then 4
      else if g.length = 3 then 5 else if g.length = 4 then 7 else 8 := by
  unfold groupDigits
  simp only [List.length_take, List.length_map, List.length_range]
  split
  · rfl
  · split
    · rfl
    · split
      · rfl
      · split <;> rfl

theorem bytes_append (a b : GoString) : (a ++ b).bytes = a.bytes ++ b.bytes := by
  simp [GoString.bytes, List.flatMap_append]

theorem bytes_repeatEq (n : Nat) : (repeatEq n).bytes = List.replicate n 61 := by
  induction n with
  | zero => rfl
  | succ n ih =>
    have : repeatEq (n + 1) = '=' :: repeatEq n := rfl
    rw [this, bytes_cons, ih]
    rfl

theorem encodeGroup_bytes (g : List Nat) :
    (encodeGroup g).bytes = (groupDigits g).map fun x => (encodeChar x).toNat := by
  have h : ∀ c ∈ encodeGroup g, c.toNat < 128 := by
    intro c hc
    obtain ⟨x, hx, rfl⟩ := List.mem_map.1 hc
    exact (encodeChar_table x (groupDigits_lt g x hx)).1
  rw [bytes_of_ascii _ h, encodeGroup, List.map_map]
  rfl

theorem encodeGroup_bytes_alpha (g : List Nat) :
    ∀ c ∈ (encodeGroup g).bytes, decodeMap c ≠ 0xFF := by
  intro c hc
  rw [encodeGroup_bytes] at hc
  obtain ⟨x, hx, rfl⟩ := List.mem_map.1 hc
  have hlt := groupDigits_lt g x hx
  rw [(encodeChar_table x hlt).2.1]
  omega

theorem encodeGroup_bytes_decode (g : List Nat) :
    (encodeGroup g).bytes.map decodeMap = groupDigits g := by
  rw [encodeGroup_bytes, List.map_map]
  have : ∀ x ∈ groupDigits g, (decodeMap ∘ fun x => (encodeChar x).toNat) x = id x := by
    intro x hx
    exact (encodeChar_table x (groupDigits_lt g x hx)).2.1
  rw [List.map_congr_left this, List.map_id]

theorem decodeMap_padByte (enc : Encoding) : decodeMap enc.padByte = 0xFF := by
  unfold Encoding.padByte
  split <;> decide

/-- Reading a run of alphabet characters: the inner loop of `decode` stores their values. -/
theorem readQuantum_alpha (enc : Encoding) (pre : List Nat)
    (hpre : ∀ c ∈ pre, decodeMap c ≠ 0xFF) :
    ∀ (fuel j : Nat) (dbuf post : List Nat), pre.length ≤ fuel →
      readQuantum enc fuel j dbuf (pre ++ post) =
        readQuantum enc (fuel - pre.length) (j + pre.length) (dbuf ++ pre.map decodeMap) post := by
  induction pre with
  | nil => intro fuel j dbuf post _; simp
  | cons c cs ih =>
    intro fuel j dbuf post hlen
    cases fuel with
    | zero => simp at hlen
    | succ fuel =>
      have hc := hpre c (List.mem_cons_self _ _)
      have hne : c ≠ enc.padByte := fun h => hc (h ▸ decodeMap_padByte enc)
      simp only [List.cons_append, readQuantum, hne, false_and, if_false, hc]
      rw [ih (fun x hx => hpre x (List.mem_cons_of_mem _ hx)) fuel (j + 1) _ post
        (by simpa using hlen)]
      simp only [List.length_cons, List.map_cons, List.append_assoc, List.singleton_append]
      congr 1 <;> omega

theorem decodeLoop_step (enc : Encoding) (fuel : Nat) (src : List Nat) (h : src ≠ []) :
    decodeLoop enc (fuel + 1) src =
      match readQuantum enc 8 0 [] src with
      | none => none
      | some q =>
        if q.isEnd then some (packQuantum q.dbuf q.dlen)
        else (decodeLoop enc fuel q.rest).map (packQuantum q.dbuf q.dlen ++ ·) := by
  cases src with
  | nil => exact absurd rfl h
  | cons c cs => rfl

theorem decodeLoop_nil (enc : Encoding) (fuel : Nat) : decodeLoop enc fuel [] = some [] := by
  cases fuel <;> rfl

theorem groupDigits_length_bounds (g : List Nat) :
    0 < (groupDigits g).length ∧ (groupDigits g).length ≤ 8 := by
  rw [groupDigits_length]
  split_ifs <;> omega

theorem groupDigits_length_short (g : List Nat) (h0 : g ≠ []) (hg : g.length ≤ 4) :
    (groupDigits g).length = 2 ∨ (groupDigits g).length = 4 ∨ (groupDigits g).length = 5 ∨
      (groupDigits g).length = 7 := by
  have hpos : 0 < g.length := List.length_pos.2 h0
  rw [groupDigits_length]
  split_ifs <;> omega

/-- Reading the eight characters of a full group. -/
theorem readQuantum_full (enc : Encoding) (g post : List Nat) (hg : g.length = 5) :
    readQuantum enc 8 0 [] ((encodeGroup g).bytes ++ post) =
      some ⟨groupDigits g, 8, false, post⟩ := by
  have hl : (encodeGroup g).bytes.length = 8 := by
    rw [encodeGroup_bytes, List.length_map, groupDigits_length, hg]; rfl
  rw [readQuantum_alpha enc _ (encodeGroup_bytes_alpha g) 8 0 [] post (by omega), hl,
    encodeGroup_bytes_decode]
  rfl

/-- Reading the characters and the padding of a final group of one to four bytes. -/
theorem readQuantum_final (g : List Nat) (h0 : g ≠ []) (hg : g.length ≤ 4) :
    ∃ rest, readQuantum StdEncoding 8 0 []
      ((encodeGroup g).bytes ++ List.replicate (8 - (groupDigits g).length) 61) =
        some ⟨groupDigits g, (groupDigits g).length, true, rest⟩ := by
  have hl : (encodeGroup g).bytes.length = (groupDigits g).length := by
    rw [encodeGroup_bytes, List.length_map]
  have hcases := groupDigits_length_short g h0 hg
  rw [readQuantum_alpha StdEncoding _ (encodeGroup_bytes_alpha g) 8 0 [] _
    (by rw [hl]; exact (groupDigits_length_bounds g).2), hl, encodeGroup_bytes_decode]
  generalize groupDigits g = d at hcases ⊢
  rcases hcases with e | e | e | e <;> rw [e] <;> exact ⟨_, rfl⟩

theorem decodeLoop_encode (n : Nat) :
    ∀ (b : List Nat), b.length ≤ n → (∀ x ∈ b, x < 256) → ∀ fuel,
      (StdEncoding.EncodeToString b).bytes.length ≤ fuel →
      decodeLoop StdEncoding fuel (StdEncoding.EncodeToString b).bytes = some b := by
  induction n with
  | zero =>
    intro b hb _ fuel _
    have : b = [] := List.length_eq_zero.1 (by omega)
    subst this
    exact decodeLoop_nil _ _
  | succ n ih =>
    intro b hb hlt fuel hfuel
    by_cases h0 : b = []
    · subst h0
      exact decodeLoop_nil _ _
    by_cases h5 : 5 ≤ b.length
    · have hsplit : b = b.take 5 ++ b.drop 5 := (List.take_append_drop 5 b).symm
      have hg : (b.take 5).length = 5 := by simp; omega
      rw [hsplit, encodeToString_append _ _ _ hg, bytes_append] at hfuel ⊢
      have hl : (encodeGroup (b.take 5)).bytes.length = 8 := by
        rw [encodeGroup_bytes, List.length_map, groupDigits_length, hg]; rfl
      cases fuel with
      | zero => simp [hl] at hfuel
      | succ fuel =>
        have hne : (encodeGroup (b.take 5)).bytes ++ (StdEncoding.EncodeToString (b.drop 5)).bytes
            ≠ [] := by
          intro h
          have := congrArg List.length h
          simp [hl] at this
        rw [decodeLoop_step _ _ _ hne, readQuantum_full _ _ _ hg]
        simp only [Bool.false_eq_true, if_false]
        rw [ih (b.drop 5) (by simp; omega) (fun x hx => hlt x (List.mem_of_mem_drop hx)) fuel
          (by simp [hl] at hfuel; omega)]
        have hp : packQuantum (groupDigits (b.take 5)) 8 = b.take 5 := by
          have := pack_group (b.take 5) (fun x hx => hlt x (List.mem_of_mem_take hx))
            (by intro h; simp [h] at hg) (by omega)
          rw [groupDigits_length, hg] at this
          exact this
        simp only [Option.map_some', hp]
    · have hg : b.length ≤ 4 := by omega
      rw [encodeToString_short _ _ h0 hg, bytes_append] at hfuel ⊢
      have hpad : (groupPadding StdEncoding b).bytes
          = List.replicate (8 - (groupDigits b).length) 61 := by
        have : groupPadding StdEncoding b = repeatEq (8 - (groupDigits b).length) := by
          simp [groupPadding, StdEncoding, encodeGroup, repeatEq]
        rw [this, bytes_repeatEq]
      rw [hpad] at hfuel ⊢
      obtain ⟨rest, hr⟩ := readQuantum_final b h0 hg
      have hpos := (groupDigits_length_bounds b).1
      have hne : (encodeGroup b).bytes ++ List.replicate (8 - (groupDigits b).length) 61 ≠ [] := by
        intro h
        have := congrArg List.length h
        rw [encodeGroup_bytes] at this
        simp only [List.length_append, List.length_map, List.length_replicate,
          List.length_nil] at this
        omega
      cases fuel with
      | zero =>
        rw [encodeGroup_bytes] at hfuel
        simp only [List.length_append, List.length_map, List.length_replicate] at hfuel
        omega
      | succ fuel =>
        rw [decodeLoop_step _ _ _ hne, hr]
        simp only [if_true]
        rw [pack_group b hlt h0 (by omega)]

theorem trimSpace_of_no_space (s : GoString) (hs : ∀ c ∈ s, isSpace c = false) :
    TrimSpace s = s := by
  have hd : ∀ l : GoString, (∀ c ∈ l, isSpace c = false) → l.dropWhile isSpace = l := by
    intro l hl
    cases l with
    | nil => rfl
    | cons c cs => simp [List.dropWhile, hl c (List.mem_cons_self _ _)]
  unfold TrimSpace
  rw [hd s hs, hd s.reverse (fun c hc => hs c (List.mem_reverse.1 hc)), List.reverse_reverse]

theorem isEncoded_facts (c : Char) (hc : isEncoded c) :
    c.toNat < 128 ∧ isSpace c = false ∧ unicodeToUpper c = c ∧ c.toNat ≠ 10 ∧ c.toNat ≠ 13 := by
  rcases hc with ⟨x, hx, rfl⟩ | rfl
  · have := encodeChar_table x hx
    exact ⟨this.1, this.2.2.1, this.2.2.2.1, this.2.2.2.2.1, this.2.2.2.2.2⟩
  · decide

theorem encodeGroup_isEncoded (g : List Nat) : ∀ c ∈ encodeGroup g, isEncoded c := by
  intro c hc
  obtain ⟨x, hx, rfl⟩ := List.mem_map.1 hc
  exact Or.inl ⟨x, groupDigits_lt g x hx, rfl⟩

theorem encodeToString_isEncoded (enc : Encoding) (b : List Nat) :
    ∀ c ∈ enc.EncodeToString b, isEncoded c := by
  intro c hc
  unfold Encoding.EncodeToString at hc
  obtain ⟨g, _, hg⟩ := List.mem_flatMap.1 hc
  split at hg
  · rcases List.mem_append.1 hg with h | h
    · exact encodeGroup_isEncoded g c h
    · exact Or.inr (List.mem_replicate.1 h).2
  · exact encodeGroup_isEncoded g c hg

/-- A string of encoded characters is left unchanged by trimming and upper-casing, has as
many bytes as characters, and holds no new-line byte. -/
theorem encoded_string (s : GoString) (hs : ∀ c ∈ s, isEncoded c) :
    TrimSpace s = s ∧ ToUpper s = s ∧ s.len = s.length ∧ stripNewlines s.bytes = s.bytes := by
  have hascii : ∀ c ∈ s, c.toNat < 128 := fun c hc => (isEncoded_facts c (hs c hc)).1
  refine ⟨trimSpace_of_no_space s (fun c hc => (isEncoded_facts c (hs c hc)).2.1), ?_,
    len_of_ascii s hascii, ?_⟩
  · unfold ToUpper
    have : ∀ c ∈ s, unicodeToUpper c = id c := fun c hc => (isEncoded_facts c (hs c hc)).2.2.1
    rw [List.map_congr_left this, List.map_id]
  · rw [bytes_of_ascii s hascii]
    unfold stripNewlines
    rw [List.filter_eq_self]
    intro b hb
    obtain ⟨c, hc, rfl⟩ := List.mem_map.1 hb
    have := isEncoded_facts c (hs c hc)
    simp [this.2.2.2.1, this.2.2.2.2]

/-- The padded encoding is the unpadded one followed by the `=` that `padSecret` appends, and
its length is a multiple of 8. -/
theorem encode_padding (n : Nat) :
    ∀ (b : List Nat), b.length ≤ n →
      (StdEncoding.EncodeToString b).length % 8 = 0 ∧
      StdEncoding.EncodeToString b =
        (if (b32NoPadding.EncodeToString b).length % 8 ≠ 0 then
          b32NoPadding.EncodeToString b ++
            repeatEq (8 - (b32NoPadding.EncodeToString b).length % 8)
        else b32NoPadding.EncodeToString b) := by
  induction n with
  | zero =>
    intro b hb
    have : b = [] := List.length_eq_zero.1 (by omega)
    subst this
    exact ⟨rfl, rfl⟩
  | succ n ih =>
    intro b hb
    by_cases h0 : b = []
    · subst h0
      exact ⟨rfl, rfl⟩
    by_cases h5 : 5 ≤ b.length
    · have hsplit : b = b.take 5 ++ b.drop 5 := (List.take_append_drop 5 b).symm
      have hg : (b.take 5).length = 5 := by simp; omega
      have hl : (encodeGroup (b.take 5)).length = 8 := by
        rw [encodeGroup, List.length_map, groupDigits_length, hg]; rfl
      obtain ⟨i1, i2⟩ := ih (b.drop 5) (by simp; omega)
      rw [hsplit, encodeToString_append _ _ _ hg, encodeToString_append _ _ _ hg]
      constructor
      · rw [List.length_append, hl]; omega
      · have e : (encodeGroup (b.take 5) ++ b32NoPadding.EncodeToString (b.drop 5)).length % 8
            = (b32NoPadding.EncodeToString (b.drop 5)).length % 8 := by
          rw [List.length_append, hl]; omega
        rw [e, i2]
        split <;> simp
    · have hg : b.length ≤ 4 := by omega
      have hk := groupDigits_length_short b h0 hg
      have hl : (encodeGroup b).length = (groupDigits b).length := by
        rw [encodeGroup, List.length_map]
      rw [encodeToString_short _ _ h0 hg, encodeToString_short _ _ h0 hg]
      have p1 : groupPadding StdEncoding b = repeatEq (8 - (groupDigits b).length) := by
        simp [groupPadding, StdEncoding, encodeGroup, repeatEq]
      have p2 : groupPadding b32NoPadding b = [] := rfl
      rw [p1, p2, List.append_nil, List.length_append, hl]
      have hr : (repeatEq (8 - (groupDigits b).length)).length = 8 - (groupDigits b).length := by
        simp [repeatEq]
      rw [hr]
      rcases hk with e | e | e | e <;> rw [e] <;> simp

theorem normalizeSecret_encoded (s : GoString) (hs : ∀ c ∈ s, isEncoded c) :
    normalizeSecret s =
      if s.length % 8 ≠ 0 then s ++ repeatEq (8 - s.length % 8) else s := by
  obtain ⟨ht, _, hl, _⟩ := encoded_string s hs
  unfold normalizeSecret padSecret
  simp only [ht, hl]
  have hs' : ∀ c ∈ (if s.length % 8 ≠ 0 then s ++ repeatEq (8 - s.length % 8) else s),
      isEncoded c := by
    intro c hc
    split at hc
    · rcases List.mem_append.1 hc with h | h
      · exact hs c h
      · exact Or.inr (List.mem_replicate.1 h).2
    · exact hs c hc
  exact (encoded_string _ hs').2.1

theorem normalizeSecret_noPadding (b : List Nat) :
    normalizeSecret (b32NoPadding.EncodeToString b) = StdEncoding.EncodeToString b := by
  rw [normalizeSecret_encoded _ (encodeToString_isEncoded _ b)]
  exact ((encode_padding b.length b (le_refl _)).2).symm

theorem normalizeSecret_std (b : List Nat) :
    normalizeSecret (StdEncoding.EncodeToString b) = StdEncoding.EncodeToString b := by
  rw [normalizeSecret_encoded _ (encodeToString_isEncoded _ b)]
  have := (encode_padding b.length b (le_refl _)).1
  simp [this]

/-- Decoding the padded encoding of a byte string gives the byte string back. -/
theorem decodeString_encode (b : List Nat) (hb : ∀ x ∈ b, x < 256) :
    StdEncoding.DecodeString (StdEncoding.EncodeToString b) = some b := by
  unfold Encoding.DecodeString
  simp only [(encoded_string _ (encodeToString_isEncoded StdEncoding b)).2.2.2]
  exact decodeLoop_encode b.length b (le_refl _) hb _ (le_refl _)

/-- Once the normalised secret decodes, `GenerateCodeCustom` returns no error. -/
theorem generateCodeCustom_no_error (secret : GoString) (key : List Nat) (counter : Nat)
    (opts : ValidateOtps)
    (hkey : StdEncoding.DecodeString (normalizeSecret secret) = some key)
    (code : GoString) (err : OtpError) :
    GenerateCodeCustom secret counter opts ≠ some (code, some err) := by
  intro h
  unfold GenerateCodeCustom at h
  simp only [hkey] at h
  cases h2 : opts.Algorithm.Hash with
  | none => simp [h2] at h
  | some hk =>
    simp only [h2] at h
    cases h3 : truncate (hmacSum hk key (beBytes 8 counter)) with
    | none => simp [h3] at h
    | some v =>
      simp only [h3] at h
      split at h <;> simp at h

/-- C7: for every byte string `b`, the unpadded Base32 encoding of `b` (as `b32NoPadding`
produces it) and its standard padded encoding are normalised by `GenerateCodeCustom` to the
same text, which decodes to `b` itself: the key of the HMAC is `b`, the two secrets give
the same result for every counter and options, and that result is never an error; with
SHA1, SHA256 or SHA512 and 6 or 8 digits it is a code with a nil error. -/
theorem generateCodeCustom_unpadded_secret (b : List Nat) (hb : ∀ x ∈ b, x < 256)
    (counter : Nat) (opts : ValidateOtps) :
    normalizeSecret (b32NoPadding.EncodeToString b) = StdEncoding.EncodeToString b ∧
      StdEncoding.DecodeString (normalizeSecret (b32NoPadding.EncodeToString b)) = some b ∧
      StdEncoding.DecodeString (normalizeSecret (StdEncoding.EncodeToString b)) = some b ∧
      GenerateCodeCustom (b32NoPadding.EncodeToString b) counter opts =
        GenerateCodeCustom (StdEncoding.EncodeToString b) counter opts ∧
      (∀ code err, GenerateCodeCustom (b32NoPadding.EncodeToString b) counter opts
        ≠ some (code, some err)) ∧
      ((opts.Algorithm = AlgorithmSHA1 ∨ opts.Algorithm = AlgorithmSHA256 ∨
          opts.Algorithm = AlgorithmSHA512) →
        (opts.Digits = DigitsSix ∨ opts.Digits = DigitsEight) →
        ∃ code, GenerateCodeCustom (b32NoPadding.EncodeToString b) counter opts
            = some (code, none) ∧
          GenerateCodeCustom (StdEncoding.EncodeToString b) counter opts
            = some (code, none)) := by
  have k1 : StdEncoding.DecodeString (normalizeSecret (b32NoPadding.EncodeToString b)) = some b := by
    rw [normalizeSecret_noPadding, decodeString_encode b hb]
  have k2 : StdEncoding.DecodeString (normalizeSecret (StdEncoding.EncodeToString b)) = some b := by
    rw [normalizeSecret_std, decodeString_encode b hb]
  have heq : GenerateCodeCustom (b32NoPadding.EncodeToString b) counter opts =
      GenerateCodeCustom (StdEncoding.EncodeToString b) counter opts := by
    simp only [GenerateCodeCustom, k1, k2]
  refine ⟨normalizeSecret_noPadding b, k1, k2, heq,
    generateCodeCustom_no_error _ b counter opts k1, ?_⟩
  intro halg hdig
  obtain ⟨code, hgen, _, _⟩ := generateCodeCustom_code _ b counter opts k1 halg hdig
  exact ⟨code, hgen, heq ▸ hgen⟩

/-- Witness for C7: the secret bytes `helloworld` of `TestGenerates`. -/
theorem generateCodeCustom_unpadded_secret_witness :
    (∀ x ∈ GoString.bytes "helloworld".toList, x < 256) ∧
      b32NoPadding.EncodeToString (GoString.bytes "helloworld".toList)
        = "NBSWY3DPO5XXE3DE".toList ∧
      StdEncoding.DecodeString (normalizeSecret
        (b32NoPadding.EncodeToString (GoString.bytes "helloworld".toList)))
          = some (GoString.bytes "helloworld".toList) ∧
      GenerateCodeCustom (b32NoPadding.EncodeToString (GoString.bytes "helloworld".toList)) 7
          ⟨DigitsSix, AlgorithmSHA256⟩ =
        GenerateCodeCustom (StdEncoding.EncodeToString (GoString.bytes "helloworld".toList)) 7
          ⟨DigitsSix, AlgorithmSHA256⟩ :=
  ⟨by decide, by decide,
    (generateCodeCustom_unpadded_secret (GoString.bytes "helloworld".toList) (by decide) 7
      ⟨DigitsSix, AlgorithmSHA256⟩).2.1,
    (generateCodeCustom_unpadded_secret (GoString.bytes "helloworld".toList) (by decide) 7
      ⟨DigitsSix, AlgorithmSHA256⟩).2.2.2.1⟩

theorem padding_check (rest : List Nat) (n : Nat) (hn : n = rest.length) :
    ((List.range n).any fun k => decide (k < rest.length) && rest.getD k 0 != 61) = false ↔
      ∀ x ∈ rest, x = 61 := by
  subst hn
  rw [List.any_eq_false]
  constructor
  · intro h x hx
    obtain ⟨i, hi, rfl⟩ := List.mem_iff_getElem.1 hx
    have := h i (List.mem_range.2 hi)
    simpa [hi, List.getD_eq_getElem _ _ hi] using this
  · intro h i hi
    have hi' := List.mem_range.1 hi
    simp [hi', List.getD_eq_getElem _ _ hi', h _ (List.getElem_mem hi')]

theorem readQuantum_cons (enc : Encoding) (f j c : Nat) (dbuf src : List Nat) :
    readQuantum enc (f + 1) j dbuf (c :: src) =
      if c = enc.padByte ∧ 2 ≤ j ∧ src.length < 8 then
        if src.length + j < 8 - 1 then none
        else if (List.range (8 - 1 - j)).any fun k =>
            decide (k < src.length) && src.getD k 0 != enc.padByte
        then none
        else if j = 1 ∨ j = 3 ∨ j = 6 then none
        else some ⟨dbuf, j, true, src⟩
      else if decodeMap c = 0xFF then none
      else readQuantum enc f (j + 1) (dbuf ++ [decodeMap c]) src := rfl

/-- The final quantum: `k < 8` alphabet characters followed by a character outside the
alphabet and `7 - k` more characters, at the end of the input. -/
theorem readQuantum_last (pre rest : List Nat) (c : Nat)
    (hpre : ∀ x ∈ pre, decodeMap x ≠ 0xFF) (hc : decodeMap c = 0xFF)
    (hlen : pre.length + rest.length = 7) :
    readQuantum StdEncoding 8 0 [] (pre ++ c :: rest) =
      if c = 61 ∧ (pre.length = 2 ∨ pre.length = 4 ∨ pre.length = 5 ∨ pre.length = 7) ∧
          ∀ x ∈ rest, x = 61
      then some ⟨pre.map decodeMap, pre.length, true, rest⟩ else none := by
  rw [readQuantum_alpha StdEncoding pre hpre 8 0 [] _ (by omega)]
  obtain ⟨f, hf⟩ : ∃ f, 8 - pre.length = f + 1 := ⟨7 - pre.length, by omega⟩
  have hpc := padding_check rest (8 - 1 - pre.length) (by omega)
  have hpad : StdEncoding.padByte = 61 := rfl
  rw [hf, readQuantum_cons, hpad, Nat.zero_add, List.nil_append]
  by_cases hgood : c = 61 ∧ (pre.length = 2 ∨ pre.length = 4 ∨ pre.length = 5 ∨ pre.length = 7) ∧
      ∀ x ∈ rest, x = 61
  · rw [if_pos hgood, if_pos ⟨hgood.1, by omega, by omega⟩, if_neg (by omega),
      if_neg (by rw [hpc.2 hgood.2.2]; simp), if_neg (by omega)]
  · rw [if_neg hgood]
    by_cases hp : c = 61 ∧ 2 ≤ pre.length ∧ rest.length < 8
    · rw [if_pos hp, if_neg (by omega)]
      by_cases hall : ∀ x ∈ rest, x = 61
      · rw [if_neg (by rw [hpc.2 hall]; simp), if_pos]
        by_contra hk
        exact hgood ⟨hp.1, by omega, hall⟩
      · have hany : ((List.range (8 - 1 - pre.length)).any
            fun k => decide (k < rest.length) && rest.getD k 0 != 61) = true := by
          rw [← Bool.not_eq_false]
          exact fun h => hall (hpc.1 h)
        rw [if_pos hany]
    · rw [if_neg hp, if_pos hc]

/-- A quantum with a character outside the alphabet that is not the last quantum. -/
theorem readQuantum_middle (pre rest : List Nat) (c : Nat)
    (hpre : ∀ x ∈ pre, decodeMap x ≠ 0xFF) (hc : decodeMap c = 0xFF)
    (hk : pre.length < 8) (hlen : 8 ≤ rest.length) :
    readQuantum StdEncoding 8 0 [] (pre ++ c :: rest) = none := by
  rw [readQuantum_alpha StdEncoding pre hpre 8 0 [] _ (by omega)]
  obtain ⟨f, hf⟩ : ∃ f, 8 - pre.length = f + 1 := ⟨7 - pre.length, by omega⟩
  rw [hf]
  rw [readQuantum_cons, if_neg (by omega), if_pos hc]

theorem char_le_iff (a c : Char) : a ≤ c ↔ a.toNat ≤ c.toNat := by
  show a.val ≤ c.val ↔ _
  rw [UInt32.le_def]
  rfl

theorem isBase32Char_iff (c : Char) : isBase32Char c = true ↔ decodeMap c.toNat ≠ 0xFF := by
  have hA : ('A' : Char).toNat = 65 := rfl
  have hZ : ('Z' : Char).toNat = 90 := rfl
  have h2 : ('2' : Char).toNat = 50 := rfl
  have h7 : ('7' : Char).toNat = 55 := rfl
  simp only [isBase32Char, Bool.or_eq_true, Bool.and_eq_true, decide_eq_true_eq, char_le_iff,
    hA, hZ, h2, h7, decodeMap]
  split_ifs <;> omega

theorem char_eq_pad_iff (c : Char) : c = '=' ↔ c.toNat = 61 := by
  constructor
  · rintro rfl; rfl
  · intro h
    exact Char.ext (UInt32.ext h)

theorem isBase32Char_pad : isBase32Char '=' = false := by decide

/-- A string is all alphabet characters, or splits at its first other character. -/
theorem split_alpha (q : GoString) :
    (∀ x ∈ q, isBase32Char x = true) ∨
      ∃ pre c post, q = pre ++ c :: post ∧ (∀ x ∈ pre, isBase32Char x = true) ∧
        isBase32Char c = false ∧ q.takeWhile isBase32Char = pre := by
  induction q with
  | nil => exact Or.inl (by simp)
  | cons a as ih =>
    by_cases ha : isBase32Char a = true
    · rcases ih with h | ⟨pre, c, post, e, hp, hc, ht⟩
      · left
        intro x hx
        rcases List.mem_cons.1 hx with rfl | hx
        · exact ha
        · exact h x hx
      · right
        refine ⟨a :: pre, c, post, by rw [e]; rfl, ?_, hc, by simp [List.takeWhile, ha, ht]⟩
        intro x hx
        rcases List.mem_cons.1 hx with rfl | hx
        · exact ha
        · exact hp x hx
    · right
      have ha' : isBase32Char a = false := by simpa using ha
      exact ⟨[], a, as, rfl, by simp, ha', by simp [List.takeWhile, ha']⟩

theorem takeWhile_all (q : GoString) (h : ∀ x ∈ q, isBase32Char x = true) :
    q.takeWhile isBase32Char = q := by
  induction q with
  | nil => rfl
  | cons a as ih =>
    simp only [List.takeWhile, h a (List.mem_cons_self _ _)]
    rw [ih (fun x hx => h x (List.mem_cons_of_mem _ hx))]

theorem isBase32_nil (f : Nat) : isBase32 f [] = true := by
  cases f <;> rfl

theorem isBase32_step (f : Nat) (s : GoString) (h : s ≠ []) :
    isBase32 (f + 1) s =
      if s.length ≤ 8 then isBase32Final s
      else (s.take 8).all isBase32Char && isBase32 f (s.drop 8) := by
  cases s with
  | nil => exact absurd rfl h
  | cons c cs => rfl

theorem map_toNat_alpha (l : GoString) (h : ∀ x ∈ l, isBase32Char x = true) :
    ∀ b ∈ l.map Char.toNat, decodeMap b ≠ 0xFF := by
  intro b hb
  obtain ⟨c, hc, rfl⟩ := List.mem_map.1 hb
  exact (isBase32Char_iff c).1 (h c hc)

theorem all_pad_iff (l : GoString) :
    (∀ x ∈ l.map Char.toNat, x = 61) ↔ l.all (· == '=') = true := by
  simp only [List.mem_map, forall_exists_index, and_imp, forall_apply_eq_imp_iff₂,
    List.all_eq_true, beq_iff_eq, char_eq_pad_iff]

/-- On ASCII text without new-lines whose length is a multiple of 8, Go's decoder accepts
exactly the valid RFC 4648 Base32 texts. -/
theorem decodeLoop_isSome_eq (n : Nat) :
    ∀ (s : GoString), s.length ≤ n → s.length % 8 = 0 → ∀ f1 f2, s.length ≤ f1 →
      s.length ≤ f2 →
      (decodeLoop StdEncoding f1 (s.map Char.toNat)).isSome = isBase32 f2 s := by
  induction n with
  | zero =>
    intro s hn _ f1 f2 _ _
    have : s = [] := List.length_eq_zero.1 (by omega)
    subst this
    rw [List.map_nil, decodeLoop_nil, isBase32_nil]
    rfl
  | succ n ih =>
    intro s hn h8 f1 f2 hf1 hf2
    by_cases h0 : s = []
    · subst h0
      rw [List.map_nil, decodeLoop_nil, isBase32_nil]
      rfl
    have hpos : 0 < s.length := List.length_pos.2 h0
    have hge : 8 ≤ s.length := by omega
    obtain ⟨f1, rfl⟩ : ∃ k, f1 = k + 1 := ⟨f1 - 1, by omega⟩
    obtain ⟨f2, rfl⟩ : ∃ k, f2 = k + 1 := ⟨f2 - 1, by omega⟩
    have hs : s.take 8 ++ s.drop 8 = s := List.take_append_drop 8 s
    have hq : (s.take 8).length = 8 := by rw [List.length_take]; omega
    have hr : (s.drop 8).length = s.length - 8 := List.length_drop 8 s
    have hne : s.map Char.toNat ≠ [] := by simpa using h0
    rw [decodeLoop_step _ _ _ hne, isBase32_step _ _ h0]
    rcases split_alpha (s.take 8) with hall | ⟨pre, c, post, e, hp, hc, ht⟩
    · -- the first eight characters are in the alphabet
      have hread : readQuantum StdEncoding 8 0 [] (s.map Char.toNat) =
          some ⟨(s.take 8).map (decodeMap ∘ Char.toNat), 8, false, (s.drop 8).map Char.toNat⟩ := by
        conv_lhs => rw [← hs, List.map_append]
        rw [readQuantum_alpha StdEncoding _ (map_toNat_alpha _ hall) 8 0 [] _ (by simp [hq])]
        simp only [List.length_map, hq, List.map_map, List.nil_append]
        rfl
      rw [hread]
      simp only [Bool.false_eq_true, if_false, Option.isSome_map']
      rw [ih (s.drop 8) (by omega) (by omega) f1 f2 (by omega) (by omega)]
      by_cases hle : s.length ≤ 8
      · have hr0 : s.drop 8 = [] := List.drop_of_length_le hle
        have hsq : s.take 8 = s := List.take_of_length_le hle
        rw [if_pos hle, hr0, isBase32_nil]
        rw [hsq] at hall
        have hlen8 : s.length = 8 := by omega
        simp [isBase32Final, takeWhile_all s hall, hlen8, hr0]
      · rw [if_neg hle]
        have : (s.take 8).all isBase32Char = true := List.all_eq_true.2 hall
        rw [this, Bool.true_and]
    · -- a character outside the alphabet among the first eight
      have hlen : pre.length + post.length = 7 := by
        have := congrArg List.length e
        rw [hq] at this
        simp at this
        omega
      have hcb : decodeMap c.toNat = 0xFF := by
        by_contra h
        have := (isBase32Char_iff c).2 h
        rw [hc] at this
        exact Bool.false_ne_true this
      have hbytes : s.map Char.toNat =
          pre.map Char.toNat ++ c.toNat :: (post ++ s.drop 8).map Char.toNat := by
        conv_lhs => rw [← hs, e]
        simp
      have hqall : (s.take 8).all isBase32Char = false := by
        rw [e]
        simp [hc]
      by_cases hle : s.length ≤ 8
      · have hr0 : s.drop 8 = [] := List.drop_of_length_le hle
        have hsq : s.take 8 = s := List.take_of_length_le hle
        rw [if_pos hle, hbytes, hr0, List.append_nil]
        rw [readQuantum_last _ _ _ (map_toNat_alpha _ hp) hcb (by simpa using hlen)]
        rw [hsq] at ht e
        have hlen8 : s.length = 8 := by omega
        have hdrop : s.drop pre.length = c :: post := by
          rw [e]
          exact List.drop_left _ _
        simp only [isBase32Final, ht, hlen8, hdrop, List.length_map, all_pad_iff,
          ← char_eq_pad_iff]
        by_cases hgood : c = '=' ∧ (pre.length = 2 ∨ pre.length = 4 ∨ pre.length = 5 ∨
            pre.length = 7) ∧ post.all (· == '=') = true
        · rw [if_pos hgood]
          obtain ⟨h1, h2, h3⟩ := hgood
          have h2' : (pre.length == 2 || pre.length == 4 || pre.length == 5 ||
              pre.length == 7 || pre.length == 8) = true := by
            rcases h2 with h | h | h | h <;> simp [h]
          simp [h1, h2', h3]
        · rw [if_neg hgood]
          have h8 : ¬ pre.length = 8 := by omega
          symm
          simp only [Option.isSome_none, Bool.and_eq_false_iff, List.all_cons]
          by_contra hcon
          push_neg at hcon
          apply hgood
          simp only [ne_eq, Bool.not_eq_false, Bool.and_eq_true, beq_iff_eq, Bool.or_eq_true]
            at hcon
          exact ⟨hcon.2.1, by omega, hcon.2.2⟩
      · rw [if_neg hle, hqall, Bool.false_and, hbytes]
        rw [readQuantum_middle _ _ _ (map_toNat_alpha _ hp) hcb (by simp; omega)
          (by simp [hr]; omega)]
        rfl

theorem upper_newline_table : ∀ n, n < 128 → n ≠ 10 → n ≠ 13 →
    ((unicodeToUpper (Char.ofNat n)).toNat ≠ 10 ∧ (unicodeToUpper (Char.ofNat n)).toNat ≠ 13) := by
  decide

theorem upper_newline (c : Char) (hc : c.toNat < 128) (h10 : c.toNat ≠ 10) (h13 : c.toNat ≠ 13) :
    (unicodeToUpper c).toNat ≠ 10 ∧ (unicodeToUpper c).toNat ≠ 13 := by
  have := upper_newline_table c.toNat hc h10 h13
  rwa [Char.ofNat_toNat] at this

/-- For a secret that is ASCII once trimmed, the code's normalisation (pad on the byte
length, then upper-case) is the specification's (upper-case, then pad on the characters). -/
theorem normalizeSecret_eq_spec (secret : GoString)
    (hs : ∀ c ∈ TrimSpace secret, c.toNat < 128) :
    normalizeSecret secret = specNormalize secret := by
  obtain ⟨_, _, hlen⟩ := toUpper_ascii (TrimSpace secret) hs
  have hl : (TrimSpace secret).len = (TrimSpace secret).length := len_of_ascii _ hs
  have hu : (ToUpper (TrimSpace secret)).length = (TrimSpace secret).length := by
    simp [ToUpper]
  unfold normalizeSecret padSecret specNormalize
  simp only [hl, hu]
  have hm : (TrimSpace secret).length % 8 < 8 := Nat.mod_lt _ (by decide)
  split
  · rename_i h
    have : (8 - (TrimSpace secret).length % 8) % 8 = 8 - (TrimSpace secret).length % 8 :=
      Nat.mod_eq_of_lt (by omega)
    rw [this]
    simp only [ToUpper, List.map_append]
    congr 1
    exact toUpper_repeatEq _
  · rename_i h
    have h' : (TrimSpace secret).length % 8 = 0 := by simpa using h
    rw [h']
    simp [repeatEq]

theorem specNormalize_facts (secret : GoString)
    (hs : ∀ c ∈ TrimSpace secret, c.toNat < 128 ∧ c.toNat ≠ 10 ∧ c.toNat ≠ 13) :
    (specNormalize secret).length % 8 = 0 ∧
      ∀ c ∈ specNormalize secret, c.toNat < 128 ∧ c.toNat ≠ 10 ∧ c.toNat ≠ 13 := by
  unfold specNormalize
  constructor
  · simp only [List.length_append, repeatEq, List.length_replicate]
    omega
  · intro c hc
    rcases List.mem_append.1 hc with h | h
    · obtain ⟨a, ha, rfl⟩ := List.mem_map.1 h
      obtain ⟨h1, h2, h3⟩ := hs a ha
      exact ⟨(upper_ascii a h1).1, upper_newline a h1 h2 h3⟩
    · rw [(List.mem_replicate.1 h).2]
      decide

/-- Go's `DecodeString` accepts a normalised ASCII secret without new-lines exactly when it
is valid RFC 4648 Base32. -/
theorem decodeString_isSome_eq (s : GoString) (h8 : s.length % 8 = 0)
    (hs : ∀ c ∈ s, c.toNat < 128 ∧ c.toNat ≠ 10 ∧ c.toNat ≠ 13) :
    (StdEncoding.DecodeString s).isSome = validBase32 s := by
  have hb : s.bytes = s.map Char.toNat := bytes_of_ascii s (fun c hc => (hs c hc).1)
  have hstrip : stripNewlines (s.map Char.toNat) = s.map Char.toNat := by
    unfold stripNewlines
    rw [List.filter_eq_self]
    intro b hb
    obtain ⟨c, hc, rfl⟩ := List.mem_map.1 hb
    simp [(hs c hc).2.1, (hs c hc).2.2]
  unfold Encoding.DecodeString validBase32
  simp only [hb, hstrip]
  exact decodeLoop_isSome_eq s.length s (le_refl _) h8 _ _ (by simp) (le_refl _)

/-- C5, as stated, fails in both directions. The secret made of a dotless i (U+0131) and
seven `A` becomes the valid text `IAAAAAAA` when trimmed, upper-cased and padded, yet the
code pads before it upper-cases and returns the Base32 error. The secret with eight
new-lines between two groups of eight `A` is not valid Base32 text, yet the decoder drops
the new-lines and a code is returned. -/
theorem generateCodeCustom_base32_counterexample :
    (validBase32 (specNormalize (Char.ofNat 0x131 :: "AAAAAAA".toList)) = true ∧
      GenerateCodeCustom (Char.ofNat 0x131 :: "AAAAAAA".toList) 0 ⟨DigitsSix, AlgorithmSHA1⟩
        = some ([], some ErrValidateSecretInvalidBase32)) ∧
    (validBase32 (specNormalize "AAAAAAAA\n\n\n\n\n\n\n\nAAAAAAAA".toList) = false ∧
      GenerateCodeCustom "AAAAAAAA\n\n\n\n\n\n\n\nAAAAAAAA".toList 0 ⟨DigitsSix, AlgorithmSHA1⟩
        = some ("328482".toList, none)) := by
  decide!

/-- C5, amended: for a secret that, once trimmed, holds only ASCII characters other than
CR and LF, `GenerateCodeCustom` returns `ErrValidateSecretInvalidBase32` with the empty
passcode if and only if the secret, after trimming, upper-casing and right-padding with `=`
to a multiple of 8 characters, is not valid RFC 4648 Base32; otherwise, with an algorithm
among SHA1, SHA256, SHA512 and 6 or 8 digits, it returns a code and a nil error. -/
theorem generateCodeCustom_invalid_secret_iff (secret : GoString) (counter : Nat)
    (opts : ValidateOtps)
    (hs : ∀ c ∈ TrimSpace secret, c.toNat < 128 ∧ c.toNat ≠ 10 ∧ c.toNat ≠ 13) :
    (GenerateCodeCustom secret counter opts = some ([], some ErrValidateSecretInvalidBase32) ↔
        validBase32 (specNormalize secret) = false) ∧
      ((opts.Algorithm = AlgorithmSHA1 ∨ opts.Algorithm = AlgorithmSHA256 ∨
          opts.Algorithm = AlgorithmSHA512) →
        (opts.Digits = DigitsSix ∨ opts.Digits = DigitsEight) →
        validBase32 (specNormalize secret) = true →
        ∃ code, GenerateCodeCustom secret counter opts = some (code, none)) := by
  have hn := normalizeSecret_eq_spec secret (fun c hc => (hs c hc).1)
  obtain ⟨h8, hc⟩ := specNormalize_facts secret hs
  have hdec := decodeString_isSome_eq (specNormalize secret) h8 hc
  cases hkey : StdEncoding.DecodeString (specNormalize secret) with
  | none =>
    rw [hkey] at hdec
    have hv : validBase32 (specNormalize secret) = false := by
      rw [← hdec]; rfl
    have hgen : GenerateCodeCustom secret counter opts =
        some ([], some ErrValidateSecretInvalidBase32) := by
      simp only [GenerateCodeCustom, hn, hkey]
    exact ⟨⟨fun _ => hv, fun _ => hgen⟩,
      fun _ _ h => by rw [hv] at h; exact absurd h (by decide)⟩
  | some key =>
    rw [hkey] at hdec
    have hv : validBase32 (specNormalize secret) = true := by
      rw [← hdec]; rfl
    have hkey' : StdEncoding.DecodeString (normalizeSecret secret) = some key := by
      rw [hn]; exact hkey
    refine ⟨⟨fun h => ?_, fun h => ?_⟩, fun halg hdig _ => ?_⟩
    · exact absurd h (generateCodeCustom_no_error secret key counter opts hkey' _ _)
    · rw [hv] at h
      exact absurd h (by decide)
    · obtain ⟨code, hgen, _, _⟩ :=
        generateCodeCustom_code secret key counter opts hkey' halg hdig
      exact ⟨code, hgen⟩

/-- Witness for C5: the unpadded secret of `TestValidatePadding`, which is valid, and a
secret with a character outside the alphabet, which is not. -/
theorem generateCodeCustom_invalid_secret_iff_witness :
    (∀ c ∈ TrimSpace "JBSWY3DPEHPK3PX".toList, c.toNat < 128 ∧ c.toNat ≠ 10 ∧ c.toNat ≠ 13) ∧
      validBase32 (specNormalize "JBSWY3DPEHPK3PX".toList) = true ∧
      (∃ code, GenerateCodeCustom "JBSWY3DPEHPK3PX".toList 0 ⟨DigitsSix, AlgorithmSHA1⟩ =
        some (code, none)) ∧
      (∀ c ∈ TrimSpace "JBSWY3DPEHPK3P1".toList, c.toNat < 128 ∧ c.toNat ≠ 10 ∧ c.toNat ≠ 13) ∧
      GenerateCodeCustom "JBSWY3DPEHPK3P1".toList 0 ⟨DigitsSix, AlgorithmSHA1⟩ =
        some ([], some ErrValidateSecretInvalidBase32) :=
  ⟨by decide, by decide,
    (generateCodeCustom_invalid_secret_iff "JBSWY3DPEHPK3PX".toList 0 ⟨DigitsSix, AlgorithmSHA1⟩
      (by decide)).2 (Or.inl rfl) (Or.inl rfl) (by decide),
    by decide,
    (generateCodeCustom_invalid_secret_iff "JBSWY3DPEHPK3P1".toList 0 ⟨DigitsSix, AlgorithmSHA1⟩
      (by decide)).1.2 (by decide)⟩

/-! ## The time window -/

/-- Rounding a quotient, dividing again by the scale: the scaled quotient of `a` by `b`,
rounded to an integer and divided by the scale `S`, is `a / b` as long as `b < 2 * S`. -/
theorem roundHalfEven_div (a b S : Nat) (hb : 0 < b) (hS : 0 < S) (hbS : b < 2 * S) :
    roundHalfEven (a * S) b / S = a / b := by
  have hN := Nat.div_add_mod (a * S) b
  have ha := Nat.div_add_mod a b
  have hr := Nat.mod_lt (a * S) hb
  have hr0 := Nat.mod_lt a hb
  -- lower bound
  have h1 : a / b * S ≤ a * S / b := by
    rw [Nat.le_div_iff_mul_le hb]
    have : a / b * b ≤ a := Nat.div_mul_le_self a b
    calc a / b * S * b = a / b * b * S := by ring
      _ ≤ a * S := Nat.mul_le_mul_right S this
  -- upper bound
  have hlt : a + 1 ≤ b * (a / b + 1) := by
    have : b * (a / b + 1) = b * (a / b) + b := by ring
    omega
  have hX : a * S + S ≤ b * (a / b + 1) * S := by
    calc a * S + S = (a + 1) * S := by ring
      _ ≤ b * (a / b + 1) * S := Nat.mul_le_mul_right S hlt
  have h2 : a * S / b < (a / b + 1) * S := by
    rw [Nat.div_lt_iff_lt_mul hb]
    have : (a / b + 1) * S * b = b * (a / b + 1) * S := by ring
    omega
  have h3 : b ≤ 2 * (a * S % b) → a * S / b + 1 < (a / b + 1) * S := by
    intro h
    by_contra hcon
    have hge : (a / b + 1) * S ≤ a * S / b + 1 := by omega
    have : b * ((a / b + 1) * S) ≤ b * (a * S / b + 1) := Nat.mul_le_mul_left b hge
    have e1 : b * ((a / b + 1) * S) = b * (a / b + 1) * S := by ring
    have e2 : b * (a * S / b + 1) = b * (a * S / b) + b := by ring
    omega
  have hm : a / b * S ≤ roundHalfEven (a * S) b ∧ roundHalfEven (a * S) b < (a / b + 1) * S := by
    unfold roundHalfEven
    simp only []
    split_ifs <;> constructor <;> omega
  exact Nat.div_eq_of_lt_le hm.1 hm.2

theorem log2Fuel_spec (fuel : Nat) : ∀ n, n ≤ fuel → n ≠ 0 →
    2 ^ log2Fuel fuel n ≤ n ∧ n < 2 ^ (log2Fuel fuel n + 1) := by
  induction fuel with
  | zero => intro n h h0; omega
  | succ fuel ih =>
    intro n h h0
    unfold log2Fuel
    split
    · constructor <;> simp <;> omega
    · obtain ⟨i1, i2⟩ := ih (n / 2) (by omega) (by omega)
      rw [Nat.pow_succ, Nat.pow_succ]
      constructor <;> omega

theorem ilog2_self_le (n : Nat) (h : n ≠ 0) : 2 ^ ilog2 n ≤ n :=
  (log2Fuel_spec n n (le_refl _) h).1

theorem lt_ilog2_self (n : Nat) : n < 2 ^ (ilog2 n + 1) := by
  by_cases h : n = 0
  · subst h; exact Nat.pow_pos (by decide)
  · exact (log2Fuel_spec n n (le_refl _) h).2

theorem ilog2_lt (n k : Nat) (h : n ≠ 0) (hk : n < 2 ^ k) : ilog2 n < k := by
  have := ilog2_self_le n h
  exact (Nat.pow_lt_pow_iff_right (by decide : 1 < 2)).1 (lt_of_le_of_lt this hk)

theorem le_ilog2 (n k : Nat) (hk : 2 ^ k ≤ n) : k ≤ ilog2 n := by
  have := lt_ilog2_self n
  have h2 := (Nat.pow_lt_pow_iff_right (by decide : 1 < 2)).1 (lt_of_le_of_lt hk this)
  omega

theorem roundHalfEven_ge (n d : Nat) : n / d ≤ roundHalfEven n d := by
  unfold roundHalfEven
  simp only []
  split_ifs <;> omega

theorem roundHalfEven_one (n : Nat) : roundHalfEven n 1 = n := by
  unfold roundHalfEven
  simp [Nat.mod_one]

theorem f64OfNat_small (n : Nat) (h : n < 2 ^ 53) : f64OfNat n = n := by
  unfold f64OfNat
  rw [if_pos h]

theorem f64OfNat_large (n : Nat) (h : 2 ^ 53 ≤ n) : 2 ^ 53 ≤ f64OfNat n := by
  have hn0 : n ≠ 0 := by
    intro h0
    rw [h0] at h
    exact absurd h (by decide)
  have hl : 53 ≤ ilog2 n := le_ilog2 n 53 h
  have hpow : 2 ^ 52 * 2 ^ (ilog2 n - 52) = 2 ^ ilog2 n := by
    rw [← Nat.pow_add]
    congr 1
    omega
  have hle : 2 ^ ilog2 n ≤ n := ilog2_self_le n hn0
  have hpos : 0 < 2 ^ (ilog2 n - 52) := Nat.pow_pos (by decide)
  have hq : 2 ^ 52 ≤ n / 2 ^ (ilog2 n - 52) := by
    rw [Nat.le_div_iff_mul_le hpos, hpow]
    exact hle
  have hr := roundHalfEven_ge n (2 ^ (ilog2 n - 52))
  unfold f64OfNat
  rw [if_neg (by omega)]
  calc 2 ^ 53 ≤ 2 ^ ilog2 n := Nat.pow_le_pow_right (by decide) hl
    _ = 2 ^ 52 * 2 ^ (ilog2 n - 52) := hpow.symm
    _ ≤ roundHalfEven n (2 ^ (ilog2 n - 52)) * 2 ^ (ilog2 n - 52) :=
        Nat.mul_le_mul_right _ (le_trans hq hr)

/-- The floor of the `float64` quotient of a natural number below `2^53` by a positive
natural number is the integer quotient. -/
theorem f64Div_floor (a b : Nat) (ha : a < 2 ^ 53) (hb : 0 < b) :
    (f64Div a b).1 / (f64Div a b).2 = a / b := by
  unfold f64Div
  by_cases h0 : a = 0
  · simp [h0]
  rw [if_neg h0]
  have hla : ilog2 a < 53 := ilog2_lt a 53 h0 ha
  have hlb : b < 2 ^ (ilog2 b + 1) := lt_ilog2_self b
  simp only []
  split_ifs with hc hlo hlo
  · exfalso; omega
  · have hs : 0 < 2 ^ (ilog2 b + 1 + 52 - ilog2 a) := Nat.pow_pos (by decide)
    refine roundHalfEven_div a b _ hb hs ?_
    have : 2 ^ (ilog2 b + 1) ≤ 2 * 2 ^ (ilog2 b + 1 + 52 - ilog2 a) := by
      rw [← Nat.pow_succ']
      exact Nat.pow_le_pow_right (by decide) (by omega)
    omega
  · have e1 : ilog2 b = 0 := by omega
    have e2 : ilog2 a - (ilog2 b + 0 + 52) = 0 := by omega
    rw [e1] at hlb
    have hb1 : b = 1 := by
      have : b < 2 := by simpa using hlb
      omega
    rw [e2, hb1]
    simp [roundHalfEven_one]
  · have hs : 0 < 2 ^ (ilog2 b + 0 + 52 - ilog2 a) := Nat.pow_pos (by decide)
    refine roundHalfEven_div a b _ hb hs ?_
    have : 2 ^ (ilog2 b + 1) ≤ 2 * 2 ^ (ilog2 b + 0 + 52 - ilog2 a) := by
      rw [← Nat.pow_succ']
      exact Nat.pow_le_pow_right (by decide) (by omega)
    omega

/-- Below `2^53` seconds the floating-point counter is the integer quotient. -/
theorem floorDivF64_exact (t p : Nat) (ht : t < 2 ^ 53) (hp : 0 < p) :
    floorDivF64 (t : Int) p = ((t / p : Nat) : Int) := by
  unfold floorDivF64
  simp only [Int.natAbs_ofNat, Int.ofNat_nonneg, if_true, f64OfNat_small t ht]
  by_cases hlt : p < 2 ^ 53
  · rw [f64OfNat_small p hlt, f64Div_floor t p ht hp]
  · have hbig := f64OfNat_large p (by omega)
    rw [f64Div_floor t _ ht (by omega), Nat.div_eq_of_lt (by omega), Nat.div_eq_of_lt (by omega)]

/-- The only error `GenerateCodeCustom` returns comes with the empty passcode. -/
theorem generateCodeCustom_result (secret : GoString) (counter : Nat) (opts : ValidateOtps)
    (code : GoString) (err : OtpError)
    (h : GenerateCodeCustom secret counter opts = some (code, some err)) :
    code = [] ∧ err = ErrValidateSecretInvalidBase32 := by
  unfold GenerateCodeCustom at h
  cases h1 : StdEncoding.DecodeString (normalizeSecret secret) with
  | none =>
    simp only [h1, Option.some.injEq, Prod.mk.injEq] at h
    exact ⟨h.1.symm, h.2.symm⟩
  | some key =>
    simp only [h1] at h
    cases h2 : opts.Algorithm.Hash with
    | none => simp [h2] at h
    | some hk =>
      simp only [h2] at h
      cases h3 : truncate (hmacSum hk key (beBytes 8 counter)) with
      | none => simp [h3] at h
      | some v =>
        simp only [h3] at h
        split at h <;> simp at h

/-- The function `GenerateCodeCustoms` hands back what `GenerateCodeCustom` returns at its counter. -/
theorem generateCodeCustoms_eq (secret : GoString) (t : Int) (otp : ValidateOtp) :
    GenerateCodeCustoms secret t otp =
      GenerateCodeCustom secret (toUint64 (floorDivF64 t (effectivePeriod otp)))
        ⟨otp.Digits, otp.Algorithm⟩ := by
  unfold GenerateCodeCustoms
  simp only []
  cases h : GenerateCodeCustom secret (toUint64 (floorDivF64 t (effectivePeriod otp)))
      ⟨otp.Digits, otp.Algorithm⟩ with
  | none => rfl
  | some r =>
    obtain ⟨code, e⟩ := r
    cases e with
    | none => rfl
    | some err =>
      obtain ⟨h1, _⟩ := generateCodeCustom_result _ _ _ _ _ h
      subst h1
      rfl

theorem effectivePeriod_pos (otp : ValidateOtp) : 0 < effectivePeriod otp := by
  unfold effectivePeriod
  split <;> omega

/-- C8, amended: for every timestamp whose Unix seconds `t` satisfy `0 <= t < 2^53` and
every period `p`, `GenerateCodeCustoms(secret, t, opts)` equals
`GenerateCodeCustom(secret, floor(t / p'), {opts.Digits, opts.Algorithm})` with `p' = p`
when `p > 0` and `p' = 30` when `p = 0`, and `ValidateCustoms` starts from the same
counter. -/
theorem generateCodeCustoms_counter (secret : GoString) (t : Nat) (otp : ValidateOtp)
    (ht : t < 2 ^ 53) :
    effectivePeriod otp = (if otp.Period = 0 then 30 else otp.Period) ∧
      GenerateCodeCustoms secret (t : Int) otp =
        GenerateCodeCustom secret (t / effectivePeriod otp) ⟨otp.Digits, otp.Algorithm⟩ ∧
      currentCounter (t : Int) otp = ((t / effectivePeriod otp : Nat) : Int) := by
  have hfl := floorDivF64_exact t (effectivePeriod otp) ht (effectivePeriod_pos otp)
  have hle : t / effectivePeriod otp ≤ t := Nat.div_le_self _ _
  refine ⟨rfl, ?_, ?_⟩
  · rw [generateCodeCustoms_eq, hfl]
    congr 1
    unfold toUint64
    have h64 : ((t / effectivePeriod otp : Nat) : Int) % 2 ^ 64 = (t / effectivePeriod otp : Nat) :=
      Int.emod_eq_of_lt (Int.ofNat_nonneg _) (by norm_num; omega)
    rw [h64]
    rfl
  · unfold currentCounter
    rw [hfl]
    unfold toInt64
    have h64 : (((t / effectivePeriod otp : Nat) : Int) + 2 ^ 63) % 2 ^ 64
        = (t / effectivePeriod otp : Nat) + 2 ^ 63 :=
      Int.emod_eq_of_lt (by positivity) (by norm_num; omega)
    rw [h64]
    omega

/-- Witness for C8: the RFC 6238 time 1111111109 with the default period. -/
theorem generateCodeCustoms_counter_witness :
    effectivePeriod ⟨0, 1, DigitsEight, AlgorithmSHA1⟩ = (if (0 : Nat) = 0 then 30 else 0) ∧
      GenerateCodeCustoms "GEZDGNBVGY3TQOJQGEZDGNBVGY3TQOJQ".toList ((1111111109 : Nat) : Int)
          ⟨0, 1, DigitsEight, AlgorithmSHA1⟩ =
        GenerateCodeCustom "GEZDGNBVGY3TQOJQGEZDGNBVGY3TQOJQ".toList
          (1111111109 / effectivePeriod ⟨0, 1, DigitsEight, AlgorithmSHA1⟩)
          ⟨DigitsEight, AlgorithmSHA1⟩ ∧
      currentCounter ((1111111109 : Nat) : Int) ⟨0, 1, DigitsEight, AlgorithmSHA1⟩ =
        ((1111111109 / effectivePeriod ⟨0, 1, DigitsEight, AlgorithmSHA1⟩ : Nat) : Int) :=
  generateCodeCustoms_counter "GEZDGNBVGY3TQOJQGEZDGNBVGY3TQOJQ".toList 1111111109
    ⟨0, 1, DigitsEight, AlgorithmSHA1⟩ (by norm_num)

set_option maxRecDepth 100000 in
/-- C8, as stated, fails: at `t = 2^53 + 1` seconds with period 1 the conversion to
`float64` rounds the time to `2^53`, so the counter is `2^53` and not `floor(t / 1)`, and
the code differs from the one of counter `2^53 + 1`. -/
theorem generateCodeCustoms_counter_counterexample :
    (0 : Int) ≤ 9007199254740993 ∧
      currentCounter 9007199254740993 ⟨1, 0, DigitsSix, AlgorithmSHA1⟩ = 9007199254740992 ∧
      GenerateCodeCustoms "JBSWY3DPEHPK3PX".toList 9007199254740993
        ⟨1, 0, DigitsSix, AlgorithmSHA1⟩ = some ("013169".toList, none) ∧
      GenerateCodeCustom "JBSWY3DPEHPK3PX".toList (9007199254740993 / 1)
        ⟨DigitsSix, AlgorithmSHA1⟩ = some ("200105".toList, none) := by
  decide!


theorem toUint64_toInt64 (x : Int) : toUint64 (toInt64 x) = toUint64 x := by
  unfold toUint64 toInt64
  congr 1
  omega

/-- With SHA1, SHA256 or SHA512, `ValidateCustom` never panics, and whether it returns an
error, and which, does not depend on the counter. -/
theorem validateCustom_shape (passcode secret : GoString) (opts : ValidateOtps)
    (halg : opts.Algorithm = AlgorithmSHA1 ∨ opts.Algorithm = AlgorithmSHA256 ∨
      opts.Algorithm = AlgorithmSHA512) :
    (∃ err, ∀ counter, ValidateCustom passcode counter secret opts = some (false, some err)) ∨
      (∀ counter, ∃ b, ValidateCustom passcode counter secret opts = some (b, none)) := by
  by_cases hlen : ((TrimSpace passcode).len : Int) ≠ opts.Digits.Length
  · exact Or.inl ⟨_, fun counter => validateCustom_length_error passcode secret counter opts hlen⟩
  · have hd : 0 ≤ opts.Digits := by
      have : ((TrimSpace passcode).len : Int) = opts.Digits := by
        simpa [Digits.Length] using hlen
      rw [← this]
      exact Int.ofNat_nonneg _
    cases hkey : StdEncoding.DecodeString (normalizeSecret secret) with
    | none =>
      refine Or.inl ⟨ErrValidateSecretInvalidBase32, fun counter => ?_⟩
      have hgen : GenerateCodeCustom secret counter opts =
          some ([], some ErrValidateSecretInvalidBase32) := by
        simp only [GenerateCodeCustom, hkey]
      unfold ValidateCustom
      simp only [hlen, if_false, hgen]
    | some key =>
      obtain ⟨h, hh, hsz⟩ := hash_of_algorithm _ halg
      refine Or.inr fun counter => ?_
      have hgen := generateCodeCustom_of_key secret key counter opts h hkey hh hsz hd
      rw [validateCustom_of_code passcode secret _ counter opts hgen, if_neg hlen]
      exact ⟨_, rfl⟩

/-- The loop over the counters, when no counter gives an error or a panic. -/
theorem validateCounters_ok (passcode secret : GoString) (o : ValidateOtps)
    (hok : ∀ counter, ∃ b, ValidateCustom passcode counter secret o = some (b, none))
    (cs : List Nat) :
    (validateCounters passcode secret o cs = some (true, none) ∨
        validateCounters passcode secret o cs = some (false, none)) ∧
      (validateCounters passcode secret o cs = some (true, none) ↔
        ∃ c ∈ cs, ValidateCustom passcode c secret o = some (true, none)) := by
  induction cs with
  | nil => simp [validateCounters]
  | cons c cs ih =>
    obtain ⟨b, hb⟩ := hok c
    cases b with
    | true =>
      have : validateCounters passcode secret o (c :: cs) = some (true, none) := by
        simp only [validateCounters, hb]
      exact ⟨Or.inl this, fun _ => ⟨c, List.mem_cons_self _ _, hb⟩, fun _ => this⟩
    | false =>
      have : validateCounters passcode secret o (c :: cs) = validateCounters passcode secret o cs := by
        simp only [validateCounters, hb]
      rw [this]
      refine ⟨ih.1, ih.2.trans ⟨fun ⟨x, hx, hv⟩ => ⟨x, List.mem_cons_of_mem _ hx, hv⟩, ?_⟩⟩
      rintro ⟨x, hx, hv⟩
      rcases List.mem_cons.1 hx with rfl | hx
      · rw [hb] at hv
        simp at hv
      · exact ⟨x, hx, hv⟩

/-- The counters `skewCounters` collects. -/
theorem mem_skewCounters (c : Int) (n : Nat) : ∀ (i : Nat) (x : Nat),
    x ∈ skewCounters c i n ↔
      ∃ j : Nat, i ≤ j ∧ j < i + n ∧ (x = toUint64 (c + j) ∨ x = toUint64 (c - j)) := by
  induction n with
  | zero =>
    intro i x
    simp only [skewCounters, List.not_mem_nil, false_iff]
    rintro ⟨j, h1, h2, _⟩
    omega
  | succ n ih =>
    intro i x
    simp only [skewCounters, List.mem_cons, toUint64_toInt64, ih (i + 1) x]
    constructor
    · rintro (h | h | ⟨j, h1, h2, h3⟩)
      · exact ⟨i, le_refl _, by omega, Or.inl h⟩
      · exact ⟨i, le_refl _, by omega, Or.inr h⟩
      · exact ⟨j, by omega, by omega, h3⟩
    · rintro ⟨j, h1, h2, h3⟩
      by_cases hji : j = i
      · subst hji
        rcases h3 with h | h
        · exact Or.inl h
        · exact Or.inr (Or.inl h)
      · exact Or.inr (Or.inr ⟨j, by omega, by omega, h3⟩)

/-- The counters of `ValidateCustoms` in the order in which they are tried. -/
theorem skewCounters_order (c : Int) (n : Nat) : ∀ i : Nat,
    skewCounters c i n =
      (List.range n).flatMap fun k =>
        [toUint64 (c + ((i + k : Nat) : Int)), toUint64 (c - ((i + k : Nat) : Int))] := by
  induction n with
  | zero => intro i; rfl
  | succ n ih =>
    intro i
    rw [List.range_succ_eq_map, List.flatMap_cons, skewCounters, ih (i + 1), toUint64_toInt64,
      toUint64_toInt64, List.flatMap_map]
    simp only [List.cons_append, List.nil_append, Nat.add_zero, List.cons.injEq, true_and]
    congr 1
    funext k
    have : i + 1 + k = i + (k + 1) := by omega
    simp only [Function.comp, this, Nat.succ_eq_add_one]

theorem validateCustoms_unfold (maxLen : Nat) (passcode secret : GoString) (t : Int)
    (otp : ValidateOtp) (hmem : 2 * otp.Skew + 1 ≤ min maxLen (2 ^ 45)) :
    ValidateCustoms maxLen passcode secret t otp =
      validateCounters passcode secret ⟨otp.Digits, otp.Algorithm⟩
        (toUint64 (currentCounter t otp) :: skewCounters (currentCounter t otp) 1 otp.Skew) := by
  have h45 : min maxLen (2 ^ 45) ≤ 2 ^ 45 := Nat.min_le_right _ _
  have e45 : (2 : Nat) ^ 45 = 35184372088832 := by norm_num
  have hn : toInt64 (otp.Skew : Int) = (otp.Skew : Int) := by
    unfold toInt64
    omega
  unfold ValidateCustoms
  simp only [hn, Int.toNat_ofNat]
  rw [if_neg (by omega)]

theorem skew_window (c : Int) (s : Nat) (V : Nat → Prop) :
    (∃ x ∈ toUint64 c :: skewCounters c 1 s, V x) ↔
      ∃ i : Int, -(s : Int) ≤ i ∧ i ≤ s ∧ V (toUint64 (c + i)) := by
  constructor
  · rintro ⟨x, hx, hv⟩
    rcases List.mem_cons.1 hx with rfl | hx
    · exact ⟨0, by omega, by omega, by simpa using hv⟩
    · obtain ⟨j, h1, h2, h3 | h3⟩ := (mem_skewCounters c s 1 x).1 hx
      · exact ⟨j, by omega, by omega, h3 ▸ hv⟩
      · refine ⟨-(j : Int), by omega, by omega, ?_⟩
        have : c + -(j : Int) = c - j := by omega
        rw [this]
        exact h3 ▸ hv
  · rintro ⟨i, h1, h2, hv⟩
    by_cases h0 : i = 0
    · subst h0
      exact ⟨_, List.mem_cons_self _ _, by simpa using hv⟩
    by_cases hpos : 0 < i
    · refine ⟨_, List.mem_cons_of_mem _ ((mem_skewCounters c s 1 _).2
        ⟨i.toNat, by omega, by omega, Or.inl ?_⟩), hv⟩
      congr 2
      omega
    · refine ⟨_, List.mem_cons_of_mem _ ((mem_skewCounters c s 1 _).2
        ⟨(-i).toNat, by omega, by omega, Or.inr ?_⟩), hv⟩
      congr 1
      omega

set_option maxRecDepth 100000 in
/-- C9, as stated, fails. With skew `2^63` the loop bound `int(otp.Skew)` is negative and
only the current counter is tried: the code of counter 1 is refused at `t = 89` (counter 2)
although `-1` lies within the skew. With skew `2^45` the `2^46 + 1` counters exceed the
largest slice, and the run ends without a result although the code is the one of the
current counter. With MD5 the run can end in an index-out-of-range panic at counter
`c + 1` before the matching counter `c - 1` is reached. -/
theorem validateCustoms_skew_counterexample :
    (ValidateCustom "94287082".toList
        (toUint64 (currentCounter 89 ⟨30, 9223372036854775808, DigitsEight, AlgorithmSHA1⟩ + (-1)))
        "GEZDGNBVGY3TQOJQGEZDGNBVGY3TQOJQ".toList ⟨DigitsEight, AlgorithmSHA1⟩
        = some (true, none) ∧
      ValidateCustoms (2 ^ 45) "94287082".toList "GEZDGNBVGY3TQOJQGEZDGNBVGY3TQOJQ".toList 89
        ⟨30, 9223372036854775808, DigitsEight, AlgorithmSHA1⟩ = some (false, none)) ∧
    (ValidateCustom "94287082".toList
        (toUint64 (currentCounter 59 ⟨30, 35184372088832, DigitsEight, AlgorithmSHA1⟩))
        "GEZDGNBVGY3TQOJQGEZDGNBVGY3TQOJQ".toList ⟨DigitsEight, AlgorithmSHA1⟩
        = some (true, none) ∧
      ValidateCustoms (2 ^ 45) "94287082".toList "GEZDGNBVGY3TQOJQGEZDGNBVGY3TQOJQ".toList 59
        ⟨30, 35184372088832, DigitsEight, AlgorithmSHA1⟩ = none) ∧
    (ValidateCustom "023804".toList
        (toUint64 (currentCounter 60 ⟨30, 1, DigitsSix, AlgorithmMD5⟩))
        "JBSWY3DPEHPK3PX".toList ⟨DigitsSix, AlgorithmMD5⟩ = some (false, none) ∧
      ValidateCustom "023804".toList
        (toUint64 (currentCounter 60 ⟨30, 1, DigitsSix, AlgorithmMD5⟩ + (-1)))
        "JBSWY3DPEHPK3PX".toList ⟨DigitsSix, AlgorithmMD5⟩ = some (true, none) ∧
      ValidateCustoms (2 ^ 45) "023804".toList "JBSWY3DPEHPK3PX".toList 60
        ⟨30, 1, DigitsSix, AlgorithmMD5⟩ = none) := by
  decide!

/-- C9, amended: for a skew `s` whose `2s + 1` counters fit in the slice that
`ValidateCustoms` fills before it validates (`2s + 1` is at most `maxLen`, the length a
`[]uint64` can reach in the memory of the machine, and at most `2^45`) and an algorithm
among SHA1, SHA256, SHA512, let `c` be the current counter of `t`. `ValidateCustoms` tries
the counters
`c, c+1, c-1, ..., c+s, c-s` (modulo `2^64`) in that order. It returns `(false, err)` when
`ValidateCustom` at counter `c` returns the error `err`; otherwise it returns `(true, nil)`
if and only if `ValidateCustom(candidate, c + i, secret, ...)` is `(true, nil)` for some
integer `i` with `-s <= i <= s`, and `(false, nil)` if none is. -/
theorem validateCustoms_skew (maxLen : Nat) (passcode secret : GoString) (t : Int)
    (otp : ValidateOtp) (hmem : 2 * otp.Skew + 1 ≤ min maxLen (2 ^ 45))
    (halg : otp.Algorithm = AlgorithmSHA1 ∨ otp.Algorithm = AlgorithmSHA256 ∨
      otp.Algorithm = AlgorithmSHA512) :
    ValidateCustoms maxLen passcode secret t otp =
        validateCounters passcode secret ⟨otp.Digits, otp.Algorithm⟩
          (toUint64 (currentCounter t otp) :: (List.range otp.Skew).flatMap fun k =>
            [toUint64 (currentCounter t otp + ((1 + k : Nat) : Int)),
              toUint64 (currentCounter t otp - ((1 + k : Nat) : Int))]) ∧
      (∀ b err, ValidateCustom passcode (toUint64 (currentCounter t otp)) secret
          ⟨otp.Digits, otp.Algorithm⟩ = some (b, some err) →
        ValidateCustoms maxLen passcode secret t otp = some (false, some err)) ∧
      (∀ b, ValidateCustom passcode (toUint64 (currentCounter t otp)) secret
          ⟨otp.Digits, otp.Algorithm⟩ = some (b, none) →
        (ValidateCustoms maxLen passcode secret t otp = some (true, none) ∨
          ValidateCustoms maxLen passcode secret t otp = some (false, none)) ∧
        (ValidateCustoms maxLen passcode secret t otp = some (true, none) ↔
          ∃ i : Int, -(otp.Skew : Int) ≤ i ∧ i ≤ otp.Skew ∧
            ValidateCustom passcode (toUint64 (currentCounter t otp + i)) secret
              ⟨otp.Digits, otp.Algorithm⟩ = some (true, none))) := by
  have hu := validateCustoms_unfold maxLen passcode secret t otp hmem
  refine ⟨?_, ?_, ?_⟩
  · rw [hu, skewCounters_order]
  · intro b err h
    rw [hu]
    simp only [validateCounters, h]
  · intro b h
    rcases validateCustom_shape passcode secret ⟨otp.Digits, otp.Algorithm⟩ halg with
      ⟨err, he⟩ | hok
    · rw [he] at h
      simp at h
    · have hv := validateCounters_ok passcode secret ⟨otp.Digits, otp.Algorithm⟩ hok
        (toUint64 (currentCounter t otp) :: skewCounters (currentCounter t otp) 1 otp.Skew)
      rw [hu]
      exact ⟨hv.1, hv.2.trans (skew_window _ _ _)⟩

/-- Witness for C9: the RFC 6238 secret at `t = 89` with period 30 and skew 1. -/
theorem validateCustoms_skew_witness :
    ValidateCustoms (2 ^ 45) "94287082".toList "GEZDGNBVGY3TQOJQGEZDGNBVGY3TQOJQ".toList 89
          ⟨30, 1, DigitsEight, AlgorithmSHA1⟩ =
        validateCounters "94287082".toList "GEZDGNBVGY3TQOJQGEZDGNBVGY3TQOJQ".toList
          ⟨DigitsEight, AlgorithmSHA1⟩
          (toUint64 (currentCounter 89 ⟨30, 1, DigitsEight, AlgorithmSHA1⟩) ::
            (List.range 1).flatMap fun k =>
              [toUint64 (currentCounter 89 ⟨30, 1, DigitsEight, AlgorithmSHA1⟩
                  + ((1 + k : Nat) : Int)),
                toUint64 (currentCounter 89 ⟨30, 1, DigitsEight, AlgorithmSHA1⟩
                  - ((1 + k : Nat) : Int))]) ∧
      (∀ b err, ValidateCustom "94287082".toList
          (toUint64 (currentCounter 89 ⟨30, 1, DigitsEight, AlgorithmSHA1⟩))
          "GEZDGNBVGY3TQOJQGEZDGNBVGY3TQOJQ".toList ⟨DigitsEight, AlgorithmSHA1⟩
            = some (b, some err) →
        ValidateCustoms (2 ^ 45) "94287082".toList "GEZDGNBVGY3TQOJQGEZDGNBVGY3TQOJQ".toList 89
          ⟨30, 1, DigitsEight, AlgorithmSHA1⟩ = some (false, some err)) ∧
      (∀ b, ValidateCustom "94287082".toList
          (toUint64 (currentCounter 89 ⟨30, 1, DigitsEight, AlgorithmSHA1⟩))
          "GEZDGNBVGY3TQOJQGEZDGNBVGY3TQOJQ".toList ⟨DigitsEight, AlgorithmSHA1⟩
            = some (b, none) →
        (ValidateCustoms (2 ^ 45) "94287082".toList "GEZDGNBVGY3TQOJQGEZDGNBVGY3TQOJQ".toList 89
            ⟨30, 1, DigitsEight, AlgorithmSHA1⟩ = some (true, none) ∨
          ValidateCustoms (2 ^ 45) "94287082".toList "GEZDGNBVGY3TQOJQGEZDGNBVGY3TQOJQ".toList 89
            ⟨30, 1, DigitsEight, AlgorithmSHA1⟩ = some (false, none)) ∧
        (ValidateCustoms (2 ^ 45) "94287082".toList "GEZDGNBVGY3TQOJQGEZDGNBVGY3TQOJQ".toList 89
            ⟨30, 1, DigitsEight, AlgorithmSHA1⟩ = some (true, none) ↔
          ∃ i : Int, -((1 : Nat) : Int) ≤ i ∧ i ≤ (1 : Nat) ∧
            ValidateCustom "94287082".toList
              (toUint64 (currentCounter 89 ⟨30, 1, DigitsEight, AlgorithmSHA1⟩ + i))
              "GEZDGNBVGY3TQOJQGEZDGNBVGY3TQOJQ".toList ⟨DigitsEight, AlgorithmSHA1⟩
                = some (true, none))) :=
  validateCustoms_skew (2 ^ 45) "94287082".toList "GEZDGNBVGY3TQOJQGEZDGNBVGY3TQOJQ".toList 89
    ⟨30, 1, DigitsEight, AlgorithmSHA1⟩ (by decide) (Or.inl rfl)

/-- The function `ValidateCustom` accepts the code `GenerateCodeCustom` returns at the same counter. -/
theorem validateCustom_own_code (secret : GoString) (key : List Nat) (counter : Nat)
    (opts : ValidateOtps)
    (hkey : StdEncoding.DecodeString (normalizeSecret secret) = some key)
    (halg : opts.Algorithm = AlgorithmSHA1 ∨ opts.Algorithm = AlgorithmSHA256 ∨
      opts.Algorithm = AlgorithmSHA512)
    (hdig : opts.Digits = DigitsSix ∨ opts.Digits = DigitsEight) :
    ∃ code, GenerateCodeCustom secret counter opts = some (code, none) ∧
      ValidateCustom code counter secret opts = some (true, none) := by
  obtain ⟨code, hgen, hlen, hdigs⟩ :=
    generateCodeCustom_code secret key counter opts hkey halg hdig
  have hd : (opts.Digits.toNat : Int) = opts.Digits.Length := by
    rcases hdig with e | e <;> rw [e] <;> decide
  have hcl : (code.len : Int) = opts.Digits.Length := by
    rw [len_of_ascii code (fun c hc => isDigit_ascii c (hdigs c hc)), hlen, hd]
  refine ⟨code, hgen, ?_⟩
  rw [validateCustom_of_code code secret code counter opts hgen, trimSpace_of_digits code hdigs]
  simp [hcl]

set_option maxRecDepth 100000 in
/-- C10, as stated, fails: with skew `2^63` a code generated at `t = 59` (counter 1) is
refused at `t' = 89` (counter 2), although the counters differ by 1 only, because the loop
bound `int(otp.Skew)` is negative and no neighbouring counter is tried. With skew `2^45`
the `2^46 + 1` counters exceed the largest slice, and the code generated at `t = 59` gets
no result at the same `t`. -/
theorem validateCustoms_accepts_counterexample :
    GenerateCodeCustoms "GEZDGNBVGY3TQOJQGEZDGNBVGY3TQOJQ".toList 59
        ⟨30, 9223372036854775808, DigitsEight, AlgorithmSHA1⟩ = some ("94287082".toList, none) ∧
      currentCounter 59 ⟨30, 9223372036854775808, DigitsEight, AlgorithmSHA1⟩ = 1 ∧
      currentCounter 89 ⟨30, 9223372036854775808, DigitsEight, AlgorithmSHA1⟩ = 2 ∧
      ValidateCustoms (2 ^ 45) "94287082".toList "GEZDGNBVGY3TQOJQGEZDGNBVGY3TQOJQ".toList 89
        ⟨30, 9223372036854775808, DigitsEight, AlgorithmSHA1⟩ = some (false, none) ∧
      GenerateCodeCustoms "GEZDGNBVGY3TQOJQGEZDGNBVGY3TQOJQ".toList 59
        ⟨30, 35184372088832, DigitsEight, AlgorithmSHA1⟩ = some ("94287082".toList, none) ∧
      ValidateCustoms (2 ^ 45) "94287082".toList "GEZDGNBVGY3TQOJQGEZDGNBVGY3TQOJQ".toList 59
        ⟨30, 35184372088832, DigitsEight, AlgorithmSHA1⟩ = none := by
  decide!

/-- C10, amended: for a secret whose normalised form (any letter case) decodes, an algorithm
among SHA1, SHA256, SHA512, 6 or 8 digits, a period, a skew `s` whose `2s + 1` counters fit
in the slice that `ValidateCustoms` fills (`2s + 1` is at most `maxLen`, the length a
`[]uint64` can reach in the memory of the machine, and at most `2^45`) and two timestamps
with non-negative Unix seconds whose counters differ by at most `s`, the code
`GenerateCodeCustoms` produces at `t` is accepted by `ValidateCustoms` at `t'` with
`(true, nil)`; in particular at `t' = t` for every such skew, 0 included. -/
theorem validateCustoms_accepts_generated (maxLen : Nat) (secret : GoString)
    (key : List Nat) (t t' : Int) (otp : ValidateOtp)
    (hkey : StdEncoding.DecodeString (normalizeSecret secret) = some key)
    (halg : otp.Algorithm = AlgorithmSHA1 ∨ otp.Algorithm = AlgorithmSHA256 ∨
      otp.Algorithm = AlgorithmSHA512)
    (hdig : otp.Digits = DigitsSix ∨ otp.Digits = DigitsEight)
    (_ht : 0 ≤ t) (_ht' : 0 ≤ t') (hmem : 2 * otp.Skew + 1 ≤ min maxLen (2 ^ 45))
    (hdiff : -(otp.Skew : Int) ≤ currentCounter t otp - currentCounter t' otp ∧
      currentCounter t otp - currentCounter t' otp ≤ otp.Skew) :
    ∃ code, GenerateCodeCustoms secret t otp = some (code, none) ∧
      ValidateCustoms maxLen code secret t' otp = some (true, none) ∧
      ValidateCustoms maxLen code secret t otp = some (true, none) := by
  obtain ⟨code, hgen, hval⟩ := validateCustom_own_code secret key
    (toUint64 (floorDivF64 t (effectivePeriod otp))) ⟨otp.Digits, otp.Algorithm⟩ hkey halg hdig
  have hc : toUint64 (floorDivF64 t (effectivePeriod otp)) = toUint64 (currentCounter t otp) := by
    unfold currentCounter
    rw [toUint64_toInt64]
  have hok : ∀ counter, ∃ b, ValidateCustom code counter secret ⟨otp.Digits, otp.Algorithm⟩
      = some (b, none) := by
    rcases validateCustom_shape code secret ⟨otp.Digits, otp.Algorithm⟩ halg with ⟨err, he⟩ | hok
    · rw [he] at hval
      simp at hval
    · exact hok
  have hwin : ∀ t'' : Int, -(otp.Skew : Int) ≤ currentCounter t otp - currentCounter t'' otp →
      currentCounter t otp - currentCounter t'' otp ≤ otp.Skew →
      ValidateCustoms maxLen code secret t'' otp = some (true, none) := by
    intro t'' h1 h2
    rw [validateCustoms_unfold maxLen code secret t'' otp hmem]
    refine ((validateCounters_ok code secret ⟨otp.Digits, otp.Algorithm⟩ hok _).2.trans
      (skew_window _ _ _)).2 ⟨currentCounter t otp - currentCounter t'' otp, h1, h2, ?_⟩
    have : currentCounter t'' otp + (currentCounter t otp - currentCounter t'' otp)
        = currentCounter t otp := by omega
    rw [this, ← hc]
    exact hval
  refine ⟨code, ?_, hwin t' hdiff.1 hdiff.2, hwin t (by omega) (by omega)⟩
  rw [generateCodeCustoms_eq]
  exact hgen

set_option maxRecDepth 100000 in
/-- Witness for C10: the lower-case secret of `TestGoogleLowerCaseSecret`, generated at
`t = 59` and validated at `t' = 89` with period 30 and skew 1. -/
theorem validateCustoms_accepts_generated_witness :
    ∃ code, GenerateCodeCustoms "qlt6vmy6svfx4bt4rpmisaiyol6hihca".toList 59
        ⟨30, 1, DigitsSix, AlgorithmSHA1⟩ = some (code, none) ∧
      ValidateCustoms (2 ^ 45) code "qlt6vmy6svfx4bt4rpmisaiyol6hihca".toList 89
        ⟨30, 1, DigitsSix, AlgorithmSHA1⟩ = some (true, none) ∧
      ValidateCustoms (2 ^ 45) code "qlt6vmy6svfx4bt4rpmisaiyol6hihca".toList 59
        ⟨30, 1, DigitsSix, AlgorithmSHA1⟩ = some (true, none) :=
  validateCustoms_accepts_generated (2 ^ 45) "qlt6vmy6svfx4bt4rpmisaiyol6hihca".toList
    [130, 231, 234, 179, 30, 149, 75, 126, 6, 124, 139, 216, 137, 1, 24, 114, 252, 116, 28, 64]
    59 89 ⟨30, 1, DigitsSix, AlgorithmSHA1⟩ (by decide) (Or.inl rfl) (Or.inl rfl)
    (by decide) (by decide) (by decide) (by decide)

/-! ## `Digits.Format` -/

theorem toDigitsCore_acc (fuel : Nat) : ∀ (n : Nat) (acc : List Char),
    Nat.toDigitsCore 10 fuel n acc = Nat.toDigitsCore 10 fuel n [] ++ acc := by
  induction fuel with
  | zero => intro n acc; simp [Nat.toDigitsCore]
  | succ fuel ih =>
    intro n acc
    simp only [Nat.toDigitsCore]
    split
    · simp
    · rw [ih (n / 10) (Nat.digitChar (n % 10) :: acc), ih (n / 10) [Nat.digitChar (n % 10)]]
      simp

theorem specZeroPadded_succ (e n : Nat) :
    specZeroPadded (e + 1) n = specZeroPadded e (n / 10) ++ [Nat.digitChar (n % 10)] := by
  unfold specZeroPadded
  rw [List.range_succ, List.map_append]
  congr 1
  · apply List.map_congr_left
    intro i hi
    have hi' := List.mem_range.1 hi
    have h1 : e + 1 - 1 - i = (e - 1 - i) + 1 := by omega
    rw [h1, Nat.pow_succ, Nat.mul_comm, Nat.div_div_eq_div_mul]
  · simp

theorem specZeroPadded_zero (e : Nat) : specZeroPadded e 0 = List.replicate e '0' := by
  induction e with
  | zero => rfl
  | succ e ih =>
    rw [specZeroPadded_succ, ih, List.replicate_succ']
    rfl

theorem specZeroPadded_small (e n : Nat) (hn : n < 10) :
    specZeroPadded (e + 1) n = List.replicate e '0' ++ [Nat.digitChar n] := by
  rw [specZeroPadded_succ, Nat.mod_eq_of_lt hn, Nat.div_eq_of_lt hn, specZeroPadded_zero]

/-- Zero padding of the decimal digits that `%d` prints, in terms of the digits of `n`. -/
theorem decimal_padded (e : Nat) : ∀ (n fuel : Nat), n < 10 ^ (e + 1) → n < fuel →
    List.replicate (e + 1 - (Nat.toDigitsCore 10 fuel n []).length) '0' ++
      Nat.toDigitsCore 10 fuel n [] = specZeroPadded (e + 1) n := by
  induction e with
  | zero =>
    intro n fuel hn hf
    obtain ⟨f, rfl⟩ : ∃ f, fuel = f + 1 := ⟨fuel - 1, by omega⟩
    have h0 : n / 10 = 0 := Nat.div_eq_of_lt (by simpa using hn)
    simp [Nat.toDigitsCore, h0, specZeroPadded]
  | succ e ih =>
    intro n fuel hn hf
    obtain ⟨f, rfl⟩ : ∃ f, fuel = f + 1 := ⟨fuel - 1, by omega⟩
    by_cases h0 : n / 10 = 0
    · have hlt : n < 10 := by omega
      rw [specZeroPadded_small _ n hlt]
      simp [Nat.toDigitsCore, h0, Nat.mod_eq_of_lt hlt]
    · have hn' : n / 10 < 10 ^ (e + 1) := by
        rw [Nat.div_lt_iff_lt_mul (by decide)]
        rw [Nat.pow_succ] at hn
        exact hn
      have hf' : n / 10 < f := by omega
      have hi := ih (n / 10) f hn' hf'
      have hlen := Nat.toDigitsCore_length 10 (by decide) f (n / 10) (e + 1) hn' (by omega)
      rw [specZeroPadded_succ, ← hi]
      simp only [Nat.toDigitsCore, h0, if_false]
      rw [toDigitsCore_acc f (n / 10) [Nat.digitChar (n % 10)]]
      simp only [List.length_append, List.length_singleton, List.append_assoc]
      congr 2
      omega

/-- C19, as stated, fails: `Format` does not reduce its argument modulo `10^d`; the value
1234567 is printed with seven characters by `DigitsSix`, and a negative value with a sign. -/
theorem format_counterexample :
    (-(2 : Int) ^ 31 ≤ 1234567 ∧ (1234567 : Int) < 2 ^ 31) ∧
      Digits.Format DigitsSix 1234567 = "1234567".toList ∧
      Digits.Format DigitsSix 1234567 ≠ specZeroPadded 6 (1234567 % 10 ^ 6) ∧
      Digits.Format DigitsSix (-5) = "-00005".toList := by
  decide

/-- C19, amended: for `d` in {6, 8} and every value `v` with `0 <= v < 10^d` (so that
`v mod 10^d = v`), `d.Format(v)` is the decimal representation of `v mod 10^d` left-padded
with `0` to exactly `d.Length()` characters. -/
theorem format_zero_padded (d : Digits) (v : Int) (hd : d = DigitsSix ∨ d = DigitsEight)
    (h0 : 0 ≤ v) (hv : v < 10 ^ d.toNat) :
    Digits.Format d v = specZeroPadded d.toNat (v.toNat % 10 ^ d.toNat) ∧
      ((Digits.Format d v).length : Int) = d.Length := by
  obtain ⟨n, rfl⟩ := Int.eq_ofNat_of_zero_le h0
  have hn : n < 10 ^ d.toNat := by exact_mod_cast hv
  obtain ⟨e, he⟩ : ∃ e, d.toNat = e + 1 := by
    rcases hd with h | h <;> rw [h]
    · exact ⟨5, rfl⟩
    · exact ⟨7, rfl⟩
  have hd0 : (0 : Int) ≤ d := by
    rcases hd with h | h <;> rw [h] <;> decide
  have hfmt : Digits.Format d (n : Int)
      = List.replicate (d.toNat - (decimal n).length) '0' ++ decimal n := by
    simp only [Digits.Format, Int.natAbs_ofNat]
    rw [if_pos hd0, if_neg (by omega)]
  have hpad := decimal_padded e n (n + 1) (by rw [← he]; exact hn) (by omega)
  have hspec : Digits.Format d (n : Int) = specZeroPadded d.toNat n := by
    rw [hfmt, he]
    exact hpad
  refine ⟨?_, ?_⟩
  · rw [Int.toNat_ofNat, Nat.mod_eq_of_lt hn]
    exact hspec
  · rw [hspec]
    simp only [specZeroPadded, List.length_map, List.length_range, Digits.Length]
    omega

/-- Witness for C19: the value 123 printed by `DigitsEight`. -/
theorem format_zero_padded_witness :
    Digits.Format DigitsEight 123 = specZeroPadded DigitsEight.toNat
        ((123 : Int).toNat % 10 ^ DigitsEight.toNat) ∧
      ((Digits.Format DigitsEight 123).length : Int) = DigitsEight.Length :=
  format_zero_padded DigitsEight 123 (Or.inr rfl) (by decide) (by decide)

/-! ## RFC 6238 reference vectors -/

set_option maxRecDepth 100000 in
/-- C20: `GenerateCodeCustoms` reproduces the RFC 6238 reference vectors with period 30 and
8 digits: for the Base32 encoding of ASCII `12345678901234567890` with SHA1, timestamp 59
gives `94287082` and timestamp 1111111109 gives `07081804`; for the 32-byte key with SHA256
timestamp 59 gives `46119246`; for the 64-byte key with SHA512 timestamp 59 gives
`90693936`. -/
theorem generateCodeCustoms_rfc6238 :
    GenerateCodeCustoms
        (StdEncoding.EncodeToString (GoString.bytes "12345678901234567890".toList)) 59
        ⟨30, 1, DigitsEight, AlgorithmSHA1⟩ = some ("94287082".toList, none) ∧
      GenerateCodeCustoms
        (StdEncoding.EncodeToString (GoString.bytes "12345678901234567890".toList)) 1111111109
        ⟨30, 1, DigitsEight, AlgorithmSHA1⟩ = some ("07081804".toList, none) ∧
      GenerateCodeCustoms
        (StdEncoding.EncodeToString (GoString.bytes "12345678901234567890123456789012".toList))
        59 ⟨30, 1, DigitsEight, AlgorithmSHA256⟩ = some ("46119246".toList, none) ∧
      GenerateCodeCustoms
        (StdEncoding.EncodeToString (GoString.bytes
          "1234567890123456789012345678901234567890123456789012345678901234".toList))
        59 ⟨30, 1, DigitsEight, AlgorithmSHA512⟩ = some ("90693936".toList, none) := by
  decide!

/-! ## Keys: the accessors -/

theorem parseUint_cutoff : (2 ^ 64 - 1) / 10 + 1 = 1844674407370955162 := by norm_num

theorem parseUintLoop_digit (a c : Nat) (cs : List Nat) (hd : 48 ≤ c ∧ c ≤ 57) (ha : a < 10) :
    parseUintLoop a (c :: cs) = parseUintLoop (a * 10 + (c - 48)) cs := by
  rw [parseUintLoop, if_pos hd, parseUint_cutoff, if_neg (by omega), if_neg]
  have : (2 : Nat) ^ 64 - 1 = 18446744073709551615 := by norm_num
  omega

theorem parseUintLoop_ge : ∀ (s : List Nat) (a r : Nat), parseUintLoop a s = some r → a ≤ r := by
  intro s
  induction s with
  | nil =>
    intro a r h
    simp only [parseUintLoop, Option.some.injEq] at h
    omega
  | cons c cs ih =>
    intro a r h
    rw [parseUintLoop] at h
    split at h
    · split at h
      · exact absurd h (by simp)
      · split at h
        · exact absurd h (by simp)
        · have := ih _ _ h
          omega
    · exact absurd h (by simp)

theorem parseUintLoop_ge10 (c : Nat) (cs : List Nat) (a r : Nat)
    (h : parseUintLoop a (c :: cs) = some r) : 10 * a ≤ r := by
  rw [parseUintLoop] at h
  split at h
  · split at h
    · exact absurd h (by simp)
    · split at h
      · exact absurd h (by simp)
      · have := parseUintLoop_ge _ _ _ h
        omega
  · exact absurd h (by simp)

theorem zeros_eight_cons (c : Nat) (cs : List Nat) :
    (∃ n, c :: cs = List.replicate n 48 ++ [56]) ↔
      (c = 56 ∧ cs = []) ∨ (c = 48 ∧ ∃ n, cs = List.replicate n 48 ++ [56]) := by
  constructor
  · rintro ⟨n, h⟩
    cases n with
    | zero =>
      simp only [List.replicate_zero, List.nil_append, List.cons.injEq] at h
      exact Or.inl h
    | succ n =>
      simp only [List.replicate_succ, List.cons_append, List.cons.injEq] at h
      exact Or.inr ⟨h.1, n, h.2⟩
  · rintro (⟨rfl, rfl⟩ | ⟨rfl, n, rfl⟩)
    · exact ⟨0, rfl⟩
    · exact ⟨n + 1, rfl⟩

theorem parseUintLoop_eight : ∀ (s : List Nat),
    (parseUintLoop 0 s = some 8 ↔ ∃ n, s = List.replicate n 48 ++ [56]) := by
  intro s
  induction s with
  | nil =>
    constructor
    · intro h
      simp [parseUintLoop] at h
    · rintro ⟨n, h⟩
      cases n <;> simp at h
  | cons c cs ih =>
    rw [zeros_eight_cons]
    by_cases hd : 48 ≤ c ∧ c ≤ 57
    · rw [parseUintLoop_digit 0 c cs hd (by omega)]
      by_cases h0 : c = 48
      · subst h0
        simp only [Nat.zero_mul, Nat.sub_self, Nat.add_zero]
        rw [ih]
        simp
      · by_cases h8 : c = 56
        · subst h8
          have e : 0 * 10 + (56 - 48) = 8 := by norm_num
          rw [e]
          cases cs with
          | nil => simp [parseUintLoop]
          | cons d ds =>
            constructor
            · intro h
              have := parseUintLoop_ge10 _ _ _ _ h
              omega
            · rintro (⟨_, h⟩ | ⟨h, _⟩)
              · exact absurd h (by simp)
              · omega
        · constructor
          · intro h
            cases cs with
            | nil =>
              simp only [parseUintLoop, Option.some.injEq] at h
              omega
            | cons d ds =>
              have := parseUintLoop_ge10 _ _ _ _ h
              omega
          · rintro (⟨h, _⟩ | ⟨h, _⟩)
            · exact absurd h h8
            · exact absurd h h0
    · constructor
      · intro h
        rw [parseUintLoop, if_neg hd] at h
        exact absurd h (by simp)
      · rintro (⟨h, _⟩ | ⟨h, _⟩) <;> omega

theorem parseUint_eight (s : List Nat) :
    ParseUint s = some 8 ↔ ∃ n, s = List.replicate n 48 ++ [56] := by
  unfold ParseUint
  split
  · rename_i h
    subst h
    constructor
    · intro h
      exact absurd h (by simp)
    · rintro ⟨n, h⟩
      cases n <;> simp at h
  · exact parseUintLoop_eight s

/-- C14, counterexample: the URI `otpauth://totp/x?digits=08` is accepted, the value of its
`digits` parameter is `08`, which is not the literal `8`, and `Digits()` returns 8. -/
theorem key_digits_counterexample :
    (NewKeyFromURL "otpauth://totp/x?digits=08".toList).2 = none ∧
      (NewKeyFromURL "otpauth://totp/x?digits=08".toList).1.map
        (fun k => k.url.Query.Get (str "digits")) = some (str "08") ∧
      str "08" ≠ str "8" ∧
      (NewKeyFromURL "otpauth://totp/x?digits=08".toList).1.map Key.Digits =
        some DigitsEight := by
  decide

/-- C14, amended: `Digits()` returns 8 exactly when the value of the `digits` query
parameter is the digit `8` preceded by zero or more digits `0` (`8`, `08`, `008`, ...), and
returns 6 for every other value. -/
theorem key_digits (k : Key) :
    (k.Digits = DigitsEight ↔
      ∃ n, k.url.Query.Get (str "digits") = List.replicate n 48 ++ [56]) ∧
    (k.Digits ≠ DigitsEight → k.Digits = DigitsSix) := by
  rw [← parseUint_eight]
  unfold Key.Digits
  cases h : ParseUint (k.url.Query.Get (str "digits")) with
  | none => simp [DigitsSix, DigitsEight]
  | some m =>
    by_cases hm : m = 8
    · simp [hm]
    · simp [hm, DigitsSix, DigitsEight]

theorem indexFrom_byte (c : Nat) : ∀ (s : List Nat) (i : Nat),
    indexFrom [c] i s =
      if c ∈ s then ((i + (s.takeWhile (· != c)).length : Nat) : Int) else -1 := by
  intro s
  induction s with
  | nil => intro i; simp [indexFrom]
  | cons d ds ih =>
    intro i
    by_cases h : c = d
    · subst h
      simp [indexFrom, List.isPrefixOf]
    · have h' : ¬ d = c := fun e => h e.symm
      rw [indexFrom, ih]
      simp only [List.isPrefixOf, beq_iff_eq, Bool.and_true, h, if_false, List.mem_cons, false_or]
      split
      · rw [List.takeWhile_cons_of_pos (by simpa using h')]
        simp only [List.length_cons]
        congr 1
        omega
      · rfl

theorem index_byte (c : Nat) (s : List Nat) :
    Index s [c] = if c ∈ s then (((s.takeWhile (· != c)).length : Nat) : Int) else -1 := by
  unfold Index
  rw [indexFrom_byte]
  simp

theorem take_takeWhile (p : Nat → Bool) (l : List Nat) :
    l.take (l.takeWhile p).length = l.takeWhile p := by
  induction l with
  | nil => rfl
  | cons a as ih =>
    by_cases h : p a = true
    · rw [List.takeWhile_cons_of_pos h, List.length_cons, List.take_succ_cons, ih]
    · rw [List.takeWhile_cons_of_neg h]
      rfl

theorem drop_takeWhile (p : Nat → Bool) (l : List Nat) :
    l.drop (l.takeWhile p).length = l.dropWhile p := by
  induction l with
  | nil => rfl
  | cons a as ih =>
    by_cases h : p a = true
    · rw [List.takeWhile_cons_of_pos h, List.dropWhile_cons_of_pos h, List.length_cons,
        List.drop_succ_cons, ih]
    · rw [List.takeWhile_cons_of_neg h, List.dropWhile_cons_of_neg h]
      rfl

theorem trimPrefix_slash (p : List Nat) : TrimPrefix p (str "/") = specLabel p := by
  have e : str "/" = [47] := by decide
  rw [e]
  cases p with
  | nil => rfl
  | cons c cs =>
    by_cases h : c = 47
    · subst h
      simp [TrimPrefix, HasPrefix, List.isPrefixOf, specLabel]
    · have h' : ¬ 47 = c := fun e => h e.symm
      simp [TrimPrefix, HasPrefix, List.isPrefixOf, specLabel, h, h']

theorem key_accountName_eq (k : Key) :
    k.AccountName =
      if 58 ∈ specLabel k.url.Path then afterFirstColon (specLabel k.url.Path)
      else specLabel k.url.Path := by
  have e : str ":" = [58] := by decide
  unfold Key.AccountName
  simp only [trimPrefix_slash, e, index_byte]
  split
  · rename_i h
    have hne : ¬ (((List.takeWhile (· != 58) (specLabel k.url.Path)).length : Nat) : Int) = -1 := by
      omega
    rw [if_neg hne]
    unfold afterFirstColon
    have hd : ((((List.takeWhile (· != 58) (specLabel k.url.Path)).length : Nat) : Int) + 1).toNat =
        (List.takeWhile (· != 58) (specLabel k.url.Path)).length + 1 := by omega
    rw [hd, ← List.drop_drop]
    rw [drop_takeWhile]
  · simp

theorem key_issuer_eq (k : Key) :
    k.Issuer =
      if k.url.Query.Get (str "issuer") ≠ [] then k.url.Query.Get (str "issuer")
      else if 58 ∈ specLabel k.url.Path then beforeFirstColon (specLabel k.url.Path)
      else [] := by
  have e : str ":" = [58] := by decide
  unfold Key.Issuer
  simp only [trimPrefix_slash, e, index_byte]
  split
  · rfl
  · split
    · rename_i h
      have hne : ¬ (((List.takeWhile (· != 58) (specLabel k.url.Path)).length : Nat) : Int) = -1 := by
        omega
      rw [if_neg hne]
      unfold beforeFirstColon
      rw [Int.toNat_ofNat]
      exact take_takeWhile _ _
    · simp

/-- C18: with `L` the label of a key (its path with one leading `/` removed),
`AccountName()` is the part of `L` after its first `:`, or all of `L` when `L` has no `:`;
`Issuer()` is the `issuer` query parameter when that is not empty, otherwise the part of
`L` before its first `:`, otherwise the empty string. Hence, with no issuer parameter, a
label without a colon gives an empty issuer and the whole label as account name, and a
label `X:` gives issuer `X` and an empty account name. -/
theorem key_label (k : Key) :
    (k.AccountName =
      if 58 ∈ specLabel k.url.Path then afterFirstColon (specLabel k.url.Path)
      else specLabel k.url.Path) ∧
    (k.Issuer =
      if k.url.Query.Get (str "issuer") ≠ [] then k.url.Query.Get (str "issuer")
      else if 58 ∈ specLabel k.url.Path then beforeFirstColon (specLabel k.url.Path)
      else []) ∧
    (k.url.Query.Get (str "issuer") = [] → 58 ∉ specLabel k.url.Path →
      k.Issuer = [] ∧ k.AccountName = specLabel k.url.Path) ∧
    (∀ X, k.url.Query.Get (str "issuer") = [] → 58 ∉ X → specLabel k.url.Path = X ++ [58] →
      k.Issuer = X ∧ k.AccountName = []) := by
  refine ⟨key_accountName_eq k, key_issuer_eq k, ?_, ?_⟩
  · intro hq hL
    rw [key_accountName_eq, key_issuer_eq]
    simp [hq, hL]
  · intro X hq hX hL
    rw [key_accountName_eq, key_issuer_eq, hL]
    have hX' : ∀ x ∈ X, (x != 58) = true := by
      intro x hx
      have : x ≠ 58 := fun e => hX (e ▸ hx)
      simpa using this
    have h1 : List.takeWhile (· != 58) (X ++ [58]) = X := by
      rw [List.takeWhile_append_of_pos hX']
      simp
    have h2 : List.dropWhile (· != 58) (X ++ [58]) = [58] := by
      rw [List.dropWhile_append_of_pos hX']
      simp
    simp [hq, beforeFirstColon, afterFirstColon, h1, h2]

/-! ## The factories: missing fields -/

/-- C11: `Generate` and `Generates` return `(nil, ErrGenerateMissingIssuer)` when the issuer
is empty, and `(nil, ErrGenerateMissingAccountName)` when the issuer is not empty and the
account name is, whatever the other options and the random source are. -/
theorem generate_missing_field (randReader : Reader) (otp : GenerateOtp)
    (otps : GeneratesOtp) :
    (otp.Issuer = [] →
      Generate randReader otp = some (none, some (GoError.Otp ErrGenerateMissingIssuer))) ∧
    (otp.Issuer ≠ [] → otp.AccountName = [] →
      Generate randReader otp =
        some (none, some (GoError.Otp ErrGenerateMissingAccountName))) ∧
    (otps.Issuer = [] →
      Generates randReader otps = some (none, some (GoError.Otp ErrGenerateMissingIssuer))) ∧
    (otps.Issuer ≠ [] → otps.AccountName = [] →
      Generates randReader otps =
        some (none, some (GoError.Otp ErrGenerateMissingAccountName))) := by
  refine ⟨?_, ?_, ?_, ?_⟩
  · intro h
    simp [Generate, h]
  · intro h1 h2
    simp [Generate, h1, h2]
  · intro h
    simp [Generates, h]
  · intro h1 h2
    simp [Generates, h1, h2]

/-! ## Letter case of the algorithm name -/

theorem toNat_ofNat_cases (n : Nat) : (Char.ofNat n).toNat = n ∨ (Char.ofNat n).toNat = 0 := by
  by_cases h : n.isValidChar
  · left
    simp only [Char.ofNat, h, dite_true]
    rfl
  · right
    simp only [Char.ofNat, h, dite_false]
    rfl

theorem decodeRune_ascii (b : Nat) (bs : List Nat) (hb : b < 128) :
    decodeRune (b :: bs) = (b, 1) := by
  simp [decodeRune, hb]

theorem decodeRune_small (b : Nat) (bs : List Nat) (h : (decodeRune (b :: bs)).1 < 128) :
    b < 128 := by
  by_contra hb
  revert h
  unfold decodeRune
  simp only [if_neg hb]
  repeat' split
  all_goals simp only [Bool.and_eq_true, Bool.or_eq_true, decide_eq_true_eq, bne_iff_ne, ne_eq,
    not_lt] at *
  all_goals omega

theorem utf8Decode_ascii : ∀ (v : List Nat) (fuel : Nat), v.length ≤ fuel →
    (∀ b ∈ v, b < 128) → utf8DecodeFuel fuel v = v.map Char.ofNat := by
  intro v
  induction v with
  | nil =>
    intro fuel _ _
    cases fuel <;> rfl
  | cons b bs ih =>
    intro fuel hf hv
    obtain ⟨f, rfl⟩ : ∃ f, fuel = f + 1 := ⟨fuel - 1, by simp at hf; omega⟩
    have hb := hv b (List.mem_cons_self _ _)
    simp only [utf8DecodeFuel, decodeRune_ascii b bs hb, List.drop_succ_cons, List.drop_zero,
      List.map_cons]
    rw [ih f (by simpa using hf) (fun x hx => hv x (List.mem_cons_of_mem _ hx))]

theorem lower_ascii_table :
    ∀ n, n < 128 → unicodeToLower (Char.ofNat n) = Char.ofNat (asciiFold n) := by
  decide

theorem lower_safe (c t : Char) (ht : safeLower t) (h : unicodeToLower c = t) :
    c.toNat < 128 ∧ c.toNat ≠ 0 ∧ asciiFold c.toNat = t.toNat := by
  have hA : ('A' : Char).toNat = 65 := rfl
  have hZ : ('Z' : Char).toNat = 90 := rfl
  unfold safeLower at ht
  unfold unicodeToLower at h
  split_ifs at h with h1 h2 h3
  · rw [char_le_iff, char_le_iff, hA, hZ] at h1
    have ht' : t.toNat = c.toNat + 32 := by
      rcases toNat_ofNat_cases (c.toNat + 32) with e | e
      · rw [← h, e]
      · rw [h] at e
        omega
    refine ⟨by omega, by omega, ?_⟩
    unfold asciiFold
    rw [if_pos h1, ht']
  · have : t.toNat = 107 := by rw [← h]; rfl
    omega
  · have : t.toNat = 105 := by rw [← h]; rfl
    omega
  · subst h
    refine ⟨by omega, by omega, ?_⟩
    unfold asciiFold
    rw [if_neg (by omega)]

theorem caseMix_of_lower : ∀ (v : List Nat) (fuel : Nat) (t : GoString), v.length ≤ fuel →
    (utf8DecodeFuel fuel v).map unicodeToLower = t → (∀ c ∈ t, safeLower c) →
    v.map asciiFold = t.map Char.toNat := by
  intro v
  induction v with
  | nil =>
    intro fuel t _ h _
    cases fuel <;> (simp only [utf8DecodeFuel, List.map_nil] at h; subst h; rfl)
  | cons b bs ih =>
    intro fuel t hf h ht
    obtain ⟨f, rfl⟩ : ∃ f, fuel = f + 1 := ⟨fuel - 1, by simp at hf; omega⟩
    simp only [utf8DecodeFuel, List.map_cons] at h
    cases t with
    | nil => exact absurd h (by simp)
    | cons t0 ts =>
      rw [List.cons.injEq] at h
      obtain ⟨h0, hs⟩ := h
      have hl := lower_safe _ _ (ht t0 (List.mem_cons_self _ _)) h0
      have hr : (Char.ofNat (decodeRune (b :: bs)).1).toNat = (decodeRune (b :: bs)).1 := by
        rcases toNat_ofNat_cases (decodeRune (b :: bs)).1 with e | e
        · exact e
        · exact absurd e hl.2.1
      have hb : b < 128 := decodeRune_small b bs (by rw [← hr]; exact hl.1)
      rw [decodeRune_ascii b bs hb] at hs hr hl
      simp only [List.drop_succ_cons, List.drop_zero] at hs
      rw [hr] at hl
      rw [List.map_cons, List.map_cons, hl.2.2,
        ih f ts (by simpa using hf) hs (fun x hx => ht x (List.mem_cons_of_mem _ hx))]

theorem asciiFold_ge (b : Nat) : b ≤ asciiFold b := by
  unfold asciiFold
  split <;> omega

theorem toLower_of_caseMix (name v : List Nat) (hn : ∀ b ∈ name, b < 128)
    (h : caseMix name v) : ToLower v = (name.map asciiFold).map Char.ofNat := by
  unfold caseMix at h
  have hv : ∀ b ∈ v, b < 128 := by
    intro b hb
    have h1 : asciiFold b ∈ name.map asciiFold := by
      rw [← h]
      exact List.mem_map_of_mem _ hb
    obtain ⟨a, ha, e⟩ := List.mem_map.1 h1
    have h2 := hn a ha
    have h3 := asciiFold_ge b
    have h4 : asciiFold a < 128 := by
      unfold asciiFold
      split <;> omega
    omega
  unfold ToLower utf8Decode
  rw [utf8Decode_ascii v _ (le_refl _) hv, ← h, List.map_map, List.map_map]
  apply List.map_congr_left
  intro b hb
  exact lower_ascii_table b (hv b hb)

theorem toLower_iff (name : List Nat) (t : GoString) (v : List Nat)
    (hn : ∀ b ∈ name, b < 128) (ht : ∀ c ∈ t, safeLower c)
    (e1 : (name.map asciiFold).map Char.ofNat = t)
    (e2 : t.map Char.toNat = name.map asciiFold) :
    ToLower v = t ↔ caseMix name v := by
  constructor
  · intro h
    unfold caseMix
    rw [← e2]
    exact caseMix_of_lower v _ t (le_refl _) h ht
  · intro h
    rw [toLower_of_caseMix name v hn h, e1]

theorem toLower_md5 (v : List Nat) : ToLower v = "md5".toList ↔ caseMix (str "MD5") v :=
  toLower_iff _ _ v (by decide) (by decide) (by decide) (by decide)

theorem toLower_sha256 (v : List Nat) :
    ToLower v = "sha256".toList ↔ caseMix (str "SHA256") v :=
  toLower_iff _ _ v (by decide) (by decide) (by decide) (by decide)

theorem toLower_sha512 (v : List Nat) :
    ToLower v = "sha512".toList ↔ caseMix (str "SHA512") v :=
  toLower_iff _ _ v (by decide) (by decide) (by decide) (by decide)

theorem toLower_sha1 (v : List Nat) : ToLower v = "sha1".toList ↔ caseMix (str "SHA1") v :=
  toLower_iff _ _ v (by decide) (by decide) (by decide) (by decide)

/-- C15: `Algorithm.String()` returns `SHA1`, `SHA256`, `SHA512`, `MD5` for the four
algorithms, and `Key.Algorithm()` inverts it without regard to case: a key whose
`algorithm` query value is the name of `a` in any mix of upper and lower case has
`Algorithm() = a`, and a key with any other value has `Algorithm() = AlgorithmSHA1`. -/
theorem key_algorithm (k : Key) :
    Algorithm.String AlgorithmSHA1 = some "SHA1".toList ∧
    Algorithm.String AlgorithmSHA256 = some "SHA256".toList ∧
    Algorithm.String AlgorithmSHA512 = some "SHA512".toList ∧
    Algorithm.String AlgorithmMD5 = some "MD5".toList ∧
    (∀ a name, Algorithm.String a = some name →
      caseMix (GoString.bytes name) (k.url.Query.Get (str "algorithm")) → k.Algorithm = a) ∧
    ((∀ a name, Algorithm.String a = some name →
        ¬ caseMix (GoString.bytes name) (k.url.Query.Get (str "algorithm"))) →
      k.Algorithm = AlgorithmSHA1) := by
  refine ⟨rfl, rfl, rfl, rfl, ?_, ?_⟩
  · intro a name hs hc
    unfold Algorithm.String at hs
    unfold Key.Algorithm
    simp only []
    split_ifs at hs with h1 h2 h3 h4
    · obtain rfl := Option.some.inj hs
      have h := (toLower_sha1 _).2 hc
      rw [h, h1]
      decide
    · obtain rfl := Option.some.inj hs
      have h := (toLower_sha256 _).2 hc
      rw [h, h2]
      decide
    · obtain rfl := Option.some.inj hs
      have h := (toLower_sha512 _).2 hc
      rw [h, h3]
      decide
    · obtain rfl := Option.some.inj hs
      have h := (toLower_md5 _).2 hc
      rw [h, h4]
      decide
  · intro h
    unfold Key.Algorithm
    simp only []
    have n1 := h AlgorithmMD5 _ rfl
    have n2 := h AlgorithmSHA256 _ rfl
    have n3 := h AlgorithmSHA512 _ rfl
    rw [if_neg (fun e => n1 ((toLower_md5 _).1 e)), if_neg (fun e => n2 ((toLower_sha256 _).1 e)),
      if_neg (fun e => n3 ((toLower_sha512 _).1 e))]

/-! ## Escaping followed by unescaping -/

theorem char_toNat_lt (c : Char) : c.toNat < 1114112 := by
  have h := c.valid
  have e : c.val.toNat = c.toNat := rfl
  rcases h with h | h
  · have : c.val.toNat < 55296 := h
    omega
  · have : c.val.toNat < 1114112 := h.2
    omega

theorem bytes_lt (s : GoString) : ∀ b ∈ GoString.bytes s, b < 256 := by
  intro b hb
  unfold GoString.bytes at hb
  obtain ⟨c, _, hc⟩ := List.mem_flatMap.1 hb
  have hlt := char_toNat_lt c
  unfold utf8Char at hc
  simp only [] at hc
  split_ifs at hc <;> simp only [List.mem_cons, List.mem_singleton, List.not_mem_nil, or_false] at hc <;>
    omega

set_option maxRecDepth 100000 in
theorem escapeByte_path_table : ∀ c, c < 256 →
    (∀ b ∈ escapeByte encodePath c, pathByte b = true) ∧
    ((escapeByte encodePath c = [37, upperhex (c / 16), upperhex (c % 16)] ∧
        ishex (upperhex (c / 16)) = true ∧ ishex (upperhex (c % 16)) = true ∧
        unhex (upperhex (c / 16)) * 16 + unhex (upperhex (c % 16)) = c) ∨
      (escapeByte encodePath c = [c] ∧ c ≠ 37)) := by
  decide

set_option maxRecDepth 100000 in
theorem escapeByte_query_table : ∀ c, c < 256 →
    (∀ b ∈ escapeByte encodeQueryComponent c, queryByte b = true) ∧
    ((escapeByte encodeQueryComponent c = [43] ∧ c = 32) ∨
      (escapeByte encodeQueryComponent c = [37, upperhex (c / 16), upperhex (c % 16)] ∧
        ishex (upperhex (c / 16)) = true ∧ ishex (upperhex (c % 16)) = true ∧
        unhex (upperhex (c / 16)) * 16 + unhex (upperhex (c % 16)) = c) ∨
      (escapeByte encodeQueryComponent c = [c] ∧ c ≠ 37 ∧ c ≠ 43)) := by
  decide

theorem unescape_cons (c : Nat) (rest : List Nat) (mode : EscapeMode) :
    unescape (c :: rest) mode =
      if c = 37 then
        match rest with
        | h1 :: h2 :: rest2 =>
          if ishex h1 && ishex h2 then
            if mode = encodeHost ∧ unhex h1 < 8 ∧ ¬ (h1 = 50 ∧ h2 = 53) then none
            else if mode = encodeZone ∧ ¬ (h1 = 50 ∧ h2 = 53) ∧ unhex h1 * 16 + unhex h2 ≠ 32 ∧
                shouldEscape (unhex h1 * 16 + unhex h2) encodeHost then none
            else (unescape rest2 mode).map ((unhex h1 * 16 + unhex h2) :: ·)
          else none
        | _ => none
      else if c = 43 then
        (unescape rest mode).map ((if mode = encodeQueryComponent then 32 else 43) :: ·)
      else if (mode = encodeHost ∨ mode = encodeZone) ∧ c < 128 ∧ shouldEscape c encodeHost then
        none
      else (unescape rest mode).map (c :: ·) := by
  rcases rest with _ | ⟨x, _ | ⟨y, t⟩⟩ <;> rfl

theorem unescape_pct (mode : EscapeMode) (hm : mode = encodePath ∨ mode = encodeQueryComponent)
    (h1 h2 : Nat) (rest : List Nat) (hh1 : ishex h1 = true) (hh2 : ishex h2 = true) :
    unescape (37 :: h1 :: h2 :: rest) mode =
      (unescape rest mode).map ((unhex h1 * 16 + unhex h2) :: ·) := by
  rw [unescape_cons]
  rcases hm with rfl | rfl <;> simp [hh1, hh2]

theorem unescape_plain_path (c : Nat) (rest : List Nat) (hc : c ≠ 37) :
    unescape (c :: rest) encodePath = (unescape rest encodePath).map (c :: ·) := by
  rw [unescape_cons, if_neg hc]
  by_cases hp : c = 43
  · subst hp
    simp
  · simp [hp]

theorem unescape_plain_query (c : Nat) (rest : List Nat) (hc : c ≠ 37) (hp : c ≠ 43) :
    unescape (c :: rest) encodeQueryComponent =
      (unescape rest encodeQueryComponent).map (c :: ·) := by
  rw [unescape_cons, if_neg hc, if_neg hp]
  simp

theorem unescape_plus_query (rest : List Nat) :
    unescape (43 :: rest) encodeQueryComponent =
      (unescape rest encodeQueryComponent).map (32 :: ·) := by
  rw [unescape_cons]
  simp

theorem escape_cons (c : Nat) (cs : List Nat) (mode : EscapeMode) :
    escape (c :: cs) mode = escapeByte mode c ++ escape cs mode := by
  simp [escape]

theorem unescape_escape_path (s : List Nat) (hs : ∀ b ∈ s, b < 256) :
    unescape (escape s encodePath) encodePath = some s := by
  induction s with
  | nil => rfl
  | cons c cs ih =>
    have ih' := ih (fun x hx => hs x (List.mem_cons_of_mem _ hx))
    rw [escape_cons]
    rcases (escapeByte_path_table c (hs c (List.mem_cons_self _ _))).2 with
      ⟨e, h1, h2, hv⟩ | ⟨e, hc⟩
    · rw [e]
      simp only [List.cons_append, List.nil_append]
      rw [unescape_pct _ (Or.inl rfl) _ _ _ h1 h2, ih', hv]
      rfl
    · rw [e]
      simp only [List.cons_append, List.nil_append]
      rw [unescape_plain_path _ _ hc, ih']
      rfl

theorem unescape_escape_query (s : List Nat) (hs : ∀ b ∈ s, b < 256) :
    QueryUnescape (QueryEscape s) = some s := by
  unfold QueryUnescape QueryEscape
  induction s with
  | nil => rfl
  | cons c cs ih =>
    have ih' := ih (fun x hx => hs x (List.mem_cons_of_mem _ hx))
    rw [escape_cons]
    rcases (escapeByte_query_table c (hs c (List.mem_cons_self _ _))).2 with
      ⟨e, hc⟩ | ⟨e, h1, h2, hv⟩ | ⟨e, hc, hp⟩
    · rw [e]
      simp only [List.cons_append, List.nil_append]
      rw [unescape_plus_query, ih', hc]
      rfl
    · rw [e]
      simp only [List.cons_append, List.nil_append]
      rw [unescape_pct _ (Or.inr rfl) _ _ _ h1 h2, ih', hv]
      rfl
    · rw [e]
      simp only [List.cons_append, List.nil_append]
      rw [unescape_plain_query _ _ hc hp, ih']
      rfl

theorem escape_pathByte (s : List Nat) (hs : ∀ b ∈ s, b < 256) :
    ∀ b ∈ escape s encodePath, pathByte b = true := by
  intro b hb
  unfold escape at hb
  obtain ⟨c, hc, hbc⟩ := List.mem_flatMap.1 hb
  exact (escapeByte_path_table c (hs c hc)).1 b hbc

theorem escape_queryByte (s : List Nat) (hs : ∀ b ∈ s, b < 256) :
    ∀ b ∈ QueryEscape s, queryByte b = true := by
  intro b hb
  unfold QueryEscape escape at hb
  obtain ⟨c, hc, hbc⟩ := List.mem_flatMap.1 hb
  exact (escapeByte_query_table c (hs c hc)).1 b hbc

/-! ## Splitting a URL at a byte -/

theorem index_append (c : Nat) (a b : List Nat) (h : c ∉ a) :
    Index (a ++ c :: b) [c] = (a.length : Int) := by
  rw [index_byte, if_pos (by simp)]
  have ha : ∀ x ∈ a, (x != c) = true := by
    intro x hx
    have : x ≠ c := fun e => h (e ▸ hx)
    simpa using this
  rw [List.takeWhile_append_of_pos ha]
  simp

theorem index_none (c : Nat) (s : List Nat) (h : c ∉ s) : Index s [c] = -1 := by
  rw [index_byte, if_neg h]

theorem cut_append (c : Nat) (a b : List Nat) (h : c ∉ a) :
    Cut (a ++ c :: b) [c] = (a, b, true) := by
  unfold Cut
  rw [index_append c a b h]
  simp

theorem cut_none (c : Nat) (s : List Nat) (h : c ∉ s) : Cut s [c] = (s, [], false) := by
  unfold Cut
  rw [index_none c s h]
  rfl

theorem contains_byte (c : Nat) (s : List Nat) : Contains s [c] = decide (c ∈ s) := by
  unfold Contains
  rw [index_byte]
  by_cases h : c ∈ s
  · simp [h]
  · simp [h]

theorem hasSuffix_append (c : Nat) (a q : List Nat) (hq : q ≠ []) (h : c ∉ q) :
    HasSuffix (a ++ q) [c] = false := by
  unfold HasSuffix
  obtain ⟨x, xs, e⟩ : ∃ x xs, q.reverse = x :: xs := by
    cases hr : q.reverse with
    | nil => exact absurd (List.reverse_eq_nil_iff.1 hr) hq
    | cons x xs => exact ⟨x, xs, rfl⟩
  have hx : x ≠ c := by
    intro e'
    apply h
    rw [← e', ← List.mem_reverse, e]
    exact List.mem_cons_self _ _
  have hx' : ¬ c = x := fun e' => hx e'.symm
  rw [List.reverse_append, e]
  simp [List.isPrefixOf, hx']

theorem pathByte_facts (b : Nat) (h : pathByte b = true) :
    33 ≤ b ∧ b < 127 ∧ b ≠ 35 ∧ b ≠ 63 := by
  simpa [pathByte, and_assoc] using h

theorem not_ctl (s : List Nat) (hs : ∀ b ∈ s, pathByte b = true) :
    stringContainsCTLByte s = false := by
  unfold stringContainsCTLByte
  rw [List.any_eq_false]
  intro b hb
  have := pathByte_facts b (hs b hb)
  simp
  omega

theorem getScheme_otpauth (rest : List Nat) :
    getScheme (str "otpauth" ++ 58 :: rest) = some (str "otpauth", rest) := by
  have e : str "otpauth" = [111, 116, 112, 97, 117, 116, 104] := by decide
  rw [e]
  simp [getScheme, getSchemeLoop]

theorem parseAuthority_hotp : parseAuthority (str "hotp") = some (none, str "hotp") := by
  decide

theorem parseAuthority_totp : parseAuthority (str "totp") = some (none, str "totp") := by
  decide

theorem toLower_otpauth : GoString.bytes (ToLower (str "otpauth")) = str "otpauth" := by
  decide

theorem parse_factory (host ep q path : List Nat)
    (hhost : host = str "hotp" ∨ host = str "totp")
    (hep : ∀ b ∈ ep, pathByte b = true) (hq : ∀ b ∈ q, pathByte b = true) (hq0 : q ≠ [])
    (hun : unescape (47 :: ep) encodePath = some path)
    (hes : escape path encodePath = 47 :: ep) :
    Parse (str "otpauth" ++ 58 :: 47 :: 47 :: (host ++ 47 :: (ep ++ 63 :: q))) =
      some { Scheme := str "otpauth", Host := host, Path := path, RawQuery := q } := by
  have hh : ∀ b ∈ host, pathByte b = true ∧ b ≠ 47 := by
    rcases hhost with rfl | rfl <;> decide
  have hauth : parseAuthority host = some (none, host) := by
    rcases hhost with rfl | rfl
    · exact parseAuthority_hotp
    · exact parseAuthority_totp
  have hl : host.length = 4 := by
    rcases hhost with rfl | rfl <;> rfl
  have hall : ∀ b ∈ str "otpauth" ++ 58 :: 47 :: 47 :: (host ++ 47 :: (ep ++ 63 :: q)),
      33 ≤ b ∧ b < 127 ∧ b ≠ 35 := by
    intro b hb
    have e : str "otpauth" = [111, 116, 112, 97, 117, 116, 104] := by decide
    rw [e] at hb
    simp only [List.mem_append, List.mem_cons, List.mem_singleton, List.not_mem_nil,
      or_false] at hb
    rcases hb with h | h | h | h | h | h | h | h | h
    all_goals first
      | omega
      | (have hf := pathByte_facts b ((hh b h).1); omega)
      | (have hf := pathByte_facts b (hep b h); omega)
      | (have hf := pathByte_facts b (hq b h); omega)
  have h35 : 35 ∉ str "otpauth" ++ 58 :: 47 :: 47 :: (host ++ 47 :: (ep ++ 63 :: q)) :=
    fun hb => (hall 35 hb).2.2 rfl
  have hctl : stringContainsCTLByte
      (str "otpauth" ++ 58 :: 47 :: 47 :: (host ++ 47 :: (ep ++ 63 :: q))) = false := by
    unfold stringContainsCTLByte
    rw [List.any_eq_false]
    intro b hb
    have := hall b hb
    simp
    omega
  have hne : str "otpauth" ++ 58 :: 47 :: 47 :: (host ++ 47 :: (ep ++ 63 :: q)) ≠ [42] := by
    have e : str "otpauth" = [111, 116, 112, 97, 117, 116, 104] := by decide
    rw [e]
    simp
  have h63 : 63 ∉ 47 :: 47 :: (host ++ 47 :: ep) := by
    intro hb
    simp only [List.mem_append, List.mem_cons] at hb
    rcases hb with h | h | h | h | h
    · omega
    · omega
    · have := pathByte_facts 63 ((hh 63 h).1); omega
    · omega
    · have := pathByte_facts 63 (hep 63 h); omega
  have hq63 : 63 ∉ q := fun h => (pathByte_facts 63 (hq 63 h)).2.2.2 rfl
  have hsplit : 47 :: 47 :: (host ++ 47 :: (ep ++ 63 :: q)) =
      (47 :: 47 :: (host ++ 47 :: ep)) ++ 63 :: q := by simp
  have hsuf : HasSuffix (47 :: 47 :: (host ++ 47 :: (ep ++ 63 :: q))) [63] = false := by
    have e : 47 :: 47 :: (host ++ 47 :: (ep ++ 63 :: q)) =
        (47 :: 47 :: (host ++ 47 :: (ep ++ [63]))) ++ q := by simp
    rw [e]
    exact hasSuffix_append 63 _ q hq0 hq63
  have hcut : Cut (47 :: 47 :: (host ++ 47 :: (ep ++ 63 :: q))) [63] =
      (47 :: 47 :: (host ++ 47 :: ep), q, true) := by
    rw [hsplit]
    exact cut_append 63 _ q h63
  have h47 : 47 ∉ host := fun h => (hh 47 h).2 rfl
  have hidx : Index (host ++ 47 :: ep) [47] = Int.ofNat 4 := by
    rw [index_append 47 host ep h47, hl]
    rfl
  have htake : (host ++ 47 :: ep).take 4 = host := by
    rw [← hl]
    simp
  have hdrop : (host ++ 47 :: ep).drop 4 = 47 :: ep := by
    rw [← hl]
    simp
  have hsch : str "otpauth" ≠ [] := by decide
  have hparse : parse (str "otpauth" ++ 58 :: 47 :: 47 :: (host ++ 47 :: (ep ++ 63 :: q))) =
      some { Scheme := str "otpauth", Host := host, Path := path, RawQuery := q } := by
    unfold parse
    rw [hctl, if_neg (by simp), if_neg hne, getScheme_otpauth]
    simp only [Option.bind_eq_bind, Option.some_bind, toLower_otpauth, hsuf, hcut,
      Bool.false_and, Bool.false_eq_true, if_false]
    have hp1 : HasPrefix (47 :: 47 :: (host ++ 47 :: ep)) [47] = true := by
      simp [HasPrefix, List.isPrefixOf]
    have hp2 : HasPrefix (47 :: 47 :: (host ++ 47 :: ep)) [47, 47] = true := by
      simp [HasPrefix, List.isPrefixOf]
    simp only [hp1, hp2, Bool.not_true, Bool.false_eq_true, false_and, if_false, ne_eq, hsch,
      not_false_eq_true, true_or, true_and, if_true, List.drop_succ_cons, List.drop_zero, hidx,
      htake, hdrop, hauth, Option.some_bind, URL.setPath, hun, hes, Option.bind_eq_bind,
      Option.pure_def]
  unfold Parse
  rw [cut_none 35 _ h35]
  simp only [hparse, Option.bind_eq_bind, Option.some_bind, if_true, Option.pure_def]
/-! ## The query of a factory URL -/

theorem queryByte_facts (b : Nat) (h : queryByte b = true) :
    pathByte b = true ∧ b ≠ 38 ∧ b ≠ 59 ∧ b ≠ 61 := by
  simpa [queryByte, and_assoc] using h

theorem encodePairs_cons (p : List Nat × List Nat) (ps : List (List Nat × List Nat)) :
    encodePairs (p :: ps) =
      QueryEscape p.1 ++ 61 :: (QueryEscape p.2 ++
        (if ps = [] then [] else 38 :: encodePairs ps)) := by
  cases ps with
  | nil => simp [encodePairs]
  | cons p2 rest => simp [encodePairs]

theorem parseQuery_pair (fuel : Nat) (m : Values) (k v rest : List Nat)
    (hkb : ∀ b ∈ k, b < 256) (hvb : ∀ b ∈ v, b < 256) :
    parseQueryLoop (fuel + 1) m (QueryEscape k ++ 61 :: (QueryEscape v ++ 38 :: rest)) =
      parseQueryLoop fuel (m.Add k v) rest ∧
    parseQueryLoop (fuel + 1) m (QueryEscape k ++ 61 :: QueryEscape v) = m.Add k v := by
  have hek := escape_queryByte k hkb
  have hev := escape_queryByte v hvb
  have h38 : 38 ∉ QueryEscape k ++ 61 :: QueryEscape v := by
    intro h
    simp only [List.mem_append, List.mem_cons] at h
    rcases h with h | h | h
    · exact (queryByte_facts 38 (hek 38 h)).2.1 rfl
    · omega
    · exact (queryByte_facts 38 (hev 38 h)).2.1 rfl
  have h59 : 59 ∉ QueryEscape k ++ 61 :: QueryEscape v := by
    intro h
    simp only [List.mem_append, List.mem_cons] at h
    rcases h with h | h | h
    · exact (queryByte_facts 59 (hek 59 h)).2.2.1 rfl
    · omega
    · exact (queryByte_facts 59 (hev 59 h)).2.2.1 rfl
  have h61 : 61 ∉ QueryEscape k := fun h => (queryByte_facts 61 (hek 61 h)).2.2.2 rfl
  have hne : QueryEscape k ++ 61 :: QueryEscape v ≠ [] := by simp
  have hcut2 : Cut (QueryEscape k ++ 61 :: QueryEscape v) [61] =
      (QueryEscape k, QueryEscape v, true) := cut_append 61 _ _ h61
  have hc59 : Contains (QueryEscape k ++ 61 :: QueryEscape v) [59] = false := by
    rw [contains_byte]
    simp [h59]
  constructor
  · have hcut1 : Cut (QueryEscape k ++ 61 :: (QueryEscape v ++ 38 :: rest)) [38] =
        (QueryEscape k ++ 61 :: QueryEscape v, rest, true) := by
      have e : QueryEscape k ++ 61 :: (QueryEscape v ++ 38 :: rest) =
          (QueryEscape k ++ 61 :: QueryEscape v) ++ 38 :: rest := by simp
      rw [e]
      exact cut_append 38 _ _ h38
    rw [parseQueryLoop, if_neg (by simp)]
    simp only [hcut1, hc59, Bool.false_eq_true, if_false, if_neg hne, hcut2,
      unescape_escape_query k hkb, unescape_escape_query v hvb]
  · have hcut1 : Cut (QueryEscape k ++ 61 :: QueryEscape v) [38] =
        (QueryEscape k ++ 61 :: QueryEscape v, [], false) := cut_none 38 _ h38
    rw [parseQueryLoop, if_neg hne]
    simp only [hcut1, hc59, Bool.false_eq_true, if_false, if_neg hne, hcut2,
      unescape_escape_query k hkb, unescape_escape_query v hvb]
    cases fuel <;> simp [parseQueryLoop]

theorem parseQuery_encodePairs : ∀ (ps : List (List Nat × List Nat)) (fuel : Nat) (m : Values),
    ps.length ≤ fuel → (∀ p ∈ ps, (∀ b ∈ p.1, b < 256) ∧ ∀ b ∈ p.2, b < 256) →
    parseQueryLoop fuel m (encodePairs ps) = ps.foldl (fun m p => m.Add p.1 p.2) m := by
  intro ps
  induction ps with
  | nil =>
    intro fuel m _ _
    cases fuel <;> simp [parseQueryLoop, encodePairs]
  | cons p ps ih =>
    intro fuel m hf hp
    obtain ⟨f, rfl⟩ : ∃ f, fuel = f + 1 := ⟨fuel - 1, by simp at hf; omega⟩
    obtain ⟨h2, h3⟩ := hp p (List.mem_cons_self _ _)
    rw [encodePairs_cons, List.foldl_cons]
    by_cases hps : ps = []
    · subst hps
      simp only [if_true, List.append_nil, List.foldl_nil]
      exact (parseQuery_pair f m p.1 p.2 [] h2 h3).2
    · rw [if_neg hps, (parseQuery_pair f m p.1 p.2 _ h2 h3).1]
      exact ih f _ (by simpa using hf) (fun x hx => hp x (List.mem_cons_of_mem _ hx))

theorem encodePairs_pathByte : ∀ (ps : List (List Nat × List Nat)),
    (∀ p ∈ ps, (∀ b ∈ p.1, b < 256) ∧ ∀ b ∈ p.2, b < 256) →
    ∀ b ∈ encodePairs ps, pathByte b = true := by
  intro ps
  induction ps with
  | nil => intro _ b hb; simp [encodePairs] at hb
  | cons p ps ih =>
    intro hp b hb
    obtain ⟨h2, h3⟩ := hp p (List.mem_cons_self _ _)
    rw [encodePairs_cons] at hb
    simp only [List.mem_append, List.mem_cons] at hb
    rcases hb with h | h | h | h
    · exact (queryByte_facts b (escape_queryByte _ h2 b h)).1
    · subst h; decide
    · exact (queryByte_facts b (escape_queryByte _ h3 b h)).1
    · split at h
      · simp at h
      · rcases List.mem_cons.1 h with h | h
        · subst h; decide
        · exact ih (fun x hx => hp x (List.mem_cons_of_mem _ hx)) b h

/-! ## The key of a factory URL -/

theorem escape_host (host : List Nat) (hhost : host = str "hotp" ∨ host = str "totp") :
    escape host encodeHost = host ∧ host ≠ [] := by
  rcases hhost with rfl | rfl <;> decide

theorem escape_slash (p : List Nat) :
    escape (47 :: p) encodePath = 47 :: escape p encodePath := by
  rw [escape_cons]
  rfl

theorem string_factory (host : List Nat) (issuer account : GoString) (q : List Nat)
    (hhost : host = str "hotp" ∨ host = str "totp") (hq0 : q ≠ []) :
    (factoryURL host issuer account q).String =
      str "otpauth" ++ 58 :: 47 :: 47 :: (host ++ 47 ::
        (escape (GoString.bytes issuer ++ 58 :: GoString.bytes account) encodePath ++
          63 :: q)) := by
  obtain ⟨h1, h2⟩ := escape_host host hhost
  have e1 : str "/" = [47] := by decide
  have e2 : str ":" = [58] := by decide
  have hs : str "otpauth" ≠ [] := by decide
  unfold factoryURL URL.String URL.EscapedPath
  simp only [e1, e2, List.cons_append, List.nil_append, List.append_assoc, escape_slash, h1]
  simp [hs, h2, hq0]

theorem printable_table : ∀ b, b < 127 →
    (33 ≤ b → isSpace (Char.ofNat b) = false) ∧ (Char.ofNat b).toNat = b := by
  decide

theorem ascii_text (s : List Nat) (hs : ∀ b ∈ s, 33 ≤ b ∧ b < 127) :
    TrimSpace (utf8Decode s) = utf8Decode s ∧ GoString.bytes (utf8Decode s) = s := by
  have hd : utf8Decode s = s.map Char.ofNat :=
    utf8Decode_ascii s _ (le_refl _) (fun b hb => by have := hs b hb; omega)
  rw [hd]
  constructor
  · apply trimSpace_of_no_space
    intro c hc
    obtain ⟨b, hb, rfl⟩ := List.mem_map.1 hc
    exact (printable_table b (hs b hb).2).1 (hs b hb).1
  · rw [bytes_of_ascii, List.map_map]
    · conv_rhs => rw [← List.map_id s]
      apply List.map_congr_left
      intro b hb
      exact (printable_table b (hs b hb).2).2
    · intro c hc
      obtain ⟨b, hb, rfl⟩ := List.mem_map.1 hc
      rw [(printable_table b (hs b hb).2).2]
      have := hs b hb
      omega

theorem factory_key (host : List Nat) (issuer account : GoString) (q : List Nat)
    (hhost : host = str "hotp" ∨ host = str "totp") (hq0 : q ≠ [])
    (hq : ∀ b ∈ q, pathByte b = true) :
    NewKeyFromURL (utf8Decode (factoryURL host issuer account q).String) =
      (some ⟨utf8Decode (factoryURL host issuer account q).String,
        factoryURL host issuer account q⟩, none) ∧
    GoString.bytes (utf8Decode (factoryURL host issuer account q).String) =
      (factoryURL host issuer account q).String := by
  have hb : ∀ b ∈ GoString.bytes issuer ++ 58 :: GoString.bytes account, b < 256 := by
    intro b hb
    rcases List.mem_append.1 hb with h | h
    · exact bytes_lt _ b h
    · rcases List.mem_cons.1 h with h | h
      · omega
      · exact bytes_lt _ b h
  have hep := escape_pathByte _ hb
  have hb' : ∀ b ∈ 47 :: (GoString.bytes issuer ++ 58 :: GoString.bytes account), b < 256 := by
    intro b h
    rcases List.mem_cons.1 h with h | h
    · omega
    · exact hb b h
  have hun := unescape_escape_path _ hb'
  rw [escape_slash] at hun
  have hparse := parse_factory host _ q _ hhost hep hq hq0 hun (escape_slash _)
  have hu :
      ({ Scheme := str "otpauth"
         Host := host
         Path := 47 :: (GoString.bytes issuer ++ 58 :: GoString.bytes account)
         RawQuery := q } : URL) = factoryURL host issuer account q := by
    have e1 : str "/" = [47] := by decide
    have e2 : str ":" = [58] := by decide
    simp [factoryURL, e1, e2]
  rw [hu, ← string_factory host issuer account q hhost hq0] at hparse
  have hall : ∀ b ∈ (factoryURL host issuer account q).String, 33 ≤ b ∧ b < 127 := by
    intro b hb
    rw [string_factory host issuer account q hhost hq0] at hb
    have e : str "otpauth" = [111, 116, 112, 97, 117, 116, 104] := by decide
    have hh : ∀ b ∈ host, 33 ≤ b ∧ b < 127 := by
      rcases hhost with rfl | rfl <;> decide
    rw [e] at hb
    simp only [List.mem_append, List.mem_cons, List.mem_singleton, List.not_mem_nil,
      or_false] at hb
    rcases hb with h | h | h | h | h | h | h | h | h
    all_goals first
      | omega
      | exact hh b h
      | (have hf := pathByte_facts b (hep b h); omega)
      | (have hf := pathByte_facts b (hq b h); omega)
  obtain ⟨ht, hbytes⟩ := ascii_text _ hall
  refine ⟨?_, hbytes⟩
  unfold NewKeyFromURL
  simp only [ht, hbytes, hparse]

/-! ## The values of a factory URL -/

theorem queryEscape_keys :
    QueryEscape (str "algorithm") = str "algorithm" ∧ QueryEscape (str "digits") = str "digits" ∧
      QueryEscape (str "issuer") = str "issuer" ∧ QueryEscape (str "period") = str "period" ∧
      QueryEscape (str "secret") = str "secret" := by
  decide

theorem encode_hotp (a d i s : List Nat) :
    Values.Encode (Values.Set (Values.Set (Values.Set (Values.Set [] (str "secret") s)
      (str "issuer") i) (str "algorithm") a) (str "digits") d) =
        encodePairs (hotpPairs a d i s) := by
  have h : sortKeys (Values.Set (Values.Set (Values.Set (Values.Set [] (str "secret") s)
      (str "issuer") i) (str "algorithm") a) (str "digits") d) =
        [(str "algorithm", [a]), (str "digits", [d]), (str "issuer", [i]),
          (str "secret", [s])] := rfl
  unfold Values.Encode
  rw [h]
  simp [hotpPairs, encodePairs]

theorem encode_totp (a d i p s : List Nat) :
    Values.Encode (Values.Set (Values.Set (Values.Set (Values.Set (Values.Set []
      (str "secret") s) (str "issuer") i) (str "period") p) (str "algorithm") a)
        (str "digits") d) = encodePairs (totpPairs a d i p s) := by
  have h : sortKeys (Values.Set (Values.Set (Values.Set (Values.Set (Values.Set []
      (str "secret") s) (str "issuer") i) (str "period") p) (str "algorithm") a)
        (str "digits") d) =
        [(str "algorithm", [a]), (str "digits", [d]), (str "issuer", [i]),
          (str "period", [p]), (str "secret", [s])] := rfl
  unfold Values.Encode
  rw [h]
  simp [totpPairs, encodePairs]

theorem encodePairs_length : ∀ (ps : List (List Nat × List Nat)),
    ps.length ≤ (encodePairs ps).length + 1 := by
  intro ps
  induction ps with
  | nil => simp
  | cons p ps ih =>
    rw [encodePairs_cons]
    by_cases h : ps = []
    · subst h
      simp
    · rw [if_neg h]
      simp only [List.length_append, List.length_cons]
      omega

theorem query_factory (host : List Nat) (issuer account : GoString)
    (ps : List (List Nat × List Nat))
    (hps : ∀ p ∈ ps, (∀ b ∈ p.1, b < 256) ∧ ∀ b ∈ p.2, b < 256) :
    (factoryURL host issuer account (encodePairs ps)).Query =
      ps.foldl (fun m p => Values.Add m p.1 p.2) [] := by
  unfold URL.Query factoryURL
  exact parseQuery_encodePairs ps _ [] (encodePairs_length ps) hps

theorem get_hotp (a d i s : List Nat) :
    Values.Get ((hotpPairs a d i s).foldl (fun m p => Values.Add m p.1 p.2) []) (str "issuer") = i ∧
    Values.Get ((hotpPairs a d i s).foldl (fun m p => Values.Add m p.1 p.2) []) (str "secret") = s :=
  ⟨rfl, rfl⟩

theorem get_totp (a d i p s : List Nat) :
    Values.Get ((totpPairs a d i p s).foldl (fun m p => Values.Add m p.1 p.2) []) (str "issuer") = i ∧
    Values.Get ((totpPairs a d i p s).foldl (fun m p => Values.Add m p.1 p.2) []) (str "secret") = s :=
  ⟨rfl, rfl⟩

theorem keys_lt : (∀ b ∈ str "algorithm", b < 256) ∧ (∀ b ∈ str "digits", b < 256) ∧
    (∀ b ∈ str "issuer", b < 256) ∧ (∀ b ∈ str "period", b < 256) ∧
    (∀ b ∈ str "secret", b < 256) := by
  decide

theorem hotpPairs_lt (a d i s : GoString) :
    ∀ p ∈ hotpPairs (GoString.bytes a) (GoString.bytes d) (GoString.bytes i) (GoString.bytes s),
      (∀ b ∈ p.1, b < 256) ∧ ∀ b ∈ p.2, b < 256 := by
  intro p hp
  simp only [hotpPairs, List.mem_cons, List.mem_singleton, List.not_mem_nil, or_false] at hp
  rcases hp with rfl | rfl | rfl | rfl
  · exact ⟨keys_lt.1, bytes_lt _⟩
  · exact ⟨keys_lt.2.1, bytes_lt _⟩
  · exact ⟨keys_lt.2.2.1, bytes_lt _⟩
  · exact ⟨keys_lt.2.2.2.2, bytes_lt _⟩

theorem totpPairs_lt (a d i p s : GoString) :
    ∀ q ∈ totpPairs (GoString.bytes a) (GoString.bytes d) (GoString.bytes i) (GoString.bytes p)
        (GoString.bytes s),
      (∀ b ∈ q.1, b < 256) ∧ ∀ b ∈ q.2, b < 256 := by
  intro q hq
  simp only [totpPairs, List.mem_cons, List.mem_singleton, List.not_mem_nil, or_false] at hq
  rcases hq with rfl | rfl | rfl | rfl | rfl
  · exact ⟨keys_lt.1, bytes_lt _⟩
  · exact ⟨keys_lt.2.1, bytes_lt _⟩
  · exact ⟨keys_lt.2.2.1, bytes_lt _⟩
  · exact ⟨keys_lt.2.2.2.1, bytes_lt _⟩
  · exact ⟨keys_lt.2.2.2.2, bytes_lt _⟩

theorem encodePairs_ne_nil (p : List Nat × List Nat) (ps : List (List Nat × List Nat)) :
    encodePairs (p :: ps) ≠ [] := by
  rw [encodePairs_cons]
  simp

/-! ## The keys that the factories return -/

theorem generate_eq (randReader : Reader) (otp : GenerateOtp) (h1 : otp.Issuer ≠ [])
    (h2 : otp.AccountName ≠ []) :
    Generate randReader otp =
      match (newSecret otp.Secret (if otp.SecretSize = 0 then 10 else otp.SecretSize)
          (otp.Rand.getD randReader)).2 with
      | some err => some (none, some err)
      | none =>
        (Algorithm.String otp.Algorithm).map fun name =>
          NewKeyFromURL (utf8Decode (hotpURL randReader otp name).String) := by
  unfold Generate hotpURL GenerateOtp.secretBytes
  rw [if_neg h1, if_neg h2]
  simp only []
  rcases newSecret otp.Secret (if otp.SecretSize = 0 then 10 else otp.SecretSize)
      (otp.Rand.getD randReader) with ⟨B, _ | e⟩
  · cases Algorithm.String otp.Algorithm with
    | none => rfl
    | some name =>
      simp only [Option.bind_eq_bind, Option.some_bind, Option.map_some', encode_hotp,
        Option.pure_def]
      rfl
  · rfl

theorem generates_eq (randReader : Reader) (otp : GeneratesOtp) (h1 : otp.Issuer ≠ [])
    (h2 : otp.AccountName ≠ []) :
    Generates randReader otp =
      match (newSecret otp.Secret (if otp.SecretSize = 0 then 20 else otp.SecretSize)
          (otp.Rand.getD randReader)).2 with
      | some err => some (none, some err)
      | none =>
        (Algorithm.String otp.Algorithm).map fun name =>
          NewKeyFromURL (utf8Decode (totpURL randReader otp name).String) := by
  unfold Generates totpURL GeneratesOtp.secretBytes
  rw [if_neg h1, if_neg h2]
  simp only []
  rcases newSecret otp.Secret (if otp.SecretSize = 0 then 20 else otp.SecretSize)
      (otp.Rand.getD randReader) with ⟨B, _ | e⟩
  · cases Algorithm.String otp.Algorithm with
    | none => rfl
    | some name =>
      simp only [Option.bind_eq_bind, Option.some_bind, Option.map_some', encode_totp,
        Option.pure_def]
      rfl
  · rfl

theorem hotp_key (randReader : Reader) (otp : GenerateOtp) (name : GoString) :
    NewKeyFromURL (utf8Decode (hotpURL randReader otp name).String) =
      (some ⟨utf8Decode (hotpURL randReader otp name).String, hotpURL randReader otp name⟩,
        none) ∧
    GoString.bytes (utf8Decode (hotpURL randReader otp name).String) =
      (hotpURL randReader otp name).String :=
  factory_key _ _ _ _ (Or.inl rfl) (encodePairs_ne_nil _ _)
    (encodePairs_pathByte _ (fun p hp => hotpPairs_lt _ _ _ _ p hp))

theorem totp_key (randReader : Reader) (otp : GeneratesOtp) (name : GoString) :
    NewKeyFromURL (utf8Decode (totpURL randReader otp name).String) =
      (some ⟨utf8Decode (totpURL randReader otp name).String, totpURL randReader otp name⟩,
        none) ∧
    GoString.bytes (utf8Decode (totpURL randReader otp name).String) =
      (totpURL randReader otp name).String :=
  factory_key _ _ _ _ (Or.inr rfl) (encodePairs_ne_nil _ _)
    (encodePairs_pathByte _ (fun p hp => totpPairs_lt _ _ _ _ _ p hp))

theorem generate_inv (randReader : Reader) (otp : GenerateOtp) (k : Key)
    (h : Generate randReader otp = some (some k, none)) :
    otp.Issuer ≠ [] ∧ otp.AccountName ≠ [] ∧
      ∃ name, Algorithm.String otp.Algorithm = some name ∧
        k = ⟨utf8Decode (hotpURL randReader otp name).String, hotpURL randReader otp name⟩ := by
  by_cases h1 : otp.Issuer = []
  · simp [Generate, h1] at h
  by_cases h2 : otp.AccountName = []
  · simp [Generate, h1, h2] at h
  refine ⟨h1, h2, ?_⟩
  rw [generate_eq randReader otp h1 h2] at h
  split at h
  · simp at h
  · cases hn : Algorithm.String otp.Algorithm with
    | none => simp [hn] at h
    | some name =>
      refine ⟨name, rfl, ?_⟩
      rw [hn, Option.map_some', (hotp_key randReader otp name).1] at h
      simp only [Option.some.injEq, Prod.mk.injEq, and_true] at h
      exact h.symm

theorem generates_inv (randReader : Reader) (otp : GeneratesOtp) (k : Key)
    (h : Generates randReader otp = some (some k, none)) :
    otp.Issuer ≠ [] ∧ otp.AccountName ≠ [] ∧
      ∃ name, Algorithm.String otp.Algorithm = some name ∧
        k = ⟨utf8Decode (totpURL randReader otp name).String, totpURL randReader otp name⟩ := by
  by_cases h1 : otp.Issuer = []
  · simp [Generates, h1] at h
  by_cases h2 : otp.AccountName = []
  · simp [Generates, h1, h2] at h
  refine ⟨h1, h2, ?_⟩
  rw [generates_eq randReader otp h1 h2] at h
  split at h
  · simp at h
  · cases hn : Algorithm.String otp.Algorithm with
    | none => simp [hn] at h
    | some name =>
      refine ⟨name, rfl, ?_⟩
      rw [hn, Option.map_some', (totp_key randReader otp name).1] at h
      simp only [Option.some.injEq, Prod.mk.injEq, and_true] at h
      exact h.symm

theorem bytes_ne_nil (s : GoString) (h : s ≠ []) : GoString.bytes s ≠ [] := by
  cases s with
  | nil => exact absurd rfl h
  | cons c cs =>
    intro e
    have hl := utf8Char_length_pos c
    have : (GoString.bytes (c :: cs)).length = 0 := by rw [e]; rfl
    simp only [GoString.bytes, List.flatMap_cons, List.length_append] at this
    omega

theorem factory_accountName (orig : GoString) (host : List Nat) (issuer account : GoString)
    (q : List Nat) :
    Key.AccountName ⟨orig, factoryURL host issuer account q⟩ =
      afterFirstColon (GoString.bytes issuer ++ 58 :: GoString.bytes account) := by
  have e1 : str "/" = [47] := by decide
  have e2 : str ":" = [58] := by decide
  rw [key_accountName_eq]
  simp only [factoryURL, e1, e2, List.cons_append, List.nil_append, List.append_assoc,
    specLabel, if_true]
  rw [if_pos (by simp)]

theorem afterFirstColon_append (a b : List Nat) (h : 58 ∉ a) :
    afterFirstColon (a ++ 58 :: b) = b := by
  have ha : ∀ x ∈ a, (x != 58) = true := by
    intro x hx
    have : x ≠ 58 := fun e => h (e ▸ hx)
    simpa using this
  unfold afterFirstColon
  rw [List.dropWhile_append_of_pos ha]
  simp

theorem factory_issuer (orig : GoString) (host : List Nat) (issuer account : GoString)
    (ps : List (List Nat × List Nat))
    (hps : ∀ p ∈ ps, (∀ b ∈ p.1, b < 256) ∧ ∀ b ∈ p.2, b < 256) (hi : issuer ≠ [])
    (hg : Values.Get (ps.foldl (fun m p => Values.Add m p.1 p.2) []) (str "issuer") =
      GoString.bytes issuer) :
    Key.Issuer ⟨orig, factoryURL host issuer account (encodePairs ps)⟩ =
      GoString.bytes issuer := by
  rw [key_issuer_eq]
  simp only [query_factory host issuer account ps hps, hg]
  rw [if_pos (bytes_ne_nil issuer hi)]

theorem factory_secret (orig : GoString) (host : List Nat) (issuer account : GoString)
    (ps : List (List Nat × List Nat))
    (hps : ∀ p ∈ ps, (∀ b ∈ p.1, b < 256) ∧ ∀ b ∈ p.2, b < 256) :
    Key.Secret ⟨orig, factoryURL host issuer account (encodePairs ps)⟩ =
      Values.Get (ps.foldl (fun m p => Values.Add m p.1 p.2) []) (str "secret") := by
  unfold Key.Secret
  simp only [query_factory host issuer account ps hps]

/-! ## Base32 without padding -/

theorem nopad_chars (b : List Nat) :
    ∀ c ∈ b32NoPadding.EncodeToString b, ∃ x, x < 32 ∧ c = encodeChar x := by
  intro c hc
  unfold Encoding.EncodeToString at hc
  obtain ⟨g, _, hg⟩ := List.mem_flatMap.1 hc
  simp only [b32NoPadding, Bool.false_eq_true, if_false] at hg
  obtain ⟨x, hx, rfl⟩ := List.mem_map.1 hg
  exact ⟨x, groupDigits_lt g x hx, rfl⟩

theorem nopad_bytes (b : List Nat) :
    (61 ∉ GoString.bytes (b32NoPadding.EncodeToString b)) ∧
    (GoString.bytes (b32NoPadding.EncodeToString b)).length =
      (b32NoPadding.EncodeToString b).length := by
  have hascii : ∀ c ∈ b32NoPadding.EncodeToString b, c.toNat < 128 := by
    intro c hc
    obtain ⟨x, hx, rfl⟩ := nopad_chars b c hc
    exact (encodeChar_table x hx).1
  refine ⟨?_, len_of_ascii _ hascii⟩
  rw [bytes_of_ascii _ hascii]
  intro h
  obtain ⟨c, hc, e⟩ := List.mem_map.1 h
  obtain ⟨x, hx, rfl⟩ := nopad_chars b c hc
  have := (encodeChar_table x hx).2.1
  rw [e] at this
  have h61 : decodeMap 61 = 255 := by decide
  omega

theorem nopad_length (n : Nat) : ∀ (b : List Nat), b.length ≤ n →
    (b32NoPadding.EncodeToString b).length = (8 * b.length + 4) / 5 := by
  induction n with
  | zero =>
    intro b hb
    have : b = [] := List.length_eq_zero.1 (by omega)
    subst this
    rfl
  | succ n ih =>
    intro b hb
    by_cases h0 : b = []
    · subst h0
      rfl
    by_cases h5 : 5 ≤ b.length
    · have hsplit : b = b.take 5 ++ b.drop 5 := (List.take_append_drop 5 b).symm
      have hg : (b.take 5).length = 5 := by simp; omega
      have hd : (b.drop 5).length = b.length - 5 := by simp
      rw [hsplit, encodeToString_append _ _ _ hg, List.length_append,
        ih (b.drop 5) (by rw [hd]; omega), List.length_append, hg, hd]
      have hl : (encodeGroup (b.take 5)).length = 8 := by
        rw [encodeGroup, List.length_map, groupDigits_length, hg]
        rfl
      rw [hl]
      omega
    · have hg : b.length ≤ 4 := by omega
      have hpos : 0 < b.length := List.length_pos.2 h0
      rw [encodeToString_short _ _ h0 hg]
      have hp : groupPadding b32NoPadding b = [] := by
        simp [groupPadding, b32NoPadding]
      rw [hp, List.append_nil, encodeGroup, List.length_map, groupDigits_length]
      split_ifs <;> omega

theorem readQuantum_final_nopad (g : List Nat) (h0 : g ≠ []) (hg : g.length ≤ 4) :
    readQuantum b32NoPadding 8 0 [] (encodeGroup g).bytes =
      some ⟨groupDigits g, (groupDigits g).length, true, []⟩ := by
  have hl : (encodeGroup g).bytes.length = (groupDigits g).length := by
    rw [encodeGroup_bytes, List.length_map]
  have hcases := groupDigits_length_short g h0 hg
  have h := readQuantum_alpha b32NoPadding _ (encodeGroup_bytes_alpha g) 8 0 [] []
    (by rw [hl]; exact (groupDigits_length_bounds g).2)
  rw [List.append_nil, hl, encodeGroup_bytes_decode] at h
  rw [h]
  generalize groupDigits g = d at hcases ⊢
  rcases hcases with e | e | e | e <;> rw [e] <;> rfl

theorem decodeLoop_encode_nopad (n : Nat) :
    ∀ (b : List Nat), b.length ≤ n → (∀ x ∈ b, x < 256) → ∀ fuel,
      (b32NoPadding.EncodeToString b).bytes.length ≤ fuel →
      decodeLoop b32NoPadding fuel (b32NoPadding.EncodeToString b).bytes = some b := by
  induction n with
  | zero =>
    intro b hb _ fuel _
    have : b = [] := List.length_eq_zero.1 (by omega)
    subst this
    exact decodeLoop_nil _ _
  | succ n ih =>
    intro b hb hlt fuel hfuel
    by_cases h0 : b = []
    · subst h0
      exact decodeLoop_nil _ _
    by_cases h5 : 5 ≤ b.length
    · have hsplit : b = b.take 5 ++ b.drop 5 := (List.take_append_drop 5 b).symm
      have hg : (b.take 5).length = 5 := by simp; omega
      rw [hsplit, encodeToString_append _ _ _ hg, bytes_append] at hfuel ⊢
      have hl : (encodeGroup (b.take 5)).bytes.length = 8 := by
        rw [encodeGroup_bytes, List.length_map, groupDigits_length, hg]; rfl
      cases fuel with
      | zero => simp [hl] at hfuel
      | succ fuel =>
        have hne : (encodeGroup (b.take 5)).bytes ++
            (b32NoPadding.EncodeToString (b.drop 5)).bytes ≠ [] := by
          intro h
          have := congrArg List.length h
          simp [hl] at this
        rw [decodeLoop_step _ _ _ hne, readQuantum_full _ _ _ hg]
        simp only [Bool.false_eq_true, if_false]
        rw [ih (b.drop 5) (by simp; omega) (fun x hx => hlt x (List.mem_of_mem_drop hx)) fuel
          (by simp [hl] at hfuel; omega)]
        have hp : packQuantum (groupDigits (b.take 5)) 8 = b.take 5 := by
          have := pack_group (b.take 5) (fun x hx => hlt x (List.mem_of_mem_take hx))
            (by intro h; simp [h] at hg) (by omega)
          rw [groupDigits_length, hg] at this
          exact this
        simp only [Option.map_some', hp]
    · have hg : b.length ≤ 4 := by omega
      have hp : groupPadding b32NoPadding b = [] := by
        simp [groupPadding, b32NoPadding]
      rw [encodeToString_short _ _ h0 hg, hp, List.append_nil] at hfuel ⊢
      have hpos := (groupDigits_length_bounds b).1
      have hl : (encodeGroup b).bytes.length = (groupDigits b).length := by
        rw [encodeGroup_bytes, List.length_map]
      have hne : (encodeGroup b).bytes ≠ [] := by
        intro h
        have := congrArg List.length h
        rw [hl] at this
        simp only [List.length_nil] at this
        omega
      cases fuel with
      | zero =>
        rw [hl] at hfuel
        omega
      | succ fuel =>
        rw [decodeLoop_step _ _ _ hne, readQuantum_final_nopad b h0 hg]
        simp only [if_true]
        rw [pack_group b hlt h0 (by omega)]

theorem decodeString_encode_nopad (b : List Nat) (hb : ∀ x ∈ b, x < 256) :
    b32NoPadding.DecodeString (b32NoPadding.EncodeToString b) = some b := by
  unfold Encoding.DecodeString
  simp only [(encoded_string _ (encodeToString_isEncoded b32NoPadding b)).2.2.2]
  exact decodeLoop_encode_nopad b.length b (le_refl _) hb _ (le_refl _)

theorem readBuffer_length (r : Reader) (size : Nat) : (readBuffer r size).length = size := by
  unfold readBuffer
  simp only [List.length_append, List.length_take, List.length_replicate]
  omega

/-! ## Keys built by the factories -/

set_option maxRecDepth 100000 in
theorem example_keys :
    Generate exampleReader exampleOtp = some (some exampleKey, none) ∧
      Generates exampleReader exampleOtps = some (some exampleKeys, none) := by
  decide

/-- C12, counterexample: for the issuer `a:b` and the account name `c`, `Generate` returns
a key whose `AccountName()` is `b:c`, not `c` (its `Issuer()` is `a:b`). -/
theorem generate_account_counterexample :
    (Generate exampleReader ⟨"a:b".toList, "c".toList, 0, [], 0, AlgorithmSHA1, none⟩).map
        (fun r => (r.1.map Key.Issuer, r.1.map Key.AccountName, r.2)) =
      some (some (str "a:b"), some (str "b:c"), none) ∧
    str "b:c" ≠ str "c" := by
  decide

/-- C12, amended: a key built by `Generate` or `Generates` reports the issuer it was given;
its `AccountName()` is the text after the first `:` of `issuer:account`, which is the
account name it was given when the issuer contains no `:`. -/
theorem generate_issuer_account (randReader : Reader) :
    (∀ (otp : GenerateOtp) (k : Key), Generate randReader otp = some (some k, none) →
      k.Issuer = GoString.bytes otp.Issuer ∧
      k.AccountName =
        afterFirstColon (GoString.bytes otp.Issuer ++ 58 :: GoString.bytes otp.AccountName) ∧
      (58 ∉ GoString.bytes otp.Issuer → k.AccountName = GoString.bytes otp.AccountName)) ∧
    (∀ (otp : GeneratesOtp) (k : Key), Generates randReader otp = some (some k, none) →
      k.Issuer = GoString.bytes otp.Issuer ∧
      k.AccountName =
        afterFirstColon (GoString.bytes otp.Issuer ++ 58 :: GoString.bytes otp.AccountName) ∧
      (58 ∉ GoString.bytes otp.Issuer → k.AccountName = GoString.bytes otp.AccountName)) := by
  constructor
  · intro otp k h
    obtain ⟨hi, _, name, _, rfl⟩ := generate_inv randReader otp k h
    refine ⟨?_, ?_, ?_⟩
    · exact factory_issuer _ _ _ _ _ (fun p hp => hotpPairs_lt _ _ _ _ p hp) hi
        (get_hotp _ _ _ _).1
    · exact factory_accountName _ _ _ _ _
    · intro h58
      unfold hotpURL
      rw [factory_accountName, afterFirstColon_append _ _ h58]
  · intro otp k h
    obtain ⟨hi, _, name, _, rfl⟩ := generates_inv randReader otp k h
    refine ⟨?_, ?_, ?_⟩
    · exact factory_issuer _ _ _ _ _ (fun p hp => totpPairs_lt _ _ _ _ _ p hp) hi
        (get_totp _ _ _ _ _).1
    · exact factory_accountName _ _ _ _ _
    · intro h58
      unfold totpURL
      rw [factory_accountName, afterFirstColon_append _ _ h58]

theorem generate_issuer_account_witness :
    (exampleKey.Issuer = str "ACME Co" ∧ exampleKey.AccountName = str "john@x.com") ∧
      (exampleKeys.Issuer = str "ACME Co" ∧ exampleKeys.AccountName = str "john@x.com") :=
  ⟨⟨((generate_issuer_account exampleReader).1 exampleOtp exampleKey example_keys.1).1,
      ((generate_issuer_account exampleReader).1 exampleOtp exampleKey example_keys.1).2.2
        (by decide)⟩,
    ⟨((generate_issuer_account exampleReader).2 exampleOtps exampleKeys example_keys.2).1,
      ((generate_issuer_account exampleReader).2 exampleOtps exampleKeys example_keys.2).2.2
        (by decide)⟩⟩

theorem secret_facts (b : List Nat) (hb : ∀ x ∈ b, x < 256) :
    61 ∉ GoString.bytes (b32NoPadding.EncodeToString b) ∧
    (GoString.bytes (b32NoPadding.EncodeToString b)).length = (8 * b.length + 4) / 5 ∧
    b32NoPadding.DecodeString (b32NoPadding.EncodeToString b) = some b :=
  ⟨(nopad_bytes b).1, by rw [(nopad_bytes b).2, nopad_length b.length b (le_refl _)],
    decodeString_encode_nopad b hb⟩

theorem newSecret_facts (secret : List Nat) (size : Nat) (rand : Reader) :
    (secret ≠ [] → (newSecret secret size rand).1 = secret) ∧
    (secret = [] → (newSecret secret size rand).1 = readBuffer rand size ∧
      (newSecret secret size rand).1.length = size) := by
  unfold newSecret
  constructor
  · intro h
    have : secret.length ≠ 0 := fun e => h (List.length_eq_zero.1 e)
    rw [if_pos this]
  · intro h
    subst h
    simp [readBuffer_length]

/-- C13: the `Secret()` of a key built by `Generate` or `Generates` is the unpadded Base32
encoding of the secret bytes `B`, the secret of the caller when it is not empty and
otherwise the buffer of `SecretSize` bytes (10 or 20 when `SecretSize` is 0) after the read
from the random source: it holds no `=`, has `ceil(8*len(B)/5)` characters, and decodes
back to `B`. -/
theorem generate_secret (randReader : Reader) :
    (∀ (otp : GenerateOtp) (k : Key), Generate randReader otp = some (some k, none) →
      (∀ b ∈ otp.secretBytes randReader, b < 256) →
      k.Secret = GoString.bytes (b32NoPadding.EncodeToString (otp.secretBytes randReader)) ∧
      61 ∉ k.Secret ∧
      k.Secret.length = (8 * (otp.secretBytes randReader).length + 4) / 5 ∧
      b32NoPadding.DecodeString (b32NoPadding.EncodeToString (otp.secretBytes randReader)) =
        some (otp.secretBytes randReader) ∧
      (otp.Secret ≠ [] → otp.secretBytes randReader = otp.Secret) ∧
      (otp.Secret = [] →
        otp.secretBytes randReader = readBuffer (otp.Rand.getD randReader)
          (if otp.SecretSize = 0 then 10 else otp.SecretSize) ∧
        (otp.secretBytes randReader).length =
          if otp.SecretSize = 0 then 10 else otp.SecretSize)) ∧
    (∀ (otp : GeneratesOtp) (k : Key), Generates randReader otp = some (some k, none) →
      (∀ b ∈ otp.secretBytes randReader, b < 256) →
      k.Secret = GoString.bytes (b32NoPadding.EncodeToString (otp.secretBytes randReader)) ∧
      61 ∉ k.Secret ∧
      k.Secret.length = (8 * (otp.secretBytes randReader).length + 4) / 5 ∧
      b32NoPadding.DecodeString (b32NoPadding.EncodeToString (otp.secretBytes randReader)) =
        some (otp.secretBytes randReader) ∧
      (otp.Secret ≠ [] → otp.secretBytes randReader = otp.Secret) ∧
      (otp.Secret = [] →
        otp.secretBytes randReader = readBuffer (otp.Rand.getD randReader)
          (if otp.SecretSize = 0 then 20 else otp.SecretSize) ∧
        (otp.secretBytes randReader).length =
          if otp.SecretSize = 0 then 20 else otp.SecretSize)) := by
  constructor
  · intro otp k h hb
    obtain ⟨_, _, name, _, rfl⟩ := generate_inv randReader otp k h
    have hs : Key.Secret ⟨utf8Decode (hotpURL randReader otp name).String,
        hotpURL randReader otp name⟩ =
          GoString.bytes (b32NoPadding.EncodeToString (otp.secretBytes randReader)) := by
      unfold hotpURL
      rw [factory_secret _ _ _ _ _ (fun p hp => hotpPairs_lt _ _ _ _ p hp)]
      exact (get_hotp _ _ _ _).2
    obtain ⟨f1, f2, f3⟩ := secret_facts _ hb
    rw [hs]
    exact ⟨rfl, f1, f2, f3, (newSecret_facts _ _ _).1, (newSecret_facts _ _ _).2⟩
  · intro otp k h hb
    obtain ⟨_, _, name, _, rfl⟩ := generates_inv randReader otp k h
    have hs : Key.Secret ⟨utf8Decode (totpURL randReader otp name).String,
        totpURL randReader otp name⟩ =
          GoString.bytes (b32NoPadding.EncodeToString (otp.secretBytes randReader)) := by
      unfold totpURL
      rw [factory_secret _ _ _ _ _ (fun p hp => totpPairs_lt _ _ _ _ _ p hp)]
      exact (get_totp _ _ _ _ _).2
    obtain ⟨f1, f2, f3⟩ := secret_facts _ hb
    rw [hs]
    exact ⟨rfl, f1, f2, f3, (newSecret_facts _ _ _).1, (newSecret_facts _ _ _).2⟩

theorem generate_secret_witness :
    (exampleKey.Secret = str "AADQ4FI4EMVDCOB7" ∧ exampleKey.Secret.length = 16) ∧
      (exampleKeys.Secret = str "AADQ4FI4EMVDCOB7IZGVIW3CNFYHO7UF" ∧
        exampleKeys.Secret.length = 32) :=
  ⟨⟨((generate_secret exampleReader).1 exampleOtp exampleKey example_keys.1
        (by decide)).1.trans (by decide),
      ((generate_secret exampleReader).1 exampleOtp exampleKey example_keys.1
        (by decide)).2.2.1.trans (by decide)⟩,
    ⟨((generate_secret exampleReader).2 exampleOtps exampleKeys example_keys.2
        (by decide)).1.trans (by decide),
      ((generate_secret exampleReader).2 exampleOtps exampleKeys example_keys.2
        (by decide)).2.2.1.trans (by decide)⟩⟩

/-! ## The text and the type of a key -/

theorem newKey_inv (s : GoString) (k : Key) (h : NewKeyFromURL s = (some k, none)) :
    Parse (GoString.bytes (TrimSpace s)) = some k.url ∧ k.orig = TrimSpace s := by
  unfold NewKeyFromURL at h
  simp only [] at h
  cases hp : Parse (GoString.bytes (TrimSpace s)) with
  | none =>
    rw [hp] at h
    simp at h
  | some u =>
    rw [hp] at h
    simp only [Prod.mk.injEq, Option.some.injEq, and_true] at h
    subst h
    exact ⟨rfl, rfl⟩

/-- C16, counterexample: the input ` otpauth://totp/x`, with a leading space, is accepted
and `String()` returns it without the space; the input `otpauth://totp/a b` is accepted and
`URL()` returns `otpauth://totp/a%20b`. -/
theorem key_string_counterexample :
    (NewKeyFromURL " otpauth://totp/x".toList).2 = none ∧
    (NewKeyFromURL " otpauth://totp/x".toList).1.map Key.String =
      some "otpauth://totp/x".toList ∧
    "otpauth://totp/x".toList ≠ " otpauth://totp/x".toList ∧
    (NewKeyFromURL "otpauth://totp/a b".toList).2 = none ∧
    (NewKeyFromURL "otpauth://totp/a b".toList).1.map Key.URL =
      some (str "otpauth://totp/a%20b") ∧
    str "otpauth://totp/a%20b" ≠ str "otpauth://totp/a b" := by
  decide

/-- C16, amended: for every input `s` that `NewKeyFromURL` accepts, `String()` returns `s`
without its leading and trailing white space, hence `s` itself when it has none; `URL()`
prints the parsed URL again, and for every key built by `Generate` or `Generates` it
returns the bytes of `String()`. -/
theorem key_string_url (randReader : Reader) :
    (∀ (s : GoString) (k : Key), NewKeyFromURL s = (some k, none) →
      k.String = TrimSpace s ∧ (TrimSpace s = s → k.String = s)) ∧
    (∀ (otp : GenerateOtp) (k : Key), Generate randReader otp = some (some k, none) →
      k.URL = GoString.bytes k.String) ∧
    (∀ (otp : GeneratesOtp) (k : Key), Generates randReader otp = some (some k, none) →
      k.URL = GoString.bytes k.String) := by
  refine ⟨?_, ?_, ?_⟩
  · intro s k h
    have := (newKey_inv s k h).2
    exact ⟨this, fun e => this.trans e⟩
  · intro otp k h
    obtain ⟨_, _, name, _, rfl⟩ := generate_inv randReader otp k h
    exact (hotp_key randReader otp name).2.symm
  · intro otp k h
    obtain ⟨_, _, name, _, rfl⟩ := generates_inv randReader otp k h
    exact (totp_key randReader otp name).2.symm

set_option maxRecDepth 100000 in
theorem key_string_url_witness :
    (exampleKey.String = TrimSpace exampleKey.String ∧
      exampleKey.URL = GoString.bytes exampleKey.String) ∧
    exampleKeys.URL = GoString.bytes exampleKeys.String :=
  ⟨⟨((key_string_url exampleReader).1 exampleKey.String exampleKey (by decide)).1,
      (key_string_url exampleReader).2.1 exampleOtp exampleKey example_keys.1⟩,
    (key_string_url exampleReader).2.2 exampleOtps exampleKeys example_keys.2⟩

/-- C17, the failing input: `NewKeyFromURL` accepts `otpauth://foo/x`, and the `Type()` of
the key is `foo`, neither `totp` nor `hotp`: `Type()` hands out the host of the URI, which
`NewKeyFromURL` has not checked. The keys that `Generate` and `Generates` build do have the
types `hotp` and `totp`. -/
theorem key_type_unchecked :
    (NewKeyFromURL "otpauth://foo/x".toList).2 = none ∧
    (NewKeyFromURL "otpauth://foo/x".toList).1.map Key.Type = some (str "foo") ∧
    str "foo" ≠ str "totp" ∧ str "foo" ≠ str "hotp" ∧
    (∀ (randReader : Reader) (otp : GenerateOtp) (k : Key),
      Generate randReader otp = some (some k, none) → k.Type = str "hotp") ∧
    (∀ (randReader : Reader) (otp : GeneratesOtp) (k : Key),
      Generates randReader otp = some (some k, none) → k.Type = str "totp") := by
  refine ⟨by decide, by decide, by decide, by decide, ?_, ?_⟩
  · intro randReader otp k h
    obtain ⟨_, _, name, _, rfl⟩ := generate_inv randReader otp k h
    rfl
  · intro randReader otp k h
    obtain ⟨_, _, name, _, rfl⟩ := generates_inv randReader otp k h
    rfl

/-! ## The comparison of `ValidateCustom` -/

theorem compareLoop_end (x y : List Nat) (fuel v : Nat) (t : List Nat) :
    compareLoop x y fuel ⟨x.length, v, t⟩ = some ⟨x.length, v, t⟩ := by
  cases fuel <;> simp [compareLoop, compareStep]

theorem compareLoop_run (x y : List Nat) (hy : y.length = x.length) :
    ∀ (fuel i v : Nat) (t : List Nat), i ≤ x.length → x.length - i ≤ fuel →
      compareLoop x y fuel ⟨i, v, t⟩ =
        some ⟨x.length, (List.zipWith (· ^^^ ·) (x.drop i) (y.drop i)).foldl (· ||| ·) v,
          t ++ List.range' i (x.length - i)⟩ := by
  intro fuel
  induction fuel with
  | zero =>
    intro i v t hi hf
    have e : i = x.length := by omega
    subst e
    rw [compareLoop_end]
    simp
  | succ f ih =>
    intro i v t hi hf
    by_cases hlt : i < x.length
    · have hlt2 : i < y.length := by omega
      have hstep : compareStep x y ⟨i, v, t⟩ =
          some ⟨i + 1, v ||| (x[i] ^^^ y[i]), t ++ [i]⟩ := by
        unfold compareStep
        simp only []
        rw [if_pos hlt, List.getD_eq_getElem _ _ hlt, List.getD_eq_getElem _ _ hlt2]
      rw [compareLoop, hstep]
      simp only []
      rw [ih (i + 1) _ _ (by omega) (by omega), List.drop_eq_getElem_cons hlt,
        List.drop_eq_getElem_cons hlt2]
      have hr : x.length - i = (x.length - (i + 1)) + 1 := by omega
      rw [hr, List.range'_succ]
      simp only [List.zipWith_cons_cons, List.foldl_cons, List.append_assoc,
        List.singleton_append]
    · have e : i = x.length := by omega
      subst e
      rw [compareLoop_end]
      simp

theorem foldl_or_lt (l : List Nat) : ∀ (v : Nat), v < 256 → (∀ b ∈ l, b < 256) →
    l.foldl (· ||| ·) v < 256 := by
  induction l with
  | nil => intro v hv _; exact hv
  | cons a as ih =>
    intro v hv hl
    rw [List.foldl_cons]
    apply ih
    · exact Nat.or_lt_two_pow (n := 8) hv (hl a (List.mem_cons_self _ _))
    · exact fun b hb => hl b (List.mem_cons_of_mem _ hb)

set_option maxRecDepth 100000 in
theorem byteEq_table : ∀ v, v < 256 → ConstantTimeByteEq v 0 = if v = 0 then 1 else 0 := by
  decide

theorem constantTimeCompareRun_eq (x y : List Nat) (h : y.length = x.length) :
    constantTimeCompareRun x y =
      some (ConstantTimeByteEq ((List.zipWith (· ^^^ ·) x y).foldl (· ||| ·) 0) 0,
        List.range x.length) := by
  unfold constantTimeCompareRun
  rw [if_neg (by simp [h]), compareLoop_run x y h x.length 0 0 [] (by omega) (by omega)]
  simp [List.range_eq_range']

theorem constantTimeCompareRun_value (x y : List Nat) (hx : ∀ b ∈ x, b < 256)
    (hy : ∀ b ∈ y, b < 256) :
    (constantTimeCompareRun x y).map Prod.fst = some (ConstantTimeCompare x y) := by
  by_cases h : x.length = y.length
  · rw [constantTimeCompareRun_eq x y h.symm]
    unfold ConstantTimeCompare
    rw [if_neg (by simp [h])]
    have hlt : (List.zipWith (· ^^^ ·) x y).foldl (· ||| ·) 0 < 256 := by
      apply foldl_or_lt _ 0 (by omega)
      intro b hb
      obtain ⟨i, hi, rfl⟩ := List.getElem_of_mem hb
      rw [List.getElem_zipWith]
      rw [List.length_zipWith] at hi
      exact Nat.xor_lt_two_pow (n := 8) (hx _ (List.getElem_mem _)) (hy _ (List.getElem_mem _))
    rw [Option.map_some', byteEq_table _ hlt]
  · unfold constantTimeCompareRun ConstantTimeCompare
    rw [if_pos h, if_pos h]
    rfl

/-- C21: the comparison of `ValidateCustom`, `subtle.ConstantTimeCompare`, has no early
exit. For two candidates `y1` and `y2` of the same length, the loop ends and the bytes it
reads are the same for both; when the candidates have the length of the computed code `x`,
it reads every index `0 .. len(x)-1` once, wherever the first mismatch is. The value it
returns is the value of `ConstantTimeCompare` that `ValidateCustom` tests: for a candidate
of the right length, `ValidateCustom` returns `true` exactly when the run on the bytes of
the computed code and of the trimmed candidate returns 1. -/
theorem constantTimeCompare_no_early_exit (x y1 y2 : List Nat) (h : y1.length = y2.length) :
    (∃ r1 r2 w, constantTimeCompareRun x y1 = some (r1, w) ∧
      constantTimeCompareRun x y2 = some (r2, w) ∧
      (y1.length = x.length → w = List.range x.length)) ∧
    ((∀ b ∈ x, b < 256) → (∀ b ∈ y1, b < 256) →
      (constantTimeCompareRun x y1).map Prod.fst = some (ConstantTimeCompare x y1)) ∧
    (∀ (passcode secret code : GoString) (counter : Nat) (otps : ValidateOtps),
      GenerateCodeCustom secret counter otps = some (code, none) →
      ((TrimSpace passcode).len : Int) = otps.Digits.Length →
      ∃ r w, constantTimeCompareRun (GoString.bytes code)
          (GoString.bytes (TrimSpace passcode)) = some (r, w) ∧
        ValidateCustom passcode counter secret otps = some (decide (r = 1), none)) := by
  refine ⟨?_, constantTimeCompareRun_value x y1, ?_⟩
  swap
  · intro passcode secret code counter otps hgen hlen
    have hv := constantTimeCompareRun_value (GoString.bytes code)
      (GoString.bytes (TrimSpace passcode)) (bytes_lt _) (bytes_lt _)
    cases hr : constantTimeCompareRun (GoString.bytes code)
        (GoString.bytes (TrimSpace passcode)) with
    | none =>
      rw [hr] at hv
      exact absurd hv (by simp)
    | some rw0 =>
      rw [hr, Option.map_some', Option.some.injEq] at hv
      refine ⟨rw0.1, rw0.2, rfl, ?_⟩
      rw [validateCustom_of_code passcode secret code counter otps hgen, if_neg (by simp [hlen]),
        hv]
      congr 2
      exact decide_eq_decide.2 (constantTimeCompare_eq_one _ _).symm
  by_cases hx : y1.length = x.length
  · exact ⟨_, _, _, constantTimeCompareRun_eq x y1 hx,
      constantTimeCompareRun_eq x y2 (h ▸ hx), fun _ => rfl⟩
  · have h1 : x.length ≠ y1.length := fun e => hx e.symm
    have h2 : x.length ≠ y2.length := h ▸ h1
    refine ⟨0, 0, [], ?_, ?_, fun e => absurd e hx⟩
    · unfold constantTimeCompareRun
      rw [if_pos h1]
    · unfold constantTimeCompareRun
      rw [if_pos h2]

theorem constantTimeCompare_no_early_exit_witness :
    str "023456" ≠ str "123450" ∧
    constantTimeCompareRun (str "123456") (str "023456") = some (0, [0, 1, 2, 3, 4, 5]) ∧
    constantTimeCompareRun (str "123456") (str "123450") = some (0, [0, 1, 2, 3, 4, 5]) ∧
    ((constantTimeCompareRun (str "123456") (str "023456")).map Prod.fst =
      some (ConstantTimeCompare (str "123456") (str "023456"))) :=
  ⟨by decide, by decide, by decide,
    (constantTimeCompare_no_early_exit (str "123456") (str "023456") (str "123450")
      (by decide)).2.1 (by decide) (by decide)⟩

/-! ## Dynamic truncation of a 16-byte MAC -/

theorem truncate_in_bounds (a : Algorithm) (h : HashKind) (key : List Nat) (counter : Nat)
    (ha : a = AlgorithmSHA1 ∨ a = AlgorithmSHA256 ∨ a = AlgorithmSHA512)
    (hh : a.Hash = some h) :
    (truncate (hmacSum h key (beBytes 8 counter))).isSome = true := by
  obtain ⟨h2, e, hsz⟩ := hash_of_algorithm a ha
  rw [hh] at e
  obtain rfl := Option.some.inj e
  rw [truncate_eq_specValue _ (hmacSum_lt h _ _) (by rw [hmacSum_length]; exact hsz)]
  rfl

set_option maxRecDepth 100000 in
/-- C22, the failing input: with the algorithm MD5, the secret `JBSWY3DPEHPK3PX` (nine
bytes) and the counter 0, the MAC has 16 bytes and its last byte is 109, so the offset is
13 and `sum[offset+3]` is index 16: the truncation fails with an index out of range and
`GenerateCodeCustom` panics. For SHA1, SHA256 and SHA512 the four bytes are always inside
the MAC. -/
theorem generateCodeCustom_md5_out_of_range :
    StdEncoding.DecodeString (normalizeSecret "JBSWY3DPEHPK3PX".toList) =
      some [72, 101, 108, 108, 111, 33, 222, 173, 190] ∧
    AlgorithmMD5.Hash = some HashKind.md5 ∧
    hmacSum HashKind.md5 [72, 101, 108, 108, 111, 33, 222, 173, 190] (beBytes 8 0) =
      [82, 240, 64, 72, 79, 42, 127, 189, 88, 51, 22, 103, 148, 111, 185, 109] ∧
    specOffset [82, 240, 64, 72, 79, 42, 127, 189, 88, 51, 22, 103, 148, 111, 185, 109] = 13 ∧
    truncate [82, 240, 64, 72, 79, 42, 127, 189, 88, 51, 22, 103, 148, 111, 185, 109] = none ∧
    GenerateCodeCustom "JBSWY3DPEHPK3PX".toList 0 ⟨DigitsSix, AlgorithmMD5⟩ = none ∧
    (∀ (a : Algorithm) (h : HashKind) (key : List Nat) (counter : Nat),
      a = AlgorithmSHA1 ∨ a = AlgorithmSHA256 ∨ a = AlgorithmSHA512 → a.Hash = some h →
      (truncate (hmacSum h key (beBytes 8 counter))).isSome = true) := by
  refine ⟨by decide!, by decide!, by decide!, by decide!, by decide!, by decide!, ?_⟩
  intro a h key counter ha hh
  exact truncate_in_bounds a h key counter ha hh

end OTP
